import Mathlib

/-!
# SearchServer

A shallow embedding of the TF-IDF document index of `search_server.h` /
`search_server.cpp`, of the tokenizer of `string_processing.cpp` and of the
containers they use, followed by theorems about them.

Conventions of the embedding.

* A `char` is a Lean `Char` (byte `b` is the character with code `b`); a
  `std::string` or `std::string_view` is the list of its characters, compared
  by content.
* A `std::map` / `std::set` is the list of its entries in iteration order
  (ascending keys).  The operations below are defined on every list; that
  they keep the keys strictly ascending is proved separately.
* `double` is an arbitrary linearly ordered field `α` (exact arithmetic) and
  `std::log` is a parameter `ln : α → α`; the claims about real arithmetic are
  read at `α := ℝ`, `ln := Real.log`.  Where the rounding of `double`
  matters, the term frequencies are computed by `AddDocumentDouble` on
  `Double`, a model of the finite binary64 numbers.
* A function that can throw returns `Except Exception _`; a member function
  that both mutates the server and can throw returns the outcome together
  with the server it leaves behind.
-/

/-- Contents of a `std::string` or `std::string_view`. -/
abbrev Str := List Char

/-- The entries of a `std::map<K, V>` in iteration order. -/
abbrev StdMap (K V : Type) := List (K × V)

/-- The elements of a `std::set<T>` in iteration order. -/
abbrev StdSet (T : Type) := List T

/-- The exceptions thrown by the sources (`std::invalid_argument` by the server,
`std::out_of_range` by `std::map::at`), with their message. -/
inductive Exception where
  | invalid_argument (what : Str)
  | out_of_range (what : Str)
  deriving DecidableEq, Repr

namespace StdMap

variable {K V : Type} [LinearOrder K]

/-- `m.find(k)`, with `none` for `m.end()`. -/
def find : StdMap K V → K → Option V
  | [], _ => none
  | (k', v) :: t, k => if k = k' then some v else find t k

/-- `m.count(k)`. -/
def count (m : StdMap K V) (k : K) : Nat :=
  if (find m k).isSome then 1 else 0

/-- `m.at(k)`. -/
def at_ (m : StdMap K V) (k : K) : Except Exception V :=
  match find m k with
  | some v => .ok v
  | none => .error (.out_of_range "map::at".toList)

/-- The statement `m[k] = f(m[k])` (for instance `m[k] += x`): `operator[]`
value-initialises the entry to `dflt` when the key is absent. -/
def access (dflt : V) (f : V → V) (k : K) : StdMap K V → StdMap K V
  | [] => [(k, f dflt)]
  | (k', v) :: t =>
    if k < k' then (k, f dflt) :: (k', v) :: t
    else if k = k' then (k', f v) :: t
    else (k', v) :: access dflt f k t

/-- `m.emplace(k, v)`: nothing happens when the key is present. -/
def emplace (k : K) (v : V) (m : StdMap K V) : StdMap K V :=
  access v id k m

/-- `m.erase(k)`. -/
def erase (k : K) (m : StdMap K V) : StdMap K V :=
  m.filter (fun p => decide (p.1 ≠ k))

/-- The keys in iteration order. -/
def keys (m : StdMap K V) : List K := m.map Prod.fst

end StdMap

namespace StdSet

variable {T : Type} [LinearOrder T]

/-- `s.insert(x)`. -/
def insert (x : T) : StdSet T → StdSet T
  | [] => [x]
  | y :: t =>
    if x < y then x :: y :: t
    else if x = y then y :: t
    else y :: insert x t

/-- `s.count(x)`. -/
def count (s : StdSet T) (x : T) : Nat :=
  if x ∈ s then 1 else 0

/-- `s.erase(x)`. -/
def erase (x : T) (s : StdSet T) : StdSet T :=
  s.filter (fun y => decide (y ≠ x))

end StdSet

/-! ## string_processing -/

/-- `text.find(' ')`: the position of the first space, `none` for `npos`. -/
def findSpace : Str → Option Nat
  | [] => none
  | c :: t => if c = ' ' then some 0 else (findSpace t).map (· + 1)

/-- The `while (true)` loop of `SplitIntoWords`, with `fuel` bounding the
number of iterations. -/
def SplitIntoWords.loop : Nat → Str → List Str → List Str
  | 0, _, result => result
  | fuel + 1, text, result =>
    match findSpace text with
    | none => result ++ [text]
    | some space => loop fuel (text.drop (space + 1)) (result ++ [text.take space])

/-- `SplitIntoWords(text)`; every iteration but the last removes at least one
character, so `text.length + 1` iterations are enough. -/
def SplitIntoWords (text : Str) : List Str :=
  SplitIntoWords.loop (text.length + 1) text []

/-- `MakeUniqueNonEmptyStrings(strings)`. -/
def MakeUniqueNonEmptyStrings (strings : List Str) : StdSet Str :=
  strings.foldl (fun non_empty_strings str =>
    if str.isEmpty then non_empty_strings else StdSet.insert str non_empty_strings) []

/-! ## document.h -/

/-- Modelled from the spec: `document.h` is not among the sources; the spec
gives the status as "one of a fixed small enumeration, e.g.
ACTUAL/IRRELEVANT/BANNED/REMOVED". -/
inductive DocumentStatus where
  | ACTUAL
  | IRRELEVANT
  | BANNED
  | REMOVED
  deriving DecidableEq, Repr

/-- Modelled from the spec: `document.h` is not among the sources; a search
result is the triple "(id, relevance, rating)", built in the sources as
`{ document_id, relevance, rating }`. -/
structure Document (α : Type) where
  id : Int
  relevance : α
  rating : Int
  deriving DecidableEq, Repr

/-! ## search_server -/

/-- `SearchServer::DocumentData`. -/
structure DocumentData where
  rating : Int
  status : DocumentStatus
  deriving DecidableEq, Repr

/-- `SearchServer::QueryWord`. -/
structure QueryWord where
  data : Str
  is_minus : Bool
  is_stop : Bool
  deriving DecidableEq, Repr

/-- `SearchServer::Query`. -/
structure Query where
  plus_words : StdSet Str
  minus_words : StdSet Str
  deriving DecidableEq, Repr

/-- The data members of `SearchServer`. -/
structure SearchServer (α : Type) where
  stop_words_ : StdSet Str
  word_to_document_freqs_ : StdMap Str (StdMap Int α)
  document_to_word_freqs_ : StdMap Int (StdMap Str α)
  strings_and_view_ : StdMap Str (Str × Str)
  documents_ : StdMap Int DocumentData
  document_ids_ : StdSet Int

/-- A `DocumentPredicate`, called as `predicate(id, status, rating)`. -/
abbrev DocumentPredicate := Int → DocumentStatus → Int → Bool

/-- Two's complement reading of an integer as a 32-bit `int`. -/
def wrapInt32 (x : Int) : Int := (x + 2147483648) % 4294967296 - 2147483648

namespace SearchServer

variable {α : Type} [LinearOrderedField α]

/-- `SearchServer::IsValidWord`: no character in `['\0', ' ')`. -/
def IsValidWord (word : Str) : Bool :=
  !(word.any (fun c => decide ('\x00' ≤ c ∧ c < ' ')))

/-- The constructor `SearchServer(const StringContainer& stop_words)`. -/
def new (stop_words : List Str) : Except Exception (SearchServer α) :=
  let stop_words_ := MakeUniqueNonEmptyStrings stop_words
  if !(stop_words_.all IsValidWord) then
    .error (.invalid_argument "Some of stop words are invalid".toList)
  else
    .ok { stop_words_ := stop_words_, word_to_document_freqs_ := [],
          document_to_word_freqs_ := [], strings_and_view_ := [],
          documents_ := [], document_ids_ := [] }

/-- The constructors taking the stop words as one text. -/
def newFromText (stop_words_text : Str) : Except Exception (SearchServer α) :=
  new (SplitIntoWords stop_words_text)

/-- `SearchServer::IsStopWord`. -/
def IsStopWord (s : SearchServer α) (word : Str) : Bool :=
  decide (StdSet.count s.stop_words_ word > 0)

/-- `SearchServer::SplitIntoWordsNoStop`. -/
def SplitIntoWordsNoStop (s : SearchServer α) (text : Str) : Except Exception (List Str) :=
  (SplitIntoWords text).foldlM (fun words word =>
    if !IsValidWord word then
      .error (.invalid_argument ("Word ".toList ++ word ++ " is invalid".toList))
    else if !s.IsStopWord word then .ok (words ++ [word])
    else .ok words) []

/-- `SearchServer::ComputeAverageRating`; `rating_sum` is an `int` and `/` on
`int` truncates toward zero. -/
def ComputeAverageRating (ratings : List Int) : Int :=
  if ratings.isEmpty then 0
  else
    let rating_sum := ratings.foldl (fun rating_sum rating => wrapInt32 (rating_sum + rating)) 0
    Int.tdiv rating_sum (ratings.length : Int)

/-- One iteration of the loop over `words` in `AddDocument` (lines 30-39).  The
view stored in `strings_and_view_` has the content of its key; `.at(s_word)`
cannot throw there because the key has just been inserted. -/
def AddDocument.step (document_id : Int) (inv_word_count : α) (s : SearchServer α)
    (word : Str) : SearchServer α :=
  let strings_and_view_ :=
    if StdMap.count s.strings_and_view_ word = 0 then
      StdMap.access ([], []) (fun _ => (word, word)) word s.strings_and_view_
    else s.strings_and_view_
  let view : Str :=
    match StdMap.find strings_and_view_ word with
    | some entry => entry.2
    | none => word
  { s with
    strings_and_view_ := strings_and_view_
    word_to_document_freqs_ :=
      StdMap.access [] (StdMap.access 0 (· + inv_word_count) document_id) view
        s.word_to_document_freqs_
    document_to_word_freqs_ :=
      StdMap.access [] (StdMap.access 0 (· + inv_word_count) view) document_id
        s.document_to_word_freqs_ }

/-- `SearchServer::AddDocument`: the outcome and the server left behind.  The
term frequencies are computed in the exact field `α`; `AddDocumentDouble`
below computes them in `double`, as the program does. -/
def AddDocument (s : SearchServer α) (document_id : Int) (document : Str)
    (status : DocumentStatus) (ratings : List Int) : Except Exception Unit × SearchServer α :=
  if document_id < 0 ∨ StdMap.count s.documents_ document_id > 0 then
    (.error (.invalid_argument "Invalid document_id".toList), s)
  else
    match s.SplitIntoWordsNoStop document with
    | .error e => (.error e, s)
    | .ok words =>
      let inv_word_count : α := 1 / (words.length : α)
      let s := words.foldl (AddDocument.step document_id inv_word_count) s
      (.ok (),
       { s with
         documents_ := StdMap.emplace document_id
           { rating := ComputeAverageRating ratings, status := status } s.documents_
         document_ids_ := StdSet.insert document_id s.document_ids_ })

/-- `SearchServer::GetDocumentCount`. -/
def GetDocumentCount (s : SearchServer α) : Nat := s.documents_.length

/-- The ids visited by iterating from `begin()` to `end()`. -/
def documentIds (s : SearchServer α) : List Int := s.document_ids_

/-- `SearchServer::GetWordFrequencies`. -/
def GetWordFrequencies (s : SearchServer α) (document_id : Int) : StdMap Str α :=
  match StdMap.find s.document_to_word_freqs_ document_id with
  | some freqs => if freqs.length ≠ 0 then freqs else []
  | none => []

/-- `SearchServer::RemoveDocument(int)`.  `erase(find(..))` is applied to an
iterator that the guard is meant to make valid; erasing by key coincides with
it whenever the id is found. -/
def RemoveDocument (s : SearchServer α) (document_id : Int) : SearchServer α :=
  if StdMap.count s.document_to_word_freqs_ document_id = 0 then s
  else
    { s with
      word_to_document_freqs_ :=
        s.word_to_document_freqs_.map (fun it => (it.1, StdMap.erase document_id it.2))
      documents_ := StdMap.erase document_id s.documents_
      document_ids_ := StdSet.erase document_id s.document_ids_
      document_to_word_freqs_ := StdMap.erase document_id s.document_to_word_freqs_ }

/-- `SearchServer::ParseQueryWord`. -/
def ParseQueryWord (s : SearchServer α) (text : Str) : Except Exception QueryWord :=
  if text.isEmpty then .error (.invalid_argument "Query word is empty".toList)
  else
    let is_minus := decide (text.head? = some '-')
    let text := if is_minus then text.drop 1 else text
    if text.isEmpty ∨ text.head? = some '-' ∨ !IsValidWord text then
      .error (.invalid_argument ("Query word ".toList ++ text ++ " is invalid".toList))
    else .ok { data := text, is_minus := is_minus, is_stop := s.IsStopWord text }

/-- `SearchServer::ParseQuery`. -/
def ParseQuery (s : SearchServer α) (text : Str) : Except Exception Query :=
  (SplitIntoWords text).foldlM (fun result word => do
    let query_word ← s.ParseQueryWord word
    if !query_word.is_stop then
      if query_word.is_minus then
        pure { result with minus_words := StdSet.insert query_word.data result.minus_words }
      else
        pure { result with plus_words := StdSet.insert query_word.data result.plus_words }
    else pure result) { plus_words := [], minus_words := [] }

/-- `SearchServer::ComputeWordInverseDocumentFreq`. -/
def ComputeWordInverseDocumentFreq (ln : α → α) (s : SearchServer α) (word : Str) :
    Except Exception α := do
  let docs ← StdMap.at_ s.word_to_document_freqs_ word
  pure (ln ((s.GetDocumentCount : α) * 1 / (docs.length : α)))

/-- The body of the loop over the postings of a plus-word (lines 162-165). -/
def FindAllDocuments.plusEntry (s : SearchServer α) (document_predicate : DocumentPredicate)
    (inverse_document_freq : α) (document_to_relevance : StdMap Int α) (entry : Int × α) :
    Except Exception (StdMap Int α) := do
  let document_data ← StdMap.at_ s.documents_ entry.1
  if document_predicate entry.1 document_data.status document_data.rating then
    pure (StdMap.access 0 (· + entry.2 * inverse_document_freq) entry.1 document_to_relevance)
  else pure document_to_relevance

/-- The body of the loop over the plus-words (lines 157-166). -/
def FindAllDocuments.plusWord (ln : α → α) (s : SearchServer α)
    (document_predicate : DocumentPredicate) (document_to_relevance : StdMap Int α)
    (word : Str) : Except Exception (StdMap Int α) :=
  match StdMap.find s.word_to_document_freqs_ word with
  | none => pure document_to_relevance
  | some docs => do
    let inverse_document_freq ← s.ComputeWordInverseDocumentFreq ln word
    docs.foldlM (FindAllDocuments.plusEntry s document_predicate inverse_document_freq)
      document_to_relevance

/-- The first loop of the sequential `FindAllDocuments` (lines 156-167). -/
def FindAllDocuments.plusLoop (ln : α → α) (s : SearchServer α) (query : Query)
    (document_predicate : DocumentPredicate) : Except Exception (StdMap Int α) :=
  query.plus_words.foldlM (FindAllDocuments.plusWord ln s document_predicate) []

/-- The body of the loop over the minus-words (lines 170-175). -/
def FindAllDocuments.minusWord (s : SearchServer α) (document_to_relevance : StdMap Int α)
    (word : Str) : StdMap Int α :=
  match StdMap.find s.word_to_document_freqs_ word with
  | none => document_to_relevance
  | some docs =>
    docs.foldl (fun document_to_relevance entry => StdMap.erase entry.1 document_to_relevance)
      document_to_relevance

/-- The second loop of the sequential `FindAllDocuments` (lines 169-176). -/
def FindAllDocuments.minusLoop (s : SearchServer α) (query : Query)
    (document_to_relevance : StdMap Int α) : StdMap Int α :=
  query.minus_words.foldl (FindAllDocuments.minusWord s) document_to_relevance

/-- The body of the last loop of `FindAllDocuments` (lines 180 and 244). -/
def FindAllDocuments.collectEntry (s : SearchServer α) (matched_documents : List (Document α))
    (entry : Int × α) : Except Exception (List (Document α)) := do
  let document_data ← StdMap.at_ s.documents_ entry.1
  pure (matched_documents ++
    [{ id := entry.1, relevance := entry.2, rating := document_data.rating }])

/-- The last loop of `FindAllDocuments` (lines 178-182 and 242-246). -/
def FindAllDocuments.collect (s : SearchServer α) (document_to_relevance : StdMap Int α) :
    Except Exception (List (Document α)) :=
  document_to_relevance.foldlM (FindAllDocuments.collectEntry s) []

/-- `SearchServer::FindAllDocuments(query, document_predicate)`. -/
def FindAllDocuments (ln : α → α) (s : SearchServer α) (query : Query)
    (document_predicate : DocumentPredicate) : Except Exception (List (Document α)) := do
  let document_to_relevance ← FindAllDocuments.plusLoop ln s query document_predicate
  FindAllDocuments.collect s (FindAllDocuments.minusLoop s query document_to_relevance)

/-- The comparator handed to `sort` in `FindTopDocuments` (lines 49-52);
`1e-6` is read as the rational `1 / 1000000`. -/
def FindTopDocuments.comp (lhs rhs : Document α) : Bool :=
  if |lhs.relevance - rhs.relevance| < 1 / 1000000 then decide (lhs.rating > rhs.rating)
  else decide (lhs.relevance > rhs.relevance)

end SearchServer

/-- Insertion of `x` into a list ordered by `comp`, behind the elements that
`comp` places before it. -/
def std_sort.insert {T : Type} (comp : T → T → Bool) (x : T) : List T → List T
  | [] => [x]
  | y :: t => if comp y x then y :: std_sort.insert comp x t else x :: y :: t

/-- `std::sort(first, last, comp)`, a library routine: it permutes the range
so that no element is placed by `comp` before an earlier one, provided `comp`
is a strict weak ordering of the elements.  It is modelled by insertion sort;
the theorems on the order of results use only these two properties. -/
def std_sort {T : Type} (comp : T → T → Bool) : List T → List T
  | [] => []
  | x :: t => std_sort.insert comp x (std_sort comp t)

namespace SearchServer

variable {α : Type} [LinearOrderedField α]

/-- `SearchServer::FindTopDocuments(std::execution::seq, raw_query, document_predicate)`.
`MAX_RESULT_DOCUMENT_COUNT` is declared in `document.h`, which is not among
the sources, and is a parameter here. -/
def FindTopDocuments (MAX_RESULT_DOCUMENT_COUNT : Nat) (ln : α → α) (s : SearchServer α)
    (raw_query : Str) (document_predicate : DocumentPredicate) :
    Except Exception (List (Document α)) := do
  let query ← s.ParseQuery raw_query
  let matched_documents ← s.FindAllDocuments ln query document_predicate
  let matched_documents := std_sort FindTopDocuments.comp matched_documents
  if matched_documents.length > MAX_RESULT_DOCUMENT_COUNT then
    pure (matched_documents.take MAX_RESULT_DOCUMENT_COUNT)
  else pure matched_documents

/-- `FindTopDocuments(raw_query, status)`. -/
def FindTopDocumentsStatus (MAX_RESULT_DOCUMENT_COUNT : Nat) (ln : α → α) (s : SearchServer α)
    (raw_query : Str) (status : DocumentStatus) : Except Exception (List (Document α)) :=
  s.FindTopDocuments MAX_RESULT_DOCUMENT_COUNT ln raw_query
    (fun _ document_status _ => decide (document_status = status))

/-- `FindTopDocuments(raw_query)`. -/
def FindTopDocumentsActual (MAX_RESULT_DOCUMENT_COUNT : Nat) (ln : α → α) (s : SearchServer α)
    (raw_query : Str) : Except Exception (List (Document α)) :=
  s.FindTopDocumentsStatus MAX_RESULT_DOCUMENT_COUNT ln raw_query DocumentStatus.ACTUAL

end SearchServer

/-! ## concurrent_map.h and the parallel search -/

/-- Modelled from the spec: `concurrent_map.h` is not among the sources.  §4.2:
"Generic key→value accumulator split into a fixed number `N` of
independently-locked shards, shard selected by `hash(key) mod N`".  The hash
is not specified and is a field; the locks serialise the accesses to a shard,
so that a run is a sequence of accesses. -/
structure ConcurrentMap (V : Type) where
  hash : Int → Nat
  buckets : List (StdMap Int V)

namespace ConcurrentMap

variable {V : Type}

/-- The constructor `ConcurrentMap(bucket_count)`. -/
def new (hash : Int → Nat) (bucket_count : Nat) : ConcurrentMap V :=
  { hash := hash, buckets := List.replicate bucket_count [] }

/-- The index of the shard that owns a key. -/
def shard (cm : ConcurrentMap V) (key : Int) : Nat := cm.hash key % cm.buckets.length

/-- The list with its `i`th bucket replaced by its image under `f`. -/
def updateBucket (f : StdMap Int V → StdMap Int V) : Nat → List (StdMap Int V) →
    List (StdMap Int V)
  | _, [] => []
  | 0, b :: t => f b :: t
  | i + 1, b :: t => b :: updateBucket f i t

/-- Modelled from the spec: `operator[]`, "returns a scoped mutable reference
to the value for `key` (default-valued if absent)", followed by the update `f`
of the referenced value. -/
def access (dflt : V) (f : V → V) (key : Int) (cm : ConcurrentMap V) : ConcurrentMap V :=
  { cm with buckets := updateBucket (StdMap.access dflt f key) (cm.shard key) cm.buckets }

/-- Modelled from the spec: `BuildOrdinaryMap`, "acquires each shard's lock in
turn, merges all shards into one ordered key→value result". -/
def BuildOrdinaryMap (cm : ConcurrentMap V) : StdMap Int V :=
  cm.buckets.foldl (fun result bucket =>
    bucket.foldl (fun result entry =>
      StdMap.access entry.2 (fun _ => entry.2) entry.1 result) result) []

end ConcurrentMap

/-- An interleaving of the steps of concurrent tasks: `schedule` names, step by
step, the task that performs its next step; what is left when the schedule
ends is performed task after task (every task is joined). -/
def interleave {U : Type} : List Nat → List (List U) → List U
  | [], tasks => tasks.flatten
  | i :: schedule, tasks =>
    match tasks.getD i [] with
    | [] => interleave schedule tasks
    | u :: rest => u :: interleave schedule (tasks.set i rest)

/-- The scheduling of one run of the parallel `FindAllDocuments`: the
interleaving of the minus-word scan and that of the four plus-word tasks. -/
structure Schedule where
  minus : List Nat
  plus : List Nat

/-- `std::execution::seq` and `std::execution::par`. -/
inductive ExecutionPolicy where
  | seq
  | par
  deriving DecidableEq, Repr

namespace SearchServer

variable {α : Type} [LinearOrderedField α]

/-- The accesses `minus_ids[id]` that the scan of one minus-word makes (lines
197-203), in order. -/
def FindAllDocumentsPar.minusTask (s : SearchServer α) (word : Str) : List Int :=
  match StdMap.find s.word_to_document_freqs_ word with
  | none => []
  | some docs => docs.map Prod.fst

/-- The body of the loop over the postings of a plus-word in a task (lines
226-230): the access `document_to_relevance[id] += term_freq * idf` it makes,
if any, is appended to `updates`. -/
def FindAllDocumentsPar.plusEntry (s : SearchServer α) (document_predicate : DocumentPredicate)
    (minus : StdMap Int Int) (inverse_document_freq : α) (updates : List (Int × α))
    (entry : Int × α) : Except Exception (List (Int × α)) := do
  let document_data ← StdMap.at_ s.documents_ entry.1
  if document_predicate entry.1 document_data.status document_data.rating &&
      decide (StdMap.count minus entry.1 = 0) then
    pure (updates ++ [(entry.1, entry.2 * inverse_document_freq)])
  else pure updates

/-- The accesses that a task makes for one plus-word (lines 220-234). -/
def FindAllDocumentsPar.plusWord (ln : α → α) (s : SearchServer α)
    (document_predicate : DocumentPredicate) (minus : StdMap Int Int) (word : Str) :
    Except Exception (List (Int × α)) :=
  match StdMap.find s.word_to_document_freqs_ word with
  | none => pure []
  | some docs => do
    let inverse_document_freq ← s.ComputeWordInverseDocumentFreq ln word
    docs.foldlM (FindAllDocumentsPar.plusEntry s document_predicate minus
      inverse_document_freq) []

/-- The accesses of the task of one chunk `[part_begin, part_end)`, in order;
an exception leaves the task and is rethrown by `f.get()`. -/
def FindAllDocumentsPar.plusTask (ln : α → α) (s : SearchServer α)
    (document_predicate : DocumentPredicate) (minus : StdMap Int Int) (chunk : List Str) :
    Except Exception (List (Int × α)) :=
  chunk.foldlM (fun updates word => do
    let more ← FindAllDocumentsPar.plusWord ln s document_predicate minus word
    pure (updates ++ more)) []

/-- The four ranges `[part_begin, part_end)` of the loop of line 216, with
`part_length = size / PART_COUNT`: `[0, L)`, `[L, 2L)`, `[2L, 3L)` and
`[3L, size)`.  The iterators that the increment computes after the fourth
iteration are never used. -/
def FindAllDocumentsPar.chunks (plus_words : StdSet Str) : List (List Str) :=
  let part_length := plus_words.length / 4
  [(0, part_length), (part_length, 2 * part_length), (2 * part_length, 3 * part_length),
    (3 * part_length, plus_words.length)].map
    (fun range => (plus_words.take range.2).drop range.1)

/-- The parallel branch of `FindAllDocuments(policy, query, document_predicate)`
(lines 191-246) under a given scheduling. -/
def FindAllDocumentsPar (hash : Int → Nat) (schedule : Schedule) (ln : α → α)
    (s : SearchServer α) (query : Query) (document_predicate : DocumentPredicate) :
    Except Exception (List (Document α)) := do
  let minus_ids : ConcurrentMap Int :=
    (interleave schedule.minus (query.minus_words.map (FindAllDocumentsPar.minusTask s))).foldl
      (fun minus_ids document_id => minus_ids.access 0 (fun v => v) document_id)
      (ConcurrentMap.new hash 10)
  let minus := minus_ids.BuildOrdinaryMap
  let tasks ← (FindAllDocumentsPar.chunks query.plus_words).mapM
    (FindAllDocumentsPar.plusTask ln s document_predicate minus)
  let document_to_relevance : ConcurrentMap α :=
    (interleave schedule.plus tasks).foldl
      (fun document_to_relevance update =>
        document_to_relevance.access 0 (· + update.2) update.1)
      (ConcurrentMap.new hash 10000)
  FindAllDocuments.collect s document_to_relevance.BuildOrdinaryMap

end SearchServer

/-! ## Specification vocabulary -/

namespace StdMap

variable {K K₂ V : Type} [LinearOrder K] [LinearOrder K₂]

/-- The keys are strictly ascending, as in every `std::map`. -/
def Ordered (m : StdMap K V) : Prop := (keys m).Sorted (· < ·)

/-- The nested lookup `m[k₁][k₂]` without insertion: `none` when either key is
absent. -/
def find2 (m : StdMap K (StdMap K₂ V)) (k₁ : K) (k₂ : K₂) : Option V :=
  (find m k₁).bind (fun inner => find inner k₂)

/-- The sum of the values. -/
def total {α : Type} [LinearOrderedField α] (m : StdMap K α) : α := (m.map Prod.snd).sum

end StdMap

namespace SearchServer

variable {α : Type} [LinearOrderedField α]

/-- The part of the representation invariant that holds at every point of the
loop of `AddDocument`: the containers are ordered, the interned views have the
content of their key, and the two postings mappings mirror each other. -/
structure InvCore (s : SearchServer α) : Prop where
  w2d_ordered : StdMap.Ordered s.word_to_document_freqs_
  w2d_inner : ∀ w docs, StdMap.find s.word_to_document_freqs_ w = some docs → StdMap.Ordered docs
  d2w_ordered : StdMap.Ordered s.document_to_word_freqs_
  d2w_inner : ∀ d ws, StdMap.find s.document_to_word_freqs_ d = some ws → StdMap.Ordered ws
  strings_ordered : StdMap.Ordered s.strings_and_view_
  strings_content : ∀ w e, StdMap.find s.strings_and_view_ w = some e → e = (w, w)
  mirror : ∀ w d, StdMap.find2 s.word_to_document_freqs_ w d =
    StdMap.find2 s.document_to_word_freqs_ d w

/-- The representation invariant of the server between two calls. -/
structure Inv (s : SearchServer α) extends InvCore s : Prop where
  docs_ordered : StdMap.Ordered s.documents_
  ids_eq : s.document_ids_ = StdMap.keys s.documents_
  d2w_docs : ∀ d, d ∈ StdMap.keys s.document_to_word_freqs_ → d ∈ StdMap.keys s.documents_

/-- The servers that a program can hold: a constructed server, and what the
calls of `AddDocument` (successful or not) and `RemoveDocument` leave behind. -/
inductive Reachable : SearchServer α → Prop where
  | new (stop_words : List Str) (s : SearchServer α) :
      SearchServer.new stop_words = .ok s → Reachable s
  | add (s : SearchServer α) (document_id : Int) (document : Str) (status : DocumentStatus)
      (ratings : List Int) :
      Reachable s → Reachable (s.AddDocument document_id document status ratings).2
  | remove (s : SearchServer α) (document_id : Int) :
      Reachable s → Reachable (s.RemoveDocument document_id)

end SearchServer

namespace SearchServer

variable {α : Type} [LinearOrderedField α]

/-- The non-stop tokens of a text, in the order of the text. -/
def nonStopWords (s : SearchServer α) (text : Str) : List Str :=
  (SplitIntoWords text).filter (fun word => !s.IsStopWord word)

/-- Some space-separated token of the text has a character with code in
`[0, 0x20)`. -/
def HasControlChar (text : Str) : Prop :=
  ∃ word ∈ SplitIntoWords text, ∃ c ∈ word, c.toNat < 0x20

end SearchServer

namespace SearchServer

variable {α : Type} [LinearOrderedField α]

/-- The value of `predicate(id, status, rating)` at the stored status and
rating of a document; `false` for an id without metadata. -/
def passes (s : SearchServer α) (document_predicate : DocumentPredicate) (d : Int) : Bool :=
  match StdMap.find s.documents_ d with
  | some data => document_predicate d data.status data.rating
  | none => false

/-- The rating stored for a document (`0` for an id without metadata). -/
def storedRating (s : SearchServer α) (d : Int) : Int :=
  match StdMap.find s.documents_ d with
  | some data => data.rating
  | none => 0

/-- The word occurs in the document: it is a key of `GetWordFrequencies(id)`. -/
def containsWord (s : SearchServer α) (d : Int) (w : Str) : Bool :=
  (StdMap.find (s.GetWordFrequencies d) w).isSome

/-- The term frequency tf(w, d) read from `GetWordFrequencies(id)`. -/
def tf (s : SearchServer α) (w : Str) (d : Int) : α :=
  (StdMap.find (s.GetWordFrequencies d) w).getD 0

/-- The document frequency df(w): the number of stored documents that
contain the word. -/
def df (s : SearchServer α) (w : Str) : Nat :=
  (s.documentIds.filter (fun d => s.containsWord d w)).length

/-- What a plus-word adds to the relevance of a document in the first loop of
`FindAllDocuments`, if anything. -/
def contribution (ln : α → α) (s : SearchServer α) (document_predicate : DocumentPredicate)
    (d : Int) (w : Str) : Option α :=
  match StdMap.find2 s.word_to_document_freqs_ w d with
  | some term_freq =>
    if s.passes document_predicate d then
      some (term_freq * ln ((s.GetDocumentCount : α) * 1 /
        (((StdMap.find s.word_to_document_freqs_ w).getD []).length : α)))
    else none
  | none => none

/-- The documents a query asks for: stored, accepted by the predicate,
containing a plus-word and no minus-word. -/
def Matches (s : SearchServer α) (query : Query) (document_predicate : DocumentPredicate)
    (d : Int) : Bool :=
  s.passes document_predicate d && query.plus_words.any (s.containsWord d) &&
    !query.minus_words.any (s.containsWord d)

end SearchServer

/-- The floor of (sum of ratings / number of ratings), `0` for no ratings: the
rating as the specification words it. -/
def flooredAverageRating (ratings : List Int) : Int :=
  if ratings.isEmpty then 0 else Int.fdiv ratings.sum (ratings.length : Int)

/-- The value is representable as a 32-bit `int`. -/
def FitsInt32 (x : Int) : Prop := -2147483648 ≤ x ∧ x < 2147483648

instance (x : Int) : Decidable (FitsInt32 x) :=
  inferInstanceAs (Decidable (-2147483648 ≤ x ∧ x < 2147483648))

namespace SearchServer

variable {α : Type} [LinearOrderedField α]

/-- Two results are tied for the comparator of `FindTopDocuments`: their
relevances are closer than `1e-6`. -/
def Tied (a b : Document α) : Prop := |a.relevance - b.relevance| < 1 / 1000000

/-- The order of the specification between a result `a` and a result `b`
placed after it: the relevance decides unless the two are tied, then the
rating decides. -/
def RankedBefore (a b : Document α) : Prop :=
  (¬ Tied a b → b.relevance < a.relevance) ∧ (Tied a b → b.rating ≤ a.rating)

end SearchServer

namespace ConcurrentMap

variable {V : Type}

end ConcurrentMap

namespace SearchServer

variable {α : Type} [LinearOrderedField α]

end SearchServer

/-! ## Concrete servers -/

namespace Example

variable (α : Type) [LinearOrderedField α]

/-- A server constructed without stop words. -/
def empty : SearchServer α :=
  { stop_words_ := [], word_to_document_freqs_ := [], document_to_word_freqs_ := [],
    strings_and_view_ := [], documents_ := [], document_ids_ := [] }

/-- The two documents of the scenario of the specification: `(1, "white cat
fluffy tail", ACTUAL, {7,2,7})` and `(2, "fluffy dog", ACTUAL, {5,5})`. -/
def server : SearchServer α :=
  (((empty α).AddDocument 1 "white cat fluffy tail".toList DocumentStatus.ACTUAL [7, 2, 7]).2.AddDocument
    2 "fluffy dog".toList DocumentStatus.ACTUAL [5, 5]).2

/-- A server constructed with the stop word `the`. -/
def stopServer : SearchServer α :=
  { stop_words_ := ["the".toList], word_to_document_freqs_ := [], document_to_word_freqs_ := [],
    strings_and_view_ := [], documents_ := [], document_ids_ := [] }

end Example

namespace Example

variable (α : Type) [LinearOrderedField α]

/-- The text `w x x .. x` with `n` words `x`: `n + 1` tokens. -/
def longText (n : Nat) : Str :=
  [' '].intercalate ("w".toList :: List.replicate n "x".toList)

/-- The server that a call of `AddDocument` leaves behind.  It is kept folded
during elaboration: the servers below hold documents of several hundred
words and are reasoned about, not evaluated. -/
@[irreducible] def added (s : SearchServer α) (document_id : Int) (document : Str)
    (status : DocumentStatus) (ratings : List Int) : SearchServer α :=
  (s.AddDocument document_id document status ratings).2

/-- Three documents of 602, 601 and 600 words that contain `w` once, with
ratings 3, 2 and 1, and a document without `w`. -/
def tieServer : SearchServer α :=
  added α (added α (added α (added α (empty α)
    1 (longText 601) DocumentStatus.ACTUAL [3])
    2 (longText 600) DocumentStatus.ACTUAL [2])
    3 (longText 599) DocumentStatus.ACTUAL [1])
    4 "x".toList DocumentStatus.ACTUAL [0]

end Example

namespace Example

variable {α : Type} [LinearOrderedField α]

/-- A description of a server without stop words by its observable content:
the ids, the metadata of each id and the lookups of `GetWordFrequencies`. -/
def Describes (s : SearchServer α) (ids : List Int) (data : Int → Option DocumentData)
    (freq : Int → Str → Option α) : Prop :=
  SearchServer.Inv s ∧ s.stop_words_ = [] ∧ s.documentIds = ids ∧
    s.GetDocumentCount = ids.length ∧
    (∀ d, StdMap.find s.documents_ d = data d) ∧
    (∀ d w, StdMap.find (s.GetWordFrequencies d) w = freq d w)

end Example

/-! ## MatchDocument -/

/-- Modelled from the spec: `document.h` is not among the sources.  The
"empty/undefined status" that `MatchDocument` returns for an unknown id is the
value-initialised `DocumentStatus{}`, the enumerator of value 0, taken to be
the first one in the list of the spec. -/
def DocumentStatus.valueInitialized : DocumentStatus := DocumentStatus.ACTUAL

/-- `std::any_of(first, last, pred)`, a library routine, for a predicate that
acts on a state: the elements are visited in order and the visit stops at the
first one for which `pred` returns `true`. -/
def std_any_of {T σ : Type} (pred : σ → T → Bool × σ) : List T → σ → Bool × σ
  | [], state => (false, state)
  | x :: rest, state =>
    if (pred state x).1 then (true, (pred state x).2)
    else std_any_of pred rest (pred state x).2

namespace SearchServer

variable {α : Type} [LinearOrderedField α]

/-- The body of the `for_each` over the plus-words in `MatchDocument` (lines
121-126). -/
def MatchDocument.plusWord (s : SearchServer α) (document_id : Int) (matched_words : List Str)
    (word : Str) : List Str :=
  match StdMap.find s.word_to_document_freqs_ word with
  | none => matched_words
  | some docs =>
    if StdMap.count docs document_id ≠ 0 then matched_words ++ [word] else matched_words

/-- The predicate of the `any_of` over the minus-words in `MatchDocument`
(lines 129-138): its result and the `matched_words` it leaves. -/
def MatchDocument.minusWord (s : SearchServer α) (document_id : Int) (matched_words : List Str)
    (word : Str) : Bool × List Str :=
  match StdMap.find s.word_to_document_freqs_ word with
  | none => (false, matched_words)
  | some docs =>
    if StdMap.count docs document_id ≠ 0 then (true, [])
    else (true, matched_words)

/-- `SearchServer::MatchDocument(std::execution::seq, raw_query, document_id)`,
which `MatchDocument(raw_query, document_id)` forwards to. -/
def MatchDocument (s : SearchServer α) (raw_query : Str) (document_id : Int) :
    Except Exception (List Str × DocumentStatus) :=
  if !IsValidWord raw_query then .error (.invalid_argument "Query is invalid".toList)
  else do
    let query ← s.ParseQuery raw_query
    if StdSet.count s.document_ids_ document_id = 0 then
      pure ([], DocumentStatus.valueInitialized)
    else
      let matched_words := query.plus_words.foldl (MatchDocument.plusWord s document_id) []
      let matched_words :=
        (std_any_of (MatchDocument.minusWord s document_id) query.minus_words matched_words).2
      let document_data ← StdMap.at_ s.documents_ document_id
      pure (matched_words, document_data.status)

end SearchServer

/-! ## request_queue -/

/-- `RequestQueue::QueryResult`. -/
structure QueryResult (α : Type) where
  results : List (Document α)
  query : Str

/-- The data members of `RequestQueue` other than the reference `server`, which
is passed to each call; `requests_` lists the deque from the front. -/
structure RequestQueue (α : Type) where
  requests_ : List (QueryResult α)
  cache : Int

namespace RequestQueue

variable {α : Type} [LinearOrderedField α]

/-- `RequestQueue::sec_in_day_`. -/
def sec_in_day_ : Int := 1440

/-- The constructor `RequestQueue(search_server)`. -/
def new : RequestQueue α := { requests_ := [], cache := 0 }

/-- The body of the loop over `documents` in `AddFindRequest` (lines 33-37):
`QR` keeps the results pushed so far, and a copy of it is pushed for each
document. -/
def AddFindRequest.push (raw_query : Str) (state : QueryResult α × List (QueryResult α))
    (document : Document α) : QueryResult α × List (QueryResult α) :=
  let QR : QueryResult α := { results := state.1.results ++ [document], query := raw_query }
  (QR, state.2 ++ [QR])

/-- The loop `while (cache > sec_in_day_) { requests_.pop_front(); --cache; }`,
with `fuel` bounding the number of iterations. -/
def AddFindRequest.evict : Nat → RequestQueue α → RequestQueue α
  | 0, rq => rq
  | fuel + 1, rq =>
    if rq.cache > sec_in_day_ then
      AddFindRequest.evict fuel { requests_ := rq.requests_.tail, cache := rq.cache - 1 }
    else rq

/-- `RequestQueue::AddFindRequest(raw_query, document_predicate)`: the outcome
and the queue left behind.  Every iteration of the eviction loop decrements
`cache`, so that `cache - sec_in_day_` iterations are enough. -/
def AddFindRequest (MAX_RESULT_DOCUMENT_COUNT : Nat) (ln : α → α) (server : SearchServer α)
    (rq : RequestQueue α) (raw_query : Str) (document_predicate : DocumentPredicate) :
    Except Exception (List (Document α)) × RequestQueue α :=
  match server.FindTopDocuments MAX_RESULT_DOCUMENT_COUNT ln raw_query document_predicate with
  | .error e => (.error e, rq)
  | .ok documents =>
    let pushed : RequestQueue α :=
      if documents.length = 0 then
        { requests_ := rq.requests_ ++
            [{ results := [{ id := -1, relevance := -(11 / 10), rating := -1 }],
               query := raw_query }],
          cache := rq.cache + 1 }
      else
        { requests_ :=
            (documents.foldl (AddFindRequest.push raw_query)
              ({ results := [], query := [] }, rq.requests_)).2,
          cache := rq.cache + 1 }
    (.ok documents, AddFindRequest.evict (pushed.cache - sec_in_day_).toNat pushed)

/-- `RequestQueue::GetNoResultRequests`; `ref.at(0)` throws on an entry
without results. -/
def GetNoResultRequests (rq : RequestQueue α) : Except Exception Int :=
  rq.requests_.foldlM (fun non_existant request =>
    match request.results with
    | [] => .error (.out_of_range "vector::at".toList)
    | first :: _ =>
      if first.id = -1 ∧ first.rating = -1 ∧ request.results.length = 1 then
        .ok (non_existant + 1)
      else .ok non_existant) 0

end RequestQueue

/-! ## The vocabulary of the specification, continued -/

namespace SearchServer

variable {α : Type} [LinearOrderedField α]

/-- The body of the loop over the tokens in `ParseQuery` (lines 242-251). -/
def ParseQuery.step (s : SearchServer α) (result : Query) (word : Str) :
    Except Exception Query := do
  let query_word ← s.ParseQueryWord word
  if !query_word.is_stop then
    if query_word.is_minus then
      pure { result with minus_words := StdSet.insert query_word.data result.minus_words }
    else
      pure { result with plus_words := StdSet.insert query_word.data result.plus_words }
  else pure result

/-- A query token after stripping one leading `-` when present. -/
def stripMinus (token : Str) : Str :=
  if token.head? = some '-' then token.drop 1 else token

/-- A malformed query token: after stripping one leading `-` when present it
is empty, or begins with `-`, or contains a character with code in
`[0, 0x20)`. -/
def BadToken (token : Str) : Prop :=
  stripMinus token = [] ∨ (stripMinus token).head? = some '-' ∨
    ∃ c ∈ stripMinus token, c.toNat < 0x20

instance (token : Str) : Decidable (BadToken token) :=
  inferInstanceAs (Decidable (_ ∨ _ ∨ _))

end SearchServer

/-- An entry of the sentinel shape: a single result with id -1 and rating
-1. -/
def QueryResult.isSentinel {α : Type} (request : QueryResult α) : Bool :=
  match request.results with
  | [first] => decide (first.id = -1 ∧ first.rating = -1)
  | _ => false

namespace RequestQueue

variable {α : Type} [LinearOrderedField α]

/-- One call of `AddFindRequest`: the state of the referenced server at the
time of the call, the query and the predicate. -/
structure Call (α : Type) where
  server : SearchServer α
  raw_query : Str
  document_predicate : DocumentPredicate

/-- The queue after a sequence of calls of `AddFindRequest`, in order. -/
def run (MAX_RESULT_DOCUMENT_COUNT : Nat) (ln : α → α) (rq : RequestQueue α)
    (calls : List (Call α)) : RequestQueue α :=
  calls.foldl (fun rq call =>
    (AddFindRequest MAX_RESULT_DOCUMENT_COUNT ln call.server rq call.raw_query
      call.document_predicate).2) rq

end RequestQueue

namespace Example

variable (α : Type) [LinearOrderedField α]

/-- The call `AddFindRequest(raw_query)` at the two-document example server;
it forwards to `AddFindRequest(raw_query, DocumentStatus::ACTUAL)`, whose
predicate compares the status. -/
def request (raw_query : Str) : RequestQueue.Call α :=
  { server := Example.server α
    raw_query := raw_query
    document_predicate := fun _ document_status _ =>
      decide (document_status = DocumentStatus.ACTUAL) }

end Example

/-! ## RemoveDocument with an execution policy -/

namespace SearchServer

variable {α : Type} [LinearOrderedField α]

/-- The function that `for_each` applies in `RemoveDocument(policy, document_id)`
(search_server.h, lines 99-104), at the entry of `word_to_document_freqs_` in
the given position: it changes the posting list of that entry only. -/
def RemoveDocumentPolicy.visit (document_id : Int)
    (word_to_document_freqs_ : StdMap Str (StdMap Int α)) (position : Nat) :
    StdMap Str (StdMap Int α) :=
  List.modify (fun to_erase => (to_erase.1, StdMap.erase document_id to_erase.2)) position
    word_to_document_freqs_

/-- `SearchServer::RemoveDocument(policy, document_id)` (search_server.h, lines
91-112).  `for_each(policy, ..)` applies its function once to every entry;
under `seq` from the first entry to the last, under `par` in an order that is
left open: `order` lists the positions of the entries in the order of the
visits. -/
def RemoveDocumentPolicy (policy : ExecutionPolicy) (order : List Nat) (s : SearchServer α)
    (document_id : Int) : SearchServer α :=
  if StdMap.count s.document_to_word_freqs_ document_id = 0 then s
  else
    { s with
      word_to_document_freqs_ :=
        match policy with
        | .seq =>
          (List.range s.word_to_document_freqs_.length).foldl
            (RemoveDocumentPolicy.visit document_id) s.word_to_document_freqs_
        | .par => order.foldl (RemoveDocumentPolicy.visit document_id) s.word_to_document_freqs_
      documents_ := StdMap.erase document_id s.documents_
      document_ids_ := StdSet.erase document_id s.document_ids_
      document_to_word_freqs_ := StdMap.erase document_id s.document_to_word_freqs_ }

/-- The servers that a program can hold when it also calls the policy overload
of `RemoveDocument`; a parallel `for_each` visits every entry once. -/
inductive ReachableWithPolicy : SearchServer α → Prop where
  | new (stop_words : List Str) (s : SearchServer α) :
      SearchServer.new stop_words = .ok s → ReachableWithPolicy s
  | add (s : SearchServer α) (document_id : Int) (document : Str) (status : DocumentStatus)
      (ratings : List Int) :
      ReachableWithPolicy s →
      ReachableWithPolicy (s.AddDocument document_id document status ratings).2
  | remove (s : SearchServer α) (document_id : Int) :
      ReachableWithPolicy s → ReachableWithPolicy (s.RemoveDocument document_id)
  | removePolicy (s : SearchServer α) (policy : ExecutionPolicy) (order : List Nat)
      (document_id : Int) :
      order.Perm (List.range s.word_to_document_freqs_.length) →
      ReachableWithPolicy s →
      ReachableWithPolicy (s.RemoveDocumentPolicy policy order document_id)

/-- The servers built by the constructor and calls of `AddDocument` alone. -/
inductive ReachableByAdd : SearchServer α → Prop where
  | new (stop_words : List Str) (s : SearchServer α) :
      SearchServer.new stop_words = .ok s → ReachableByAdd s
  | add (s : SearchServer α) (document_id : Int) (document : Str) (status : DocumentStatus)
      (ratings : List Int) :
      ReachableByAdd s → ReachableByAdd (s.AddDocument document_id document status ratings).2

end SearchServer

namespace Example

variable (α : Type) [LinearOrderedField α]

/-- The server after `AddDocument(1, "cat", ACTUAL, {1})` and
`RemoveDocument(1)`, without stop words. -/
def removed : SearchServer α :=
  ((Example.empty α).AddDocument 1 "cat".toList DocumentStatus.ACTUAL [1]).2.RemoveDocument 1

end Example

/-! ## The arithmetic of `double`

The definitions above compute the term frequencies in an exact field.  The
program computes them in `double`; the definitions below follow the same
lines of `AddDocument` with the operations of IEEE 754 binary64 (round to
nearest, ties to even). -/

/-- A finite `double`.  Every finite binary64 number is an integer multiple of
`2 ^ (-1074)`, the smallest subnormal, and `units` is that integer.  The
infinities, NaN, the sign of zero and overflow are not modelled: a term
frequency is a sum of at most `n` values near `1 / n`. -/
structure Double where
  units : Int
  deriving DecidableEq, Repr

namespace Double

/-- `2 ^ k`, computed by a shift. -/
def pow2 (k : Nat) : Nat := 1 <<< k

/-- The position of the leading bit of `n`, for `0 < n < 2 ^ 4096`, found by
bisection: the `k` with `2 ^ k ≤ n < 2 ^ (k + 1)`.  A finite `double` is below
`2 ^ 2098` units and a quotient of two of them below `2 ^ 3172`. -/
def log2 (n : Nat) : Nat :=
  [2048, 1024, 512, 256, 128, 64, 32, 16, 8, 4, 2, 1].foldl
    (fun k step => if pow2 (k + step) ≤ n then k + step else k) 0

/-- The `double` nearest to `numerator / denominator` units, ties to the even
significand: the quotient keeps its 53 leading bits (all of them when it has
at most 53), and `shift` counts the bits dropped. -/
def round (numerator : Int) (denominator : Nat) : Double :=
  let magnitude := numerator.natAbs
  let shift := log2 (magnitude / denominator) + 1 - 53
  let quantum := denominator * pow2 shift
  let q := magnitude / quantum
  let r := magnitude % quantum
  let significand :=
    if 2 * r < quantum then q
    else if quantum < 2 * r then q + 1
    else if q % 2 = 0 then q
    else q + 1
  { units := Int.sign numerator * ((significand * pow2 shift : Nat) : Int) }

/-- The conversion of an unsigned integer to `double`. -/
def ofNat (n : Nat) : Double := round ((n * pow2 1074 : Nat) : Int) 1

/-- `a + b` on `double`. -/
def add (a b : Double) : Double := round (a.units + b.units) 1

/-- `a / b` on `double`, for `b` other than zero; division by zero gives an
infinity or NaN in the program and the value 0 here. -/
def div (a b : Double) : Double :=
  if b.units = 0 then { units := 0 }
  else round (Int.sign b.units * a.units * (pow2 1074 : Nat)) b.units.natAbs

/-- The `double` of value `significand * 2 ^ exponent`, for an exponent of
`-1074` or more. -/
def dyadic (significand : Nat) (exponent : Int) : Double :=
  { units := ((significand * pow2 (exponent + 1074).toNat : Nat) : Int) }

/-- The rational number that a `double` stands for. -/
def toRat (a : Double) : ℚ := (a.units : ℚ) / 2 ^ 1074

end Double

namespace SearchServer

/-- One iteration of the loop over `words` in `AddDocument` (lines 30-39) with
the term frequencies in `double`: `operator[]` inserts `0.0` and `+=` rounds
the sum. -/
def AddDocumentDouble.step (document_id : Int) (inv_word_count : Double)
    (s : SearchServer Double) (word : Str) : SearchServer Double :=
  let strings_and_view_ :=
    if StdMap.count s.strings_and_view_ word = 0 then
      StdMap.access ([], []) (fun _ => (word, word)) word s.strings_and_view_
    else s.strings_and_view_
  let view : Str :=
    match StdMap.find strings_and_view_ word with
    | some entry => entry.2
    | none => word
  { s with
    strings_and_view_ := strings_and_view_
    word_to_document_freqs_ :=
      StdMap.access [] (StdMap.access { units := 0 } (fun v => Double.add v inv_word_count)
        document_id) view s.word_to_document_freqs_
    document_to_word_freqs_ :=
      StdMap.access [] (StdMap.access { units := 0 } (fun v => Double.add v inv_word_count)
        view) document_id s.document_to_word_freqs_ }

/-- `SearchServer::AddDocument` with the term frequencies in `double`, as the
program computes them: `inv_word_count = 1.0 / words.size()` is the rounded
quotient.  For a document without words the program's quotient is an infinity
that no iteration uses. -/
def AddDocumentDouble (s : SearchServer Double) (document_id : Int) (document : Str)
    (status : DocumentStatus) (ratings : List Int) :
    Except Exception Unit × SearchServer Double :=
  if document_id < 0 ∨ StdMap.count s.documents_ document_id > 0 then
    (.error (.invalid_argument "Invalid document_id".toList), s)
  else
    match s.SplitIntoWordsNoStop document with
    | .error e => (.error e, s)
    | .ok words =>
      let inv_word_count : Double := Double.div (Double.ofNat 1) (Double.ofNat words.length)
      let s := words.foldl (AddDocumentDouble.step document_id inv_word_count) s
      (.ok (),
       { s with
         documents_ := StdMap.emplace document_id
           { rating := ComputeAverageRating ratings, status := status } s.documents_
         document_ids_ := StdSet.insert document_id s.document_ids_ })

end SearchServer

/-! ## Lemmas on the containers -/

namespace StdMap

variable {K K₂ V : Type} [LinearOrder K] [LinearOrder K₂]

theorem find_nil (k : K) : find ([] : StdMap K V) k = none := rfl

theorem find_cons (p : K × V) (t : StdMap K V) (k : K) :
    find (p :: t) k = if k = p.1 then some p.2 else find t k := by
  cases p; rfl

omit [LinearOrder K] in
theorem keys_cons (p : K × V) (t : StdMap K V) : keys (p :: t) = p.1 :: keys t := rfl

theorem find_isSome_iff (m : StdMap K V) (k : K) : (find m k).isSome ↔ k ∈ keys m := by
  induction m with
  | nil => simp [find, keys]
  | cons p t ih =>
    rw [find_cons, keys_cons]
    by_cases h : k = p.1
    · simp [h]
    · simp [h, ih]

theorem find_eq_none_iff (m : StdMap K V) (k : K) : find m k = none ↔ k ∉ keys m := by
  rw [← find_isSome_iff]; cases find m k <;> simp

theorem mem_of_find_eq_some {m : StdMap K V} {k : K} {v : V} (h : find m k = some v) :
    (k, v) ∈ m := by
  induction m with
  | nil => simp [find] at h
  | cons p t ih =>
    rw [find_cons] at h
    by_cases hk : k = p.1
    · simp [hk] at h
      subst hk
      cases p
      simp_all
    · simp [hk] at h
      exact List.mem_cons_of_mem _ (ih h)

theorem ordered_cons {p : K × V} {t : StdMap K V} :
    Ordered (p :: t) ↔ (∀ k ∈ keys t, p.1 < k) ∧ Ordered t := by
  simp [Ordered, keys_cons, List.sorted_cons]

theorem Ordered.nodup {m : StdMap K V} (h : Ordered m) : (keys m).Nodup :=
  List.Sorted.nodup h

theorem find_eq_some_iff {m : StdMap K V} (hm : Ordered m) (k : K) (v : V) :
    find m k = some v ↔ (k, v) ∈ m := by
  refine ⟨mem_of_find_eq_some, ?_⟩
  induction m with
  | nil => simp
  | cons p t ih =>
    intro h
    rw [ordered_cons] at hm
    rw [find_cons]
    rcases List.mem_cons.1 h with h | h
    · subst h; simp
    · have hk : k ∈ keys t := List.mem_map.2 ⟨(k, v), h, rfl⟩
      have := hm.1 k hk
      rw [if_neg (ne_of_gt this)]
      exact ih hm.2 h

theorem mem_keys_access (dflt : V) (f : V → V) (k : K) (m : StdMap K V) (k' : K) :
    k' ∈ keys (access dflt f k m) ↔ k' = k ∨ k' ∈ keys m := by
  induction m with
  | nil => simp [access, keys]
  | cons p t ih =>
    obtain ⟨a, b⟩ := p
    unfold access
    split_ifs with h1 h2
    · simp [keys]
    · subst h2; simp [keys]
    · rw [keys_cons, List.mem_cons, ih, keys_cons, List.mem_cons]
      tauto

theorem find_eq_none_of_lt {p : K × V} {t : StdMap K V} (hm : Ordered (p :: t)) {k : K}
    (h : k < p.1) : find (p :: t) k = none := by
  rw [find_eq_none_iff, keys_cons, List.mem_cons]
  rintro (h' | h')
  · exact absurd h (by rw [h']; exact lt_irrefl _)
  · exact absurd (lt_trans h ((ordered_cons.1 hm).1 k h')) (lt_irrefl _)

theorem find_access (dflt : V) (f : V → V) (k : K) {m : StdMap K V} (hm : Ordered m) (k' : K) :
    find (access dflt f k m) k' =
      if k' = k then some (f ((find m k).getD dflt)) else find m k' := by
  induction m with
  | nil =>
    simp only [access, find_cons, find_nil]
    split_ifs <;> simp
  | cons p t ih =>
    obtain ⟨a, b⟩ := p
    unfold access
    by_cases h1 : k < a
    · rw [if_pos h1]
      by_cases h3 : k' = k
      · subst h3
        rw [find_eq_none_of_lt hm h1]
        simp [find_cons]
      · simp [find_cons, h3]
    · rw [if_neg h1]
      by_cases h2 : k = a
      · subst h2; rw [if_pos rfl]
        by_cases h3 : k' = k
        · subst h3; simp [find_cons]
        · simp [find_cons, h3]
      · rw [if_neg h2, find_cons, ih (ordered_cons.1 hm).2, find_cons, find_cons]
        by_cases h3 : k' = k
        · subst h3; simp [h2]
        · simp [h3]

theorem ordered_access (dflt : V) (f : V → V) (k : K) {m : StdMap K V} (hm : Ordered m) :
    Ordered (access dflt f k m) := by
  induction m with
  | nil => simp [access, Ordered, keys]
  | cons p t ih =>
    obtain ⟨a, b⟩ := p
    rw [ordered_cons] at hm
    unfold access
    split_ifs with h1 h2
    · rw [ordered_cons]
      refine ⟨?_, ordered_cons.2 hm⟩
      intro k' hk'
      rcases List.mem_cons.1 hk' with h | h
      · exact h ▸ h1
      · exact lt_trans h1 (hm.1 k' h)
    · exact ordered_cons.2 hm
    · rw [ordered_cons]
      refine ⟨?_, ih hm.2⟩
      intro k' hk'
      rcases (mem_keys_access dflt f k t k').1 hk' with h | h
      · subst h
        exact lt_of_le_of_ne (not_lt.1 h1) (Ne.symm h2)
      · exact hm.1 k' h

theorem find_erase (k : K) (m : StdMap K V) (k' : K) :
    find (erase k m) k' = if k' = k then none else find m k' := by
  induction m with
  | nil => simp [erase, find]
  | cons p t ih =>
    obtain ⟨a, b⟩ := p
    unfold erase at ih ⊢
    rw [List.filter_cons]
    by_cases h : a = k
    · subst h
      simp only [ne_eq, not_true_eq_false, decide_False, Bool.false_eq_true, if_false]
      rw [ih, find_cons]
      split_ifs <;> rfl
    · simp only [ne_eq, h, not_false_eq_true, decide_True, if_true]
      rw [find_cons, find_cons, ih]
      split_ifs with h1 h2 h2
      · exact absurd (h1.symm.trans h2) h
      · rfl
      · rfl
      · rfl

theorem keys_erase_sublist (k : K) (m : StdMap K V) : (keys (erase k m)).Sublist (keys m) :=
  List.Sublist.map _ (List.filter_sublist m)

theorem ordered_erase (k : K) {m : StdMap K V} (hm : Ordered m) : Ordered (erase k m) :=
  List.Pairwise.sublist (keys_erase_sublist k m) hm

theorem mem_keys_erase (k : K) (m : StdMap K V) (k' : K) :
    k' ∈ keys (erase k m) ↔ k' ≠ k ∧ k' ∈ keys m := by
  rw [← find_isSome_iff, find_erase, ← find_isSome_iff]
  split_ifs with h <;> simp [h]

theorem keys_access (dflt : V) (f : V → V) (k : K) (m : StdMap K V) :
    keys (access dflt f k m) = StdSet.insert k (keys m) := by
  induction m with
  | nil => rfl
  | cons p t ih =>
    obtain ⟨a, b⟩ := p
    unfold access
    rw [keys_cons]
    unfold StdSet.insert
    split_ifs with h1 h2
    · rfl
    · rfl
    · rw [keys_cons, ih]

theorem keys_erase (k : K) (m : StdMap K V) : keys (erase k m) = StdSet.erase k (keys m) := by
  induction m with
  | nil => rfl
  | cons p t ih =>
    unfold erase StdSet.erase keys at *
    rw [List.filter_cons, List.map_cons, List.filter_cons]
    split_ifs <;> simp_all

theorem ordered_nil : Ordered ([] : StdMap K V) := List.sorted_nil

theorem find2_access (dflt : V) (f : V → V) (k₁ : K) (k₂ : K₂)
    {m : StdMap K (StdMap K₂ V)} (hm : Ordered m)
    (hin : ∀ k inner, find m k = some inner → Ordered inner) (k₁' : K) (k₂' : K₂) :
    find2 (access [] (access dflt f k₂) k₁ m) k₁' k₂' =
      if k₁' = k₁ ∧ k₂' = k₂ then some (f ((find2 m k₁ k₂).getD dflt)) else find2 m k₁' k₂' := by
  unfold find2
  rw [find_access _ _ _ hm]
  by_cases h1 : k₁' = k₁
  · subst h1
    have ho : Ordered ((find m k₁').getD []) := by
      cases h : find m k₁' with
      | none => exact ordered_nil
      | some inner => exact hin _ _ h
    rw [if_pos rfl, Option.some_bind, find_access _ _ _ ho]
    cases h : find m k₁' <;> simp [find_nil]
  · simp [h1]

theorem inner_ordered_access (dflt : V) (f : V → V) (k₁ : K) (k₂ : K₂)
    {m : StdMap K (StdMap K₂ V)} (hm : Ordered m)
    (hin : ∀ k inner, find m k = some inner → Ordered inner) :
    ∀ k inner, find (access [] (access dflt f k₂) k₁ m) k = some inner → Ordered inner := by
  intro k inner h
  rw [find_access _ _ _ hm] at h
  by_cases h1 : k = k₁
  · rw [if_pos h1] at h
    have ho : Ordered ((find m k₁).getD []) := by
      cases h' : find m k₁ with
      | none => exact ordered_nil
      | some inner => exact hin _ _ h'
    rw [← Option.some.inj h]
    exact ordered_access _ _ _ ho
  · rw [if_neg h1] at h
    exact hin _ _ h

theorem total_access {α : Type} [LinearOrderedField α] (x : α) (k : K) (m : StdMap K α) :
    total (access 0 (· + x) k m) = total m + x := by
  induction m with
  | nil => simp [access, total]
  | cons p t ih =>
    obtain ⟨a, b⟩ := p
    unfold access
    split_ifs with h1 h2
    · simp [total]; ring
    · simp [total]; ring
    · unfold total at ih ⊢
      simp only [List.map_cons, List.sum_cons]
      rw [ih]; ring

end StdMap

/-! ## Ingestion -/

namespace SearchServer

variable {α : Type} [LinearOrderedField α]

theorem isValidWord_eq_false_iff (word : Str) :
    IsValidWord word = false ↔ ∃ c ∈ word, c.toNat < 0x20 := by
  unfold IsValidWord
  simp only [Bool.not_eq_false', List.any_eq_true, decide_eq_true_eq]
  constructor
  · rintro ⟨c, hc, -, h⟩
    exact ⟨c, hc, h⟩
  · rintro ⟨c, hc, h⟩
    exact ⟨c, hc, Nat.zero_le _, h⟩

omit [LinearOrderedField α] in
theorem foldlM_splitNoStop (s : SearchServer α) (l : List Str) (acc : List Str) :
    (l.foldlM (fun words word =>
      if !IsValidWord word then
        (.error (.invalid_argument ("Word ".toList ++ word ++ " is invalid".toList)) :
          Except Exception (List Str))
      else if !s.IsStopWord word then .ok (words ++ [word])
      else .ok words) acc) =
    match l.find? (fun word => !IsValidWord word) with
    | some word => .error (.invalid_argument ("Word ".toList ++ word ++ " is invalid".toList))
    | none => .ok (acc ++ l.filter (fun word => !s.IsStopWord word)) := by
  induction l generalizing acc with
  | nil => simp [pure, Except.pure]
  | cons w t ih =>
    rw [List.foldlM_cons, List.find?_cons, List.filter_cons]
    cases hv : IsValidWord w
    · rfl
    · cases hs : s.IsStopWord w
      · simp only [Bool.not_true, Bool.not_false, if_true, Bool.false_eq_true, if_false, bind,
          Except.bind]
        rw [ih, List.append_assoc]
        rfl
      · simp only [Bool.not_true, Bool.not_false, if_true, Bool.false_eq_true, if_false, bind,
          Except.bind]
        rw [ih]

theorem splitIntoWordsNoStop_eq (s : SearchServer α) (text : Str) :
    s.SplitIntoWordsNoStop text =
    match (SplitIntoWords text).find? (fun word => !IsValidWord word) with
    | some word => .error (.invalid_argument ("Word ".toList ++ word ++ " is invalid".toList))
    | none => .ok (s.nonStopWords text) := by
  unfold SplitIntoWordsNoStop nonStopWords
  rw [foldlM_splitNoStop]
  simp

theorem find?_invalid_eq_none_iff (text : Str) :
    (SplitIntoWords text).find? (fun word => !IsValidWord word) = none ↔ ¬ HasControlChar text := by
  rw [List.find?_eq_none]
  unfold HasControlChar
  constructor
  · rintro h ⟨w, hw, hc⟩
    have := h w hw
    rw [Bool.not_eq_true'] at this
    exact this ((isValidWord_eq_false_iff w).2 hc)
  · intro h w hw
    rw [Bool.not_eq_true']
    intro hne
    exact h ⟨w, hw, (isValidWord_eq_false_iff w).1 hne⟩

theorem splitIntoWordsNoStop_ok {s : SearchServer α} {text : Str} (h : ¬ HasControlChar text) :
    s.SplitIntoWordsNoStop text = .ok (s.nonStopWords text) := by
  rw [splitIntoWordsNoStop_eq, (find?_invalid_eq_none_iff text).2 h]

theorem splitIntoWordsNoStop_error {s : SearchServer α} {text : Str} (h : HasControlChar text) :
    ∃ what, s.SplitIntoWordsNoStop text = .error (.invalid_argument what) := by
  rw [splitIntoWordsNoStop_eq]
  cases hf : (SplitIntoWords text).find? (fun word => !IsValidWord word) with
  | none => exact absurd h ((find?_invalid_eq_none_iff text).1 hf)
  | some w => exact ⟨_, rfl⟩

theorem count_pos_iff {K V : Type} [LinearOrder K] (m : StdMap K V) (k : K) :
    StdMap.count m k > 0 ↔ k ∈ StdMap.keys m := by
  unfold StdMap.count
  rw [← StdMap.find_isSome_iff]
  split_ifs with h <;> simp [h]

theorem count_eq_zero_iff {K V : Type} [LinearOrder K] (m : StdMap K V) (k : K) :
    StdMap.count m k = 0 ↔ k ∉ StdMap.keys m := by
  rw [← count_pos_iff]; omega

/-- The outcome of `AddDocument` and the server it leaves, case by case. -/
theorem addDocument_eq (s : SearchServer α) (document_id : Int) (document : Str)
    (status : DocumentStatus) (ratings : List Int) :
    (document_id < 0 ∨ document_id ∈ StdMap.keys s.documents_ ∨ HasControlChar document) ∧
      (∃ what, (s.AddDocument document_id document status ratings).1 =
        .error (.invalid_argument what)) ∧
      (s.AddDocument document_id document status ratings).2 = s
    ∨
    ¬ (document_id < 0 ∨ document_id ∈ StdMap.keys s.documents_ ∨ HasControlChar document) ∧
      s.AddDocument document_id document status ratings =
        (.ok (),
          let t := (s.nonStopWords document).foldl
            (AddDocument.step document_id (1 / ((s.nonStopWords document).length : α))) s
          { t with
            documents_ := StdMap.emplace document_id
              { rating := ComputeAverageRating ratings, status := status } t.documents_
            document_ids_ := StdSet.insert document_id t.document_ids_ }) := by
  unfold AddDocument
  by_cases h1 : document_id < 0 ∨ StdMap.count s.documents_ document_id > 0
  · left
    rw [if_pos h1]
    refine ⟨?_, ⟨_, rfl⟩, rfl⟩
    rcases h1 with h | h
    · exact Or.inl h
    · exact Or.inr (Or.inl ((count_pos_iff _ _).1 h))
  · rw [if_neg h1]
    by_cases h2 : HasControlChar document
    · left
      obtain ⟨what, hw⟩ := @splitIntoWordsNoStop_error _ _ s _ h2
      rw [hw]
      exact ⟨Or.inr (Or.inr h2), ⟨what, rfl⟩, rfl⟩
    · right
      rw [splitIntoWordsNoStop_ok h2]
      refine ⟨?_, rfl⟩
      rintro (h | h | h)
      · exact h1 (Or.inl h)
      · exact h1 (Or.inr ((count_pos_iff _ _).2 h))
      · exact h2 h

end SearchServer

/-! ## The representation invariant -/

namespace StdMap

variable {K K₂ V W : Type} [LinearOrder K] [LinearOrder K₂]

theorem keys_mapValues (g : V → W) (m : StdMap K V) :
    keys (m.map (fun it => (it.1, g it.2)) : StdMap K W) = keys m := by
  unfold keys
  rw [List.map_map]
  rfl

theorem find_mapValues (g : V → W) (m : StdMap K V) (k : K) :
    find (m.map (fun it => (it.1, g it.2)) : StdMap K W) k = (find m k).map g := by
  induction m with
  | nil => rfl
  | cons p t ih =>
    rw [List.map_cons, find_cons, find_cons, ih]
    split_ifs <;> rfl

theorem find2_erase (k : K) (m : StdMap K (StdMap K₂ V)) (k₁ : K) (k₂ : K₂) :
    find2 (erase k m) k₁ k₂ = if k₁ = k then none else find2 m k₁ k₂ := by
  unfold find2
  rw [find_erase]
  split_ifs <;> rfl

theorem find2_mapErase (k : K₂) (m : StdMap K (StdMap K₂ V)) (k₁ : K) (k₂ : K₂) :
    find2 (m.map (fun it => (it.1, erase k it.2)) : StdMap K (StdMap K₂ V)) k₁ k₂ =
      if k₂ = k then none else find2 m k₁ k₂ := by
  unfold find2
  rw [find_mapValues]
  cases find m k₁ with
  | none => simp
  | some inner =>
    simp only [Option.map_some', Option.some_bind]
    rw [find_erase]

theorem find2_isSome_outer {m : StdMap K (StdMap K₂ V)} {k₁ : K} {k₂ : K₂}
    (h : (find2 m k₁ k₂).isSome) : k₁ ∈ keys m := by
  rw [← find_isSome_iff]
  unfold find2 at h
  cases hf : find m k₁ with
  | none => rw [hf] at h; simp at h
  | some _ => rfl

end StdMap

namespace SearchServer

variable {α : Type} [LinearOrderedField α]

/-- Under the invariant the view taken from `strings_and_view_` is the word
itself. -/
theorem step_eq {s : SearchServer α} (h : InvCore s) (document_id : Int) (x : α) (word : Str) :
    AddDocument.step document_id x s word =
      { s with
        strings_and_view_ :=
          if StdMap.count s.strings_and_view_ word = 0 then
            StdMap.access ([], []) (fun _ => (word, word)) word s.strings_and_view_
          else s.strings_and_view_
        word_to_document_freqs_ :=
          StdMap.access [] (StdMap.access 0 (· + x) document_id) word s.word_to_document_freqs_
        document_to_word_freqs_ :=
          StdMap.access [] (StdMap.access 0 (· + x) word) document_id
            s.document_to_word_freqs_ } := by
  have hview : (match StdMap.find (if StdMap.count s.strings_and_view_ word = 0 then
            StdMap.access ([], []) (fun _ => (word, word)) word s.strings_and_view_
          else s.strings_and_view_) word with
      | some entry => entry.2
      | none => word) = word := by
    by_cases hc : StdMap.count s.strings_and_view_ word = 0
    · rw [if_pos hc, StdMap.find_access _ _ _ h.strings_ordered, if_pos rfl]
    · rw [if_neg hc]
      have hm : word ∈ StdMap.keys s.strings_and_view_ := by
        by_contra hn
        exact hc ((count_eq_zero_iff _ _).2 hn)
      rw [← StdMap.find_isSome_iff] at hm
      obtain ⟨e, he⟩ := Option.isSome_iff_exists.1 hm
      rw [he, h.strings_content _ _ he]
  unfold AddDocument.step
  simp only [hview]

theorem step_invCore {s : SearchServer α} (h : InvCore s) (document_id : Int) (x : α)
    (word : Str) : InvCore (AddDocument.step document_id x s word) := by
  rw [step_eq h]
  refine ⟨?_, ?_, ?_, ?_, ?_, ?_, ?_⟩
  · exact StdMap.ordered_access _ _ _ h.w2d_ordered
  · exact StdMap.inner_ordered_access _ _ _ _ h.w2d_ordered h.w2d_inner
  · exact StdMap.ordered_access _ _ _ h.d2w_ordered
  · exact StdMap.inner_ordered_access _ _ _ _ h.d2w_ordered h.d2w_inner
  · show StdMap.Ordered (if _ then _ else _)
    split_ifs
    · exact StdMap.ordered_access _ _ _ h.strings_ordered
    · exact h.strings_ordered
  · intro w e
    show StdMap.find (if _ then _ else _) w = some e → _
    split_ifs
    · rw [StdMap.find_access _ _ _ h.strings_ordered]
      split_ifs with hw
      · intro he; rw [← Option.some.inj he, hw]
      · exact h.strings_content w e
    · exact h.strings_content w e
  · intro w d
    show StdMap.find2 (StdMap.access _ _ _ _) w d = StdMap.find2 (StdMap.access _ _ _ _) d w
    rw [StdMap.find2_access _ _ _ _ h.w2d_ordered h.w2d_inner,
      StdMap.find2_access _ _ _ _ h.d2w_ordered h.d2w_inner, h.mirror, h.mirror]
    by_cases hc : w = word ∧ d = document_id
    · rw [if_pos hc, if_pos ⟨hc.2, hc.1⟩]
    · rw [if_neg hc, if_neg (fun hc' => hc ⟨hc'.2, hc'.1⟩)]

/-- What the loop of `AddDocument` leaves behind. -/
theorem foldl_step {s : SearchServer α} (h : InvCore s) (document_id : Int) (x : α)
    (words : List Str) :
    let t := words.foldl (AddDocument.step document_id x) s
    InvCore t ∧ t.documents_ = s.documents_ ∧ t.document_ids_ = s.document_ids_ ∧
      t.stop_words_ = s.stop_words_ ∧
      (∀ d w, StdMap.find2 t.document_to_word_freqs_ d w =
        if d = document_id ∧ w ∈ words then
          some ((StdMap.find2 s.document_to_word_freqs_ d w).getD 0 + (words.count w : α) * x)
        else StdMap.find2 s.document_to_word_freqs_ d w) ∧
      (∀ d, d ∈ StdMap.keys t.document_to_word_freqs_ ↔
        (d = document_id ∧ words ≠ []) ∨ d ∈ StdMap.keys s.document_to_word_freqs_) := by
  induction words generalizing s with
  | nil => simp [h]
  | cons w ws ih =>
    have hs := step_invCore h document_id x w
    obtain ⟨i1, i2, i3, i4, i5, i6⟩ := ih hs
    rw [List.foldl_cons]
    refine ⟨i1, ?_, ?_, ?_, ?_, ?_⟩
    · rw [i2, step_eq h]
    · rw [i3, step_eq h]
    · rw [i4, step_eq h]
    · intro d w'
      rw [i5, step_eq h]
      show (if _ then some ((StdMap.find2 (StdMap.access _ _ _ _) d w').getD 0 + _) else
        StdMap.find2 (StdMap.access _ _ _ _) d w') = _
      rw [StdMap.find2_access _ _ _ _ h.d2w_ordered h.d2w_inner]
      by_cases hd : d = document_id
      · subst hd
        by_cases hw : w' = w
        · subst hw
          simp only [true_and, List.mem_cons, true_or, if_true, List.count_cons_self,
            Option.getD_some]
          split_ifs with hmem
          · push_cast; ring_nf
          · rw [List.count_eq_zero_of_not_mem hmem]
            push_cast; ring_nf
        · have hw2 : ¬ w = w' := fun h => hw h.symm
          simp only [true_and, hw, if_false, List.mem_cons, false_or]
          rw [List.count_cons]
          simp [hw2]
      · simp [hd]
    · intro d
      rw [i6, step_eq h]
      show _ ∨ d ∈ StdMap.keys (StdMap.access _ _ _ _) ↔ _
      rw [StdMap.mem_keys_access]
      by_cases hd : d = document_id
      · simp [hd]
      · simp [hd]

end SearchServer

namespace SearchServer

variable {α : Type} [LinearOrderedField α]

theorem inv_new {stop_words : List Str} {s : SearchServer α}
    (h : SearchServer.new stop_words = .ok s) : Inv s := by
  unfold SearchServer.new at h
  simp only at h
  split_ifs at h
  cases h
  refine ⟨⟨?_, ?_, ?_, ?_, ?_, ?_, ?_⟩, ?_, ?_, ?_⟩
  · exact StdMap.ordered_nil
  · intro w docs hf; simp [StdMap.find] at hf
  · exact StdMap.ordered_nil
  · intro w docs hf; simp [StdMap.find] at hf
  · exact StdMap.ordered_nil
  · intro w docs hf; simp [StdMap.find] at hf
  · intro w d; rfl
  · exact StdMap.ordered_nil
  · rfl
  · intro d hd; simp [StdMap.keys] at hd

theorem inv_add {s : SearchServer α} (h : Inv s) (document_id : Int) (document : Str)
    (status : DocumentStatus) (ratings : List Int) :
    Inv (s.AddDocument document_id document status ratings).2 := by
  rcases addDocument_eq s document_id document status ratings with ⟨-, -, h2⟩ | ⟨-, h2⟩
  · rw [h2]; exact h
  · rw [h2]
    obtain ⟨i1, i2, i3, -, -, i6⟩ := foldl_step h.toInvCore document_id
      (1 / ((s.nonStopWords document).length : α)) (s.nonStopWords document)
    refine ⟨⟨i1.w2d_ordered, i1.w2d_inner, i1.d2w_ordered, i1.d2w_inner, i1.strings_ordered,
      i1.strings_content, i1.mirror⟩, ?_, ?_, ?_⟩
    · show StdMap.Ordered (StdMap.emplace _ _ _)
      rw [i2]
      exact StdMap.ordered_access _ _ _ h.docs_ordered
    · show StdSet.insert _ _ = StdMap.keys (StdMap.emplace _ _ _)
      unfold StdMap.emplace
      rw [StdMap.keys_access, i2, i3, h.ids_eq]
    · intro d hd
      show d ∈ StdMap.keys (StdMap.emplace _ _ _)
      unfold StdMap.emplace
      rw [StdMap.mem_keys_access, i2]
      rcases (i6 d).1 hd with hd | hd
      · exact Or.inl hd.1
      · exact Or.inr (h.d2w_docs d hd)

theorem inv_remove {s : SearchServer α} (h : Inv s) (document_id : Int) :
    Inv (s.RemoveDocument document_id) := by
  unfold RemoveDocument
  split_ifs with hc
  · exact h
  · refine ⟨⟨?_, ?_, ?_, ?_, h.strings_ordered, h.strings_content, ?_⟩, ?_, ?_, ?_⟩
    · show StdMap.Ordered (List.map _ _)
      unfold StdMap.Ordered
      rw [StdMap.keys_mapValues]
      exact h.w2d_ordered
    · intro w docs hf
      change StdMap.find (List.map _ _) w = some docs at hf
      rw [StdMap.find_mapValues] at hf
      cases hw : StdMap.find s.word_to_document_freqs_ w with
      | none => rw [hw] at hf; simp at hf
      | some inner =>
        rw [hw] at hf
        simp only [Option.map_some', Option.some.injEq] at hf
        rw [← hf]
        exact StdMap.ordered_erase _ (h.w2d_inner _ _ hw)
    · exact StdMap.ordered_erase _ h.d2w_ordered
    · intro d ws hf
      change StdMap.find (StdMap.erase _ _) d = some ws at hf
      rw [StdMap.find_erase] at hf
      split_ifs at hf
      exact h.d2w_inner _ _ hf
    · intro w d
      show StdMap.find2 (List.map _ _) w d = StdMap.find2 (StdMap.erase _ _) d w
      rw [StdMap.find2_mapErase, StdMap.find2_erase, h.mirror]
    · exact StdMap.ordered_erase _ h.docs_ordered
    · show StdSet.erase _ _ = StdMap.keys (StdMap.erase _ _)
      rw [StdMap.keys_erase, h.ids_eq]
    · intro d hd
      change d ∈ StdMap.keys (StdMap.erase _ _) at hd
      show d ∈ StdMap.keys (StdMap.erase _ _)
      rw [StdMap.mem_keys_erase] at hd ⊢
      exact ⟨hd.1, h.d2w_docs d hd.2⟩

/-- Every server a program can hold satisfies the representation invariant. -/
theorem Reachable.inv {s : SearchServer α} (h : Reachable s) : Inv s := by
  induction h with
  | new stop_words s hs => exact inv_new hs
  | add s document_id document status ratings _ ih => exact inv_add ih _ _ _ _
  | remove s document_id _ ih => exact inv_remove ih _

theorem find_getWordFrequencies (s : SearchServer α) (d : Int) (w : Str) :
    StdMap.find (s.GetWordFrequencies d) w = StdMap.find2 s.document_to_word_freqs_ d w := by
  unfold GetWordFrequencies StdMap.find2
  cases hf : StdMap.find s.document_to_word_freqs_ d with
  | none => rfl
  | some freqs =>
    simp only [Option.some_bind]
    split_ifs with hl
    · rfl
    · have : freqs = [] := List.length_eq_zero.1 (not_not.1 hl)
      rw [this]

theorem total_getWordFrequencies (s : SearchServer α) (d : Int) :
    StdMap.total (s.GetWordFrequencies d) =
      StdMap.total ((StdMap.find s.document_to_word_freqs_ d).getD []) := by
  unfold GetWordFrequencies
  cases hf : StdMap.find s.document_to_word_freqs_ d with
  | none => rfl
  | some freqs =>
    simp only [Option.getD_some]
    split_ifs with hl
    · rfl
    · have : freqs = [] := List.length_eq_zero.1 (not_not.1 hl)
      rw [this]

theorem getWordFrequencies_of_not_mem {s : SearchServer α} (h : Inv s) {d : Int}
    (hd : d ∉ StdMap.keys s.documents_) : s.GetWordFrequencies d = [] := by
  have : StdMap.find s.document_to_word_freqs_ d = none := by
    rw [StdMap.find_eq_none_iff]
    exact fun hm => hd (h.d2w_docs d hm)
  unfold GetWordFrequencies
  rw [this]

theorem foldl_step_total {s : SearchServer α} (h : InvCore s) (document_id : Int) (x : α)
    (words : List Str) :
    StdMap.total ((StdMap.find (words.foldl (AddDocument.step document_id x) s).document_to_word_freqs_
        document_id).getD []) =
      StdMap.total ((StdMap.find s.document_to_word_freqs_ document_id).getD []) +
        (words.length : α) * x := by
  induction words generalizing s with
  | nil => simp
  | cons w ws ih =>
    rw [List.foldl_cons, ih (step_invCore h document_id x w), step_eq h]
    show StdMap.total ((StdMap.find (StdMap.access _ _ _ _) document_id).getD []) + _ = _
    rw [StdMap.find_access _ _ _ h.d2w_ordered, if_pos rfl, Option.getD_some,
      StdMap.total_access, List.length_cons]
    push_cast
    ring

/-- The postings of a freshly added document. -/
theorem addDocument_frequencies {s : SearchServer α} (h : Inv s) {document_id : Int}
    {document : Str} {status : DocumentStatus} {ratings : List Int}
    (hok : (s.AddDocument document_id document status ratings).1 = .ok ()) :
    (∀ w, StdMap.find ((s.AddDocument document_id document status ratings).2.GetWordFrequencies
        document_id) w =
      if w ∈ s.nonStopWords document then
        some (((s.nonStopWords document).count w : α) / ((s.nonStopWords document).length : α))
      else none) ∧
    StdMap.total ((s.AddDocument document_id document status ratings).2.GetWordFrequencies
        document_id) = if s.nonStopWords document = [] then 0 else 1 := by
  rcases addDocument_eq s document_id document status ratings with ⟨-, ⟨what, h1⟩, -⟩ | ⟨hn, h2⟩
  · rw [h1] at hok; cases hok
  · have hid : document_id ∉ StdMap.keys s.documents_ := fun hm => hn (Or.inr (Or.inl hm))
    have hnone : StdMap.find s.document_to_word_freqs_ document_id = none := by
      rw [StdMap.find_eq_none_iff]
      exact fun hm => hid (h.d2w_docs _ hm)
    obtain ⟨-, -, -, -, i5, -⟩ := foldl_step h.toInvCore document_id
      (1 / ((s.nonStopWords document).length : α)) (s.nonStopWords document)
    have htot := foldl_step_total h.toInvCore document_id
      (1 / ((s.nonStopWords document).length : α)) (s.nonStopWords document)
    rw [h2]
    constructor
    · intro w
      rw [find_getWordFrequencies]
      show StdMap.find2 (List.foldl _ s _).document_to_word_freqs_ document_id w = _
      rw [i5]
      have : StdMap.find2 s.document_to_word_freqs_ document_id w = none := by
        unfold StdMap.find2; rw [hnone]; rfl
      rw [this]
      simp only [true_and, Option.getD_none, zero_add, mul_one_div]
    · rw [total_getWordFrequencies]
      show StdMap.total ((StdMap.find (List.foldl _ s _).document_to_word_freqs_ document_id).getD
        []) = _
      rw [htot, hnone]
      split_ifs with he
      · rw [he]; simp [StdMap.total]
      · have hlen : ((s.nonStopWords document).length : α) ≠ 0 :=
          Nat.cast_ne_zero.2 (fun hz => he (List.length_eq_zero.1 hz))
        simp only [Option.getD_none, StdMap.total, List.map_nil, List.sum_nil, zero_add]
        rw [mul_one_div, div_self hlen]

end SearchServer

/-! ## Search -/

namespace SearchServer

variable {α : Type} [LinearOrderedField α]

theorem at_eq_ok {K V : Type} [LinearOrder K] {m : StdMap K V} {k : K} (h : k ∈ StdMap.keys m) :
    ∃ v, StdMap.find m k = some v ∧ StdMap.at_ m k = .ok v := by
  rw [← StdMap.find_isSome_iff] at h
  obtain ⟨v, hv⟩ := Option.isSome_iff_exists.1 h
  exact ⟨v, hv, by unfold StdMap.at_; rw [hv]⟩

theorem plusEntry_fold (s : SearchServer α) (pred : DocumentPredicate) (idf : α)
    (docs : StdMap Int α) (hdocs : ∀ d ∈ StdMap.keys docs, d ∈ StdMap.keys s.documents_)
    (hord : StdMap.Ordered docs) (acc : StdMap Int α) (hacc : StdMap.Ordered acc) :
    ∃ acc', docs.foldlM (FindAllDocuments.plusEntry s pred idf) acc = .ok acc' ∧
      StdMap.Ordered acc' ∧
      ∀ d, StdMap.find acc' d =
        match StdMap.find docs d with
        | some term_freq =>
          if s.passes pred d then some ((StdMap.find acc d).getD 0 + term_freq * idf)
          else StdMap.find acc d
        | none => StdMap.find acc d := by
  induction docs generalizing acc with
  | nil => exact ⟨acc, rfl, hacc, fun d => rfl⟩
  | cons e t ih =>
    obtain ⟨data, hfind, hat⟩ := at_eq_ok (hdocs e.1 (by simp [StdMap.keys]))
    have hord' := StdMap.ordered_cons.1 hord
    have hdocs' : ∀ d ∈ StdMap.keys t, d ∈ StdMap.keys s.documents_ :=
      fun d hd => hdocs d (by rw [StdMap.keys_cons]; exact List.mem_cons_of_mem _ hd)
    have hpass : s.passes pred e.1 = pred e.1 data.status data.rating := by
      unfold passes; rw [hfind]
    have hnone : StdMap.find t e.1 = none := by
      rw [StdMap.find_eq_none_iff]
      exact fun hm => lt_irrefl _ (hord'.1 _ hm)
    rw [List.foldlM_cons]
    unfold FindAllDocuments.plusEntry
    rw [hat]
    simp only [bind, Except.bind, ← hpass]
    by_cases hp : s.passes pred e.1 = true
    · rw [if_pos hp]
      obtain ⟨acc', h1, h2, h3⟩ := ih hdocs' hord'.2
        (StdMap.access 0 (· + e.2 * idf) e.1 acc) (StdMap.ordered_access _ _ _ hacc)
      refine ⟨acc', h1, h2, fun d => ?_⟩
      rw [h3, StdMap.find_cons, StdMap.find_access _ _ _ hacc]
      by_cases hd : d = e.1
      · subst hd
        rw [hnone]
        simp [hp]
      · simp only [hd, if_false]
    · rw [if_neg hp]
      obtain ⟨acc', h1, h2, h3⟩ := ih hdocs' hord'.2 acc hacc
      refine ⟨acc', h1, h2, fun d => ?_⟩
      rw [h3, StdMap.find_cons]
      by_cases hd : d = e.1
      · subst hd
        rw [hnone]
        simp [hp]
      · simp only [hd, if_false]

theorem postings_in_documents {s : SearchServer α} (h : Inv s) {w : Str} {docs : StdMap Int α}
    (hf : StdMap.find s.word_to_document_freqs_ w = some docs) :
    ∀ d ∈ StdMap.keys docs, d ∈ StdMap.keys s.documents_ := by
  intro d hd
  apply h.d2w_docs
  apply @StdMap.find2_isSome_outer _ _ _ _ _ _ _ w
  rw [← h.mirror]
  unfold StdMap.find2
  rw [hf]
  exact (StdMap.find_isSome_iff docs d).2 hd

theorem plusWord_spec {s : SearchServer α} (h : Inv s) (ln : α → α) (pred : DocumentPredicate)
    (acc : StdMap Int α) (hacc : StdMap.Ordered acc) (w : Str) :
    ∃ acc', FindAllDocuments.plusWord ln s pred acc w = .ok acc' ∧ StdMap.Ordered acc' ∧
      ∀ d, StdMap.find acc' d =
        match s.contribution ln pred d w with
        | some x => some ((StdMap.find acc d).getD 0 + x)
        | none => StdMap.find acc d := by
  unfold FindAllDocuments.plusWord contribution
  cases hf : StdMap.find s.word_to_document_freqs_ w with
  | none =>
    refine ⟨acc, rfl, hacc, fun d => ?_⟩
    unfold StdMap.find2
    rw [hf]
    rfl
  | some docs =>
    have hidf : s.ComputeWordInverseDocumentFreq ln w =
        .ok (ln ((s.GetDocumentCount : α) * 1 / (docs.length : α))) := by
      unfold ComputeWordInverseDocumentFreq StdMap.at_
      rw [hf]
      rfl
    obtain ⟨acc', h1, h2, h3⟩ := plusEntry_fold s pred
      (ln ((s.GetDocumentCount : α) * 1 / (docs.length : α))) docs
      (postings_in_documents h hf) (h.w2d_inner _ _ hf) acc hacc
    refine ⟨acc', ?_, h2, fun d => ?_⟩
    · simp only [hidf, bind, Except.bind]
      exact h1
    · rw [h3]
      unfold StdMap.find2
      rw [hf]
      simp only [Option.some_bind, Option.getD_some]
      cases StdMap.find docs d with
      | none => rfl
      | some x => simp only; split_ifs <;> rfl

theorem plusLoop_fold {s : SearchServer α} (h : Inv s) (ln : α → α) (pred : DocumentPredicate)
    (words : List Str) (acc : StdMap Int α) (hacc : StdMap.Ordered acc) :
    ∃ acc', words.foldlM (FindAllDocuments.plusWord ln s pred) acc = .ok acc' ∧
      StdMap.Ordered acc' ∧
      ∀ d, StdMap.find acc' d =
        if words.filterMap (s.contribution ln pred d) = [] then StdMap.find acc d
        else some ((StdMap.find acc d).getD 0 +
          (words.filterMap (s.contribution ln pred d)).sum) := by
  induction words generalizing acc with
  | nil => exact ⟨acc, rfl, hacc, fun d => by simp⟩
  | cons w ws ih =>
    obtain ⟨acc1, a1, a2, a3⟩ := plusWord_spec h ln pred acc hacc w
    obtain ⟨acc', b1, b2, b3⟩ := ih acc1 a2
    refine ⟨acc', ?_, b2, fun d => ?_⟩
    · rw [List.foldlM_cons, a1]
      exact b1
    · rw [b3, a3, List.filterMap_cons]
      cases hc : s.contribution ln pred d w with
      | none => rfl
      | some x =>
        simp only [Option.getD_some, List.sum_cons, List.cons_ne_nil, if_false]
        split_ifs with he
        · rw [he]; simp
        · rw [add_assoc]

end SearchServer

namespace SearchServer

variable {α : Type} [LinearOrderedField α]

theorem erase_fold (docs : StdMap Int α) (acc : StdMap Int α) (hacc : StdMap.Ordered acc) :
    StdMap.Ordered (docs.foldl (fun acc entry => StdMap.erase entry.1 acc) acc) ∧
    ∀ d, StdMap.find (docs.foldl (fun acc entry => StdMap.erase entry.1 acc) acc) d =
      if (StdMap.find docs d).isSome then none else StdMap.find acc d := by
  induction docs generalizing acc with
  | nil => exact ⟨hacc, fun d => rfl⟩
  | cons e t ih =>
    obtain ⟨h1, h2⟩ := ih (StdMap.erase e.1 acc) (StdMap.ordered_erase _ hacc)
    refine ⟨h1, fun d => ?_⟩
    rw [List.foldl_cons, h2, StdMap.find_erase, StdMap.find_cons]
    by_cases hd : d = e.1
    · simp [hd]
    · simp [hd]

theorem minusWord_spec (s : SearchServer α) (acc : StdMap Int α) (hacc : StdMap.Ordered acc)
    (w : Str) :
    StdMap.Ordered (FindAllDocuments.minusWord s acc w) ∧
    ∀ d, StdMap.find (FindAllDocuments.minusWord s acc w) d =
      if (StdMap.find2 s.word_to_document_freqs_ w d).isSome then none
      else StdMap.find acc d := by
  unfold FindAllDocuments.minusWord StdMap.find2
  cases hf : StdMap.find s.word_to_document_freqs_ w with
  | none => exact ⟨hacc, fun d => rfl⟩
  | some docs => exact erase_fold docs acc hacc

theorem minusLoop_fold (s : SearchServer α) (words : List Str) (acc : StdMap Int α)
    (hacc : StdMap.Ordered acc) :
    StdMap.Ordered (words.foldl (FindAllDocuments.minusWord s) acc) ∧
    ∀ d, StdMap.find (words.foldl (FindAllDocuments.minusWord s) acc) d =
      if words.any (fun w => (StdMap.find2 s.word_to_document_freqs_ w d).isSome) then none
      else StdMap.find acc d := by
  induction words generalizing acc with
  | nil => exact ⟨hacc, fun d => rfl⟩
  | cons w ws ih =>
    obtain ⟨a1, a2⟩ := minusWord_spec s acc hacc w
    obtain ⟨b1, b2⟩ := ih _ a1
    refine ⟨b1, fun d => ?_⟩
    rw [List.foldl_cons, b2, a2, List.any_cons]
    cases (StdMap.find2 s.word_to_document_freqs_ w d).isSome <;>
      cases ws.any (fun w => (StdMap.find2 s.word_to_document_freqs_ w d).isSome) <;> rfl

theorem collect_fold (s : SearchServer α) (acc : StdMap Int α)
    (hacc : ∀ d ∈ StdMap.keys acc, d ∈ StdMap.keys s.documents_) (init : List (Document α)) :
    acc.foldlM (FindAllDocuments.collectEntry s) init =
      .ok (init ++ acc.map (fun entry =>
        { id := entry.1, relevance := entry.2, rating := s.storedRating entry.1 })) := by
  induction acc generalizing init with
  | nil => simp [pure, Except.pure]
  | cons e t ih =>
    obtain ⟨data, hfind, hat⟩ := at_eq_ok (hacc e.1 (by simp [StdMap.keys]))
    have hstep : FindAllDocuments.collectEntry s init e =
        .ok (init ++ [{ id := e.1, relevance := e.2, rating := s.storedRating e.1 }]) := by
      unfold FindAllDocuments.collectEntry storedRating
      rw [hat, hfind]
      rfl
    rw [List.foldlM_cons, hstep]
    simp only [bind, Except.bind]
    rw [ih (fun d hd => hacc d (by rw [StdMap.keys_cons]; exact List.mem_cons_of_mem _ hd))]
    simp

/-- The relevance that `FindAllDocuments` accumulates for a document. -/
theorem contribution_isSome_iff (ln : α → α) (s : SearchServer α) (pred : DocumentPredicate)
    (d : Int) (w : Str) :
    (s.contribution ln pred d w).isSome ↔
      (StdMap.find2 s.word_to_document_freqs_ w d).isSome ∧ s.passes pred d = true := by
  unfold contribution
  cases StdMap.find2 s.word_to_document_freqs_ w d with
  | none => simp
  | some x => by_cases hp : s.passes pred d = true <;> simp [hp]

theorem passes_mem_keys {s : SearchServer α} {pred : DocumentPredicate} {d : Int}
    (h : s.passes pred d = true) : d ∈ StdMap.keys s.documents_ := by
  rw [← StdMap.find_isSome_iff]
  unfold passes at h
  cases hf : StdMap.find s.documents_ d with
  | none => rw [hf] at h; cases h
  | some _ => rfl

/-- The map that the two loops of the sequential `FindAllDocuments` build. -/
theorem findAllDocuments_acc {s : SearchServer α} (h : Inv s) (ln : α → α) (query : Query)
    (pred : DocumentPredicate) :
    ∃ acc : StdMap Int α, StdMap.Ordered acc ∧
      (∀ d, StdMap.find acc d =
        if query.minus_words.any (fun w => (StdMap.find2 s.word_to_document_freqs_ w d).isSome)
          ∨ query.plus_words.filterMap (s.contribution ln pred d) = [] then none
        else some ((query.plus_words.filterMap (s.contribution ln pred d)).sum)) ∧
      s.FindAllDocuments ln query pred = FindAllDocuments.collect s acc := by
  obtain ⟨acc1, a1, a2, a3⟩ := plusLoop_fold h ln pred query.plus_words [] StdMap.ordered_nil
  obtain ⟨b1, b2⟩ := minusLoop_fold s query.minus_words acc1 a2
  refine ⟨FindAllDocuments.minusLoop s query acc1, b1, ?_, ?_⟩
  · intro d
    unfold FindAllDocuments.minusLoop
    rw [b2, a3]
    by_cases hm : query.minus_words.any
        (fun w => (StdMap.find2 s.word_to_document_freqs_ w d).isSome) = true
    · simp [hm]
    · by_cases hp : query.plus_words.filterMap (s.contribution ln pred d) = []
      · simp [hm, hp, StdMap.find_nil]
      · simp [hm, hp, StdMap.find_nil]
  · unfold FindAllDocuments FindAllDocuments.plusLoop
    rw [a1]
    rfl

/-- The sequential `FindAllDocuments` returns on every server satisfying the
invariant: the accumulated map, one result per entry. -/
theorem findAllDocuments_spec {s : SearchServer α} (h : Inv s) (ln : α → α) (query : Query)
    (pred : DocumentPredicate) :
    ∃ acc : StdMap Int α, StdMap.Ordered acc ∧
      (∀ d, StdMap.find acc d =
        if query.minus_words.any (fun w => (StdMap.find2 s.word_to_document_freqs_ w d).isSome)
          ∨ query.plus_words.filterMap (s.contribution ln pred d) = [] then none
        else some ((query.plus_words.filterMap (s.contribution ln pred d)).sum)) ∧
      s.FindAllDocuments ln query pred =
        .ok (acc.map (fun entry =>
          { id := entry.1, relevance := entry.2, rating := s.storedRating entry.1 })) := by
  obtain ⟨acc, h1, hfind, h3⟩ := findAllDocuments_acc h ln query pred
  refine ⟨acc, h1, hfind, ?_⟩
  rw [h3]
  unfold FindAllDocuments.collect
  rw [collect_fold, List.nil_append]
  intro d hd
  rw [← StdMap.find_isSome_iff, hfind] at hd
  split_ifs at hd with hc
  · simp at hd
  · push_neg at hc
    obtain ⟨x, hx⟩ := List.exists_mem_of_ne_nil _ hc.2
    obtain ⟨w, -, hw⟩ := List.mem_filterMap.1 hx
    have := (contribution_isSome_iff ln s pred d w).1 (by rw [hw]; rfl)
    exact passes_mem_keys this.2

end SearchServer

theorem std_sort.insert_perm {T : Type} (comp : T → T → Bool) (x : T) (l : List T) :
    (std_sort.insert comp x l).Perm (x :: l) := by
  induction l with
  | nil => exact List.Perm.refl _
  | cons y t ih =>
    unfold std_sort.insert
    split_ifs
    · exact ((List.Perm.cons y ih).trans (List.Perm.swap x y t))
    · exact List.Perm.refl _

theorem std_sort_perm {T : Type} (comp : T → T → Bool) (l : List T) :
    (std_sort comp l).Perm l := by
  induction l with
  | nil => exact List.Perm.refl _
  | cons x t ih =>
    unfold std_sort
    exact (std_sort.insert_perm comp x _).trans (List.Perm.cons x ih)

namespace SearchServer

variable {α : Type} [LinearOrderedField α]

theorem containsWord_eq {s : SearchServer α} (h : Inv s) (d : Int) (w : Str) :
    s.containsWord d w = (StdMap.find2 s.word_to_document_freqs_ w d).isSome := by
  unfold containsWord
  rw [find_getWordFrequencies, h.mirror]

theorem tf_eq {s : SearchServer α} (h : Inv s) (d : Int) (w : Str) :
    s.tf w d = (StdMap.find2 s.word_to_document_freqs_ w d).getD 0 := by
  unfold tf
  rw [find_getWordFrequencies, h.mirror]

theorem documentIds_nodup {s : SearchServer α} (h : Inv s) : s.documentIds.Nodup := by
  unfold documentIds
  rw [h.ids_eq]
  exact h.docs_ordered.nodup

theorem containsWord_mem {s : SearchServer α} (h : Inv s) {d : Int} {w : Str}
    (hc : s.containsWord d w = true) : d ∈ s.documentIds := by
  unfold documentIds
  rw [h.ids_eq]
  apply h.d2w_docs
  unfold containsWord at hc
  rw [find_getWordFrequencies] at hc
  exact StdMap.find2_isSome_outer hc

/-- The size of a posting list is the document frequency of its word. -/
theorem postings_length_eq_df {s : SearchServer α} (h : Inv s) (w : Str) :
    ((StdMap.find s.word_to_document_freqs_ w).getD []).length = s.df w := by
  have hord : StdMap.Ordered ((StdMap.find s.word_to_document_freqs_ w).getD []) := by
    cases hf : StdMap.find s.word_to_document_freqs_ w with
    | none => exact StdMap.ordered_nil
    | some docs => exact h.w2d_inner _ _ hf
  have hmem : ∀ d, d ∈ StdMap.keys ((StdMap.find s.word_to_document_freqs_ w).getD []) ↔
      d ∈ s.documentIds.filter (fun d => s.containsWord d w) := by
    intro d
    rw [List.mem_filter, ← StdMap.find_isSome_iff]
    have hc := containsWord_eq h d w
    unfold StdMap.find2 at hc
    constructor
    · intro hd
      have : s.containsWord d w = true := by
        rw [hc]
        cases hf : StdMap.find s.word_to_document_freqs_ w with
        | none => rw [hf] at hd; simp [StdMap.find_nil] at hd
        | some docs => rw [hf] at hd; exact hd
      exact ⟨containsWord_mem h this, this⟩
    · rintro ⟨-, hd⟩
      rw [hc] at hd
      cases hf : StdMap.find s.word_to_document_freqs_ w with
      | none => rw [hf] at hd; simp at hd
      | some docs => rw [hf] at hd; exact hd
  have hperm := (List.perm_ext_iff_of_nodup hord.nodup
    ((documentIds_nodup h).filter _)).2 hmem
  unfold df
  rw [← hperm.length_eq]
  unfold StdMap.keys
  rw [List.length_map]

theorem contribution_sum {s : SearchServer α} (h : Inv s) (ln : α → α) (pred : DocumentPredicate)
    (d : Int) (hp : s.passes pred d = true) (words : List Str) :
    (words.filterMap (s.contribution ln pred d)).sum =
      ((words.filter (s.containsWord d)).map
        (fun w => s.tf w d * ln ((s.GetDocumentCount : α) / (s.df w : α)))).sum := by
  induction words with
  | nil => rfl
  | cons w ws ih =>
    rw [List.filterMap_cons, List.filter_cons, containsWord_eq h]
    cases hf : StdMap.find2 s.word_to_document_freqs_ w d with
    | none =>
      have hc : s.contribution ln pred d w = none := by
        unfold contribution; rw [hf]
      rw [hc]
      simp only [Option.isSome_none, Bool.false_eq_true, if_false]
      exact ih
    | some x =>
      have hc : s.contribution ln pred d w =
          some (x * ln ((s.GetDocumentCount : α) / (s.df w : α))) := by
        unfold contribution
        rw [hf, postings_length_eq_df h, mul_one]
        simp only [hp, if_true]
      rw [hc]
      simp only [Option.isSome_some, if_true, List.map_cons, List.sum_cons]
      rw [ih, tf_eq h, hf]
      rfl

theorem matches_iff {s : SearchServer α} (h : Inv s) (ln : α → α) (query : Query)
    (pred : DocumentPredicate) (d : Int) :
    s.Matches query pred d = true ↔
      ¬ (query.minus_words.any (fun w => (StdMap.find2 s.word_to_document_freqs_ w d).isSome)
          ∨ query.plus_words.filterMap (s.contribution ln pred d) = []) := by
  unfold Matches
  have e1 : query.minus_words.any (s.containsWord d) =
      query.minus_words.any (fun w => (StdMap.find2 s.word_to_document_freqs_ w d).isSome) := by
    congr 1; funext w; exact containsWord_eq h d w
  rw [e1]
  have e2 : (s.passes pred d = true ∧ query.plus_words.any (s.containsWord d) = true) ↔
      query.plus_words.filterMap (s.contribution ln pred d) ≠ [] := by
    constructor
    · rintro ⟨hp, ha⟩ he
      obtain ⟨w, hw, hc⟩ := List.any_eq_true.1 ha
      rw [containsWord_eq h] at hc
      have := (contribution_isSome_iff ln s pred d w).2 ⟨hc, hp⟩
      obtain ⟨x, hx⟩ := Option.isSome_iff_exists.1 this
      have hmem : x ∈ query.plus_words.filterMap (s.contribution ln pred d) :=
        List.mem_filterMap.2 ⟨w, hw, hx⟩
      rw [he] at hmem
      cases hmem
    · intro hne
      obtain ⟨x, hx⟩ := List.exists_mem_of_ne_nil _ hne
      obtain ⟨w, hw, hc⟩ := List.mem_filterMap.1 hx
      have := (contribution_isSome_iff ln s pred d w).1 (by rw [hc]; rfl)
      exact ⟨this.2, List.any_eq_true.2 ⟨w, hw, by rw [containsWord_eq h]; exact this.1⟩⟩
  rw [Bool.and_eq_true, Bool.and_eq_true, e2]
  cases query.minus_words.any (fun w => (StdMap.find2 s.word_to_document_freqs_ w d).isSome) <;>
    simp

/-- `FindAllDocuments` in the vocabulary of the public interface: it returns,
in ascending order of id, one result for each document that matches, with the
TF-IDF sum as relevance and the stored rating. -/
theorem findAllDocuments_public {s : SearchServer α} (h : Inv s) (ln : α → α) (query : Query)
    (pred : DocumentPredicate) :
    ∃ all, s.FindAllDocuments ln query pred = .ok all ∧
      (all.map Document.id).Sorted (· < ·) ∧
      (∀ d, d ∈ all.map Document.id ↔ s.Matches query pred d = true) ∧
      ∀ doc ∈ all,
        doc.relevance = ((query.plus_words.filter (s.containsWord doc.id)).map
          (fun w => s.tf w doc.id * ln ((s.GetDocumentCount : α) / (s.df w : α)))).sum ∧
        doc.rating = s.storedRating doc.id := by
  obtain ⟨acc, h1, h2, h3⟩ := findAllDocuments_spec h ln query pred
  have hids : (acc.map (fun entry =>
      Document.mk entry.1 entry.2 (s.storedRating entry.1))).map Document.id =
      StdMap.keys acc := by
    unfold StdMap.keys
    rw [List.map_map]
    rfl
  refine ⟨_, h3, ?_, ?_, ?_⟩
  · rw [hids]; exact h1
  · intro d
    rw [hids, ← StdMap.find_isSome_iff, h2, matches_iff h ln]
    split_ifs with hc
    · exact ⟨fun hh => by simp at hh, fun hh => absurd hc hh⟩
    · exact ⟨fun _ => hc, fun _ => rfl⟩
  · intro doc hdoc
    obtain ⟨e, he, rfl⟩ := List.mem_map.1 hdoc
    refine ⟨?_, rfl⟩
    have hf : StdMap.find acc e.1 = some e.2 := (StdMap.find_eq_some_iff h1 _ _).2 he
    rw [h2] at hf
    split_ifs at hf with hc
    have hm := (matches_iff h ln query pred e.1).2 hc
    unfold Matches at hm
    rw [Bool.and_eq_true, Bool.and_eq_true] at hm
    rw [← contribution_sum h ln pred e.1 hm.1.1]
    exact (Option.some.inj hf).symm

end SearchServer

namespace StdSet

variable {T : Type} [LinearOrder T]

theorem mem_insert (x : T) (l : StdSet T) (y : T) : y ∈ insert x l ↔ y = x ∨ y ∈ l := by
  induction l with
  | nil => simp [insert]
  | cons a t ih =>
    unfold insert
    split_ifs with h1 h2
    · simp
    · subst h2; simp
    · rw [List.mem_cons, ih, List.mem_cons]
      tauto

theorem sorted_insert (x : T) {l : StdSet T} (hl : l.Sorted (· < ·)) :
    (insert x l).Sorted (· < ·) := by
  induction l with
  | nil => simp [insert]
  | cons a t ih =>
    rw [List.sorted_cons] at hl
    unfold insert
    split_ifs with h1 h2
    · rw [List.sorted_cons]
      refine ⟨?_, List.sorted_cons.2 hl⟩
      intro b hb
      rcases List.mem_cons.1 hb with h | h
      · exact h ▸ h1
      · exact lt_trans h1 (hl.1 b h)
    · exact List.sorted_cons.2 hl
    · rw [List.sorted_cons]
      refine ⟨?_, ih hl.2⟩
      intro b hb
      rcases (mem_insert x t b).1 hb with h | h
      · subst h
        exact lt_of_le_of_ne (not_lt.1 h1) (Ne.symm h2)
      · exact hl.1 b h

end StdSet

namespace SearchServer

variable {α : Type} [LinearOrderedField α]

theorem parseQuery_fold_sorted (s : SearchServer α) (l : List Str) (init q : Query)
    (h : l.foldlM (fun result word => do
      let query_word ← s.ParseQueryWord word
      if !query_word.is_stop then
        if query_word.is_minus then
          pure { result with
            minus_words := StdSet.insert query_word.data result.minus_words }
        else
          pure { result with plus_words := StdSet.insert query_word.data result.plus_words }
      else pure result) init = (.ok q : Except Exception Query))
    (hp : init.plus_words.Sorted (· < ·)) (hm : init.minus_words.Sorted (· < ·)) :
    q.plus_words.Sorted (· < ·) ∧ q.minus_words.Sorted (· < ·) := by
  induction l generalizing init with
  | nil =>
    simp only [List.foldlM_nil, pure, Except.pure] at h
    cases h
    exact ⟨hp, hm⟩
  | cons w t ih =>
    rw [List.foldlM_cons] at h
    cases hw : s.ParseQueryWord w with
    | error e =>
      rw [hw] at h
      simp only [bind, Except.bind] at h
      cases h
    | ok qw =>
      rw [hw] at h
      simp only [bind, Except.bind] at h
      split_ifs at h with h1 h2
      · exact ih _ h hp (StdSet.sorted_insert _ hm)
      · exact ih _ h (StdSet.sorted_insert _ hp) hm
      · exact ih _ h hp hm

/-- The word sets of a parsed query are strictly ascending, hence without
duplicates. -/
theorem parseQuery_sorted {s : SearchServer α} {raw_query : Str} {q : Query}
    (h : s.ParseQuery raw_query = .ok q) :
    q.plus_words.Sorted (· < ·) ∧ q.minus_words.Sorted (· < ·) :=
  parseQuery_fold_sorted s _ _ q h List.sorted_nil List.sorted_nil

theorem findTopDocuments_eq {s : SearchServer α} {MAX : Nat} {ln : α → α} {raw_query : Str}
    {query : Query} {pred : DocumentPredicate} {all : List (Document α)}
    (hq : s.ParseQuery raw_query = .ok query)
    (hall : s.FindAllDocuments ln query pred = .ok all) :
    s.FindTopDocuments MAX ln raw_query pred =
      .ok ((std_sort FindTopDocuments.comp all).take MAX) := by
  unfold FindTopDocuments
  rw [hq]
  simp only [bind, Except.bind]
  rw [hall]
  simp only [pure, Except.pure]
  split_ifs with hl
  · rfl
  · rw [List.take_of_length_le (not_lt.1 hl)]

/-- On a server satisfying the invariant `FindTopDocuments` returns for every
query that parses; its results are results of `FindAllDocuments`. -/
theorem findTopDocuments_public {s : SearchServer α} (h : Inv s) (MAX : Nat) (ln : α → α)
    {raw_query : Str} {query : Query} (pred : DocumentPredicate)
    (hq : s.ParseQuery raw_query = .ok query) :
    ∃ all docs, s.FindAllDocuments ln query pred = .ok all ∧
      s.FindTopDocuments MAX ln raw_query pred = .ok docs ∧
      docs = (std_sort FindTopDocuments.comp all).take MAX ∧
      (all.map Document.id).Sorted (· < ·) ∧
      (∀ d, d ∈ all.map Document.id ↔ s.Matches query pred d = true) ∧
      (∀ doc ∈ all,
        doc.relevance = ((query.plus_words.filter (s.containsWord doc.id)).map
          (fun w => s.tf w doc.id * ln ((s.GetDocumentCount : α) / (s.df w : α)))).sum ∧
        doc.rating = s.storedRating doc.id) ∧
      ∀ doc ∈ docs, doc ∈ all := by
  obtain ⟨all, h1, h2, h3, h4⟩ := findAllDocuments_public h ln query pred
  refine ⟨all, _, h1, findTopDocuments_eq hq h1, rfl, h2, h3, h4, ?_⟩
  intro doc hdoc
  exact (std_sort_perm _ all).subset (List.take_subset _ _ hdoc)

end SearchServer

/-! ## The claims -/

namespace SearchServer

variable {α : Type} [LinearOrderedField α]

theorem wrapInt32_of_fits {x : Int} (h : FitsInt32 x) : wrapInt32 x = x := by
  unfold wrapInt32
  unfold FitsInt32 at h
  omega

theorem foldl_wrap (ratings : List Int) (acc : Int)
    (h : ∀ k, FitsInt32 (acc + (ratings.take k).sum)) :
    ratings.foldl (fun rating_sum rating => wrapInt32 (rating_sum + rating)) acc =
      acc + ratings.sum := by
  induction ratings generalizing acc with
  | nil => simp
  | cons r t ih =>
    have h1 : FitsInt32 (acc + r) := by simpa using h 1
    rw [List.foldl_cons, wrapInt32_of_fits h1, ih, List.sum_cons, add_assoc]
    intro k
    have := h (k + 1)
    rw [List.take_succ_cons, List.sum_cons, ← add_assoc] at this
    exact this

theorem computeAverageRating_eq (ratings : List Int)
    (h : ∀ k, FitsInt32 (ratings.take k).sum) :
    ComputeAverageRating ratings =
      if ratings.isEmpty then 0 else Int.tdiv ratings.sum (ratings.length : Int) := by
  unfold ComputeAverageRating
  split_ifs
  · rfl
  · simp only
    rw [foldl_wrap ratings 0 (by simpa using h), zero_add]

theorem storedRating_addDocument {s : SearchServer α} (h : Inv s) {document_id : Int}
    {document : Str} {status : DocumentStatus} {ratings : List Int}
    (hok : (s.AddDocument document_id document status ratings).1 = .ok ()) :
    StdMap.find (s.AddDocument document_id document status ratings).2.documents_ document_id =
      some { rating := ComputeAverageRating ratings, status := status } := by
  rcases addDocument_eq s document_id document status ratings with ⟨-, ⟨what, h1⟩, -⟩ | ⟨hn, h2⟩
  · rw [h1] at hok; cases hok
  · have hid : document_id ∉ StdMap.keys s.documents_ := fun hm => hn (Or.inr (Or.inl hm))
    obtain ⟨-, i2, -, -, -, -⟩ := foldl_step h.toInvCore document_id
      (1 / ((s.nonStopWords document).length : α)) (s.nonStopWords document)
    rw [h2]
    show StdMap.find (StdMap.emplace _ _ _) document_id = _
    unfold StdMap.emplace
    rw [i2, StdMap.find_access _ _ _ h.docs_ordered, if_pos rfl,
      (StdMap.find_eq_none_iff _ _).2 hid]
    rfl

theorem isStopWord_not_mem_nonStopWords {s : SearchServer α} {text : Str} {w : Str}
    (h : s.IsStopWord w = true) : w ∉ s.nonStopWords text := by
  unfold nonStopWords
  rw [List.mem_filter]
  rintro ⟨-, h2⟩
  rw [h] at h2
  cases h2

theorem eq_nil_of_find_eq_none {K V : Type} [LinearOrder K] {m : StdMap K V}
    (h : ∀ k, StdMap.find m k = none) : m = [] := by
  cases m with
  | nil => rfl
  | cons p t =>
    have := h p.1
    rw [StdMap.find_cons, if_pos rfl] at this
    cases this

theorem getWordFrequencies_ordered {s : SearchServer α} (h : Inv s) (d : Int) :
    StdMap.Ordered (s.GetWordFrequencies d) := by
  unfold GetWordFrequencies
  cases hf : StdMap.find s.document_to_word_freqs_ d with
  | none => exact StdMap.ordered_nil
  | some freqs =>
    simp only
    split_ifs
    · exact h.d2w_inner _ _ hf
    · exact StdMap.ordered_nil

end SearchServer

namespace Example

open SearchServer

theorem empty_reachable (α : Type) [LinearOrderedField α] : Reachable (empty α) :=
  Reachable.new [] _ rfl

theorem server_reachable (α : Type) [LinearOrderedField α] : Reachable (server α) :=
  Reachable.add _ _ _ _ _ (Reachable.add _ _ _ _ _ (empty_reachable α))

theorem stopServer_reachable (α : Type) [LinearOrderedField α] : Reachable (stopServer α) :=
  Reachable.new ["the".toList] _ rfl

end Example

namespace SearchServer

variable {α : Type} [LinearOrderedField α]

/-- C1: on every reachable server, for every query that parses and every
predicate, the sequential `FindTopDocuments` returns, and the relevance of each
returned document `d` is the sum over the plus-words `w` of the query that
occur in `d` of `tf(w, d) * ln(N / df(w))`, with `N = GetDocumentCount()` and
`df(w)` the number of stored documents containing `w` (real arithmetic). -/
theorem C1_relevance_is_tf_idf_sum (s : SearchServer ℝ) (hs : Reachable s) (MAX : Nat)
    (raw_query : Str) (query : Query) (pred : DocumentPredicate)
    (hq : s.ParseQuery raw_query = .ok query) :
    ∃ docs, s.FindTopDocuments MAX Real.log raw_query pred = .ok docs ∧
      ∀ doc ∈ docs, doc.relevance =
        Finset.sum (query.plus_words.toFinset.filter (fun w => s.containsWord doc.id w = true))
          (fun w => s.tf w doc.id * Real.log ((s.GetDocumentCount : ℝ) / (s.df w : ℝ))) := by
  obtain ⟨all, docs, -, h2, -, -, -, h6, h7⟩ :=
    findTopDocuments_public hs.inv MAX Real.log pred hq
  refine ⟨docs, h2, fun doc hdoc => ?_⟩
  rw [(h6 doc (h7 doc hdoc)).1, ← List.toFinset_filter,
    List.sum_toFinset _ ((parseQuery_sorted hq).1.nodup.filter _)]

/-- C1 at the two documents of the scenario and the query `cat fluffy`. -/
theorem C1_witness :
    Reachable (Example.server ℝ) ∧
    (Example.server ℝ).ParseQuery "cat fluffy".toList =
      .ok { plus_words := ["cat".toList, "fluffy".toList], minus_words := [] } ∧
    ∃ docs, (Example.server ℝ).FindTopDocuments 5 Real.log "cat fluffy".toList
        (fun _ _ _ => true) = .ok docs ∧
      ∀ doc ∈ docs, doc.relevance =
        Finset.sum (["cat".toList, "fluffy".toList].toFinset.filter
            (fun w => (Example.server ℝ).containsWord doc.id w = true))
          (fun w => (Example.server ℝ).tf w doc.id *
            Real.log (((Example.server ℝ).GetDocumentCount : ℝ) / ((Example.server ℝ).df w : ℝ))) :=
  ⟨Example.server_reachable ℝ, rfl,
    C1_relevance_is_tf_idf_sum (Example.server ℝ) (Example.server_reachable ℝ) 5
      "cat fluffy".toList { plus_words := ["cat".toList, "fluffy".toList], minus_words := [] }
      (fun _ _ _ => true) rfl⟩

theorem minus_of_matches {s : SearchServer α} {query : Query} {pred : DocumentPredicate}
    {d : Int} (h : s.Matches query pred d = true) :
    ∀ w ∈ query.minus_words, s.containsWord d w = false := by
  unfold Matches at h
  rw [Bool.and_eq_true, Bool.not_eq_true'] at h
  intro w hw
  by_contra hc
  rw [Bool.not_eq_false] at hc
  have : query.minus_words.any (s.containsWord d) = true := List.any_eq_true.2 ⟨w, hw, hc⟩
  rw [h.2] at this
  cases this

/-- C2: on every reachable server, for every query that parses and every
predicate, `FindTopDocuments` returns and no returned document contains a
minus-word of the query; with the documents `(1, "white cat fluffy tail",
ACTUAL, {7,2,7})` and `(2, "fluffy dog", ACTUAL, {5,5})` the query
`fluffy -dog` returns exactly document 1 (for a result limit of at least 1). -/
theorem C2_minus_words_exclude :
    (∀ (s : SearchServer ℝ) (MAX : Nat) (raw_query : Str) (query : Query)
      (pred : DocumentPredicate), Reachable s → s.ParseQuery raw_query = .ok query →
      ∃ docs, s.FindTopDocuments MAX Real.log raw_query pred = .ok docs ∧
        ∀ doc ∈ docs, ∀ w ∈ query.minus_words, s.containsWord doc.id w = false) ∧
    (∀ MAX : Nat, 1 ≤ MAX →
      ∃ docs, (Example.server ℝ).FindTopDocumentsActual MAX Real.log "fluffy -dog".toList =
          .ok docs ∧ docs.map Document.id = [1]) := by
  constructor
  · intro s MAX raw_query query pred hs hq
    obtain ⟨all, docs, -, h2, -, -, h5, -, h7⟩ :=
      findTopDocuments_public hs.inv MAX Real.log pred hq
    refine ⟨docs, h2, fun doc hdoc => ?_⟩
    exact minus_of_matches ((h5 doc.id).1 (List.mem_map_of_mem _ (h7 doc hdoc)))
  · intro MAX hMAX
    have hq : (Example.server ℝ).ParseQuery "fluffy -dog".toList =
        .ok { plus_words := ["fluffy".toList], minus_words := ["dog".toList] } := rfl
    have hall : ((Example.server ℝ).FindAllDocuments Real.log
        { plus_words := ["fluffy".toList], minus_words := ["dog".toList] }
        (fun _ document_status _ => decide (document_status = DocumentStatus.ACTUAL))).toOption.map
        (fun l => l.map Document.id) = some [1] := by decide
    cases hf : (Example.server ℝ).FindAllDocuments Real.log
        { plus_words := ["fluffy".toList], minus_words := ["dog".toList] }
        (fun _ document_status _ => decide (document_status = DocumentStatus.ACTUAL)) with
    | error e => rw [hf] at hall; cases hall
    | ok all =>
      rw [hf] at hall
      simp only [Except.toOption, Option.map_some', Option.some.injEq] at hall
      refine ⟨_, findTopDocuments_eq hq hf, ?_⟩
      obtain ⟨n, rfl⟩ : ∃ n, MAX = n + 1 := ⟨MAX - 1, by omega⟩
      match all, hall with
      | [x], hall => simpa [std_sort, std_sort.insert] using hall

/-- C2, general part, at the scenario and the query `fluffy -dog`. -/
theorem C2_witness :
    Reachable (Example.server ℝ) ∧
    (Example.server ℝ).ParseQuery "fluffy -dog".toList =
      .ok { plus_words := ["fluffy".toList], minus_words := ["dog".toList] } ∧
    ∃ docs, (Example.server ℝ).FindTopDocuments 5 Real.log "fluffy -dog".toList
        (fun _ _ _ => true) = .ok docs ∧
      ∀ doc ∈ docs, ∀ w ∈ ["dog".toList], (Example.server ℝ).containsWord doc.id w = false :=
  ⟨Example.server_reachable ℝ, rfl,
    C2_minus_words_exclude.1 (Example.server ℝ) 5 "fluffy -dog".toList
      { plus_words := ["fluffy".toList], minus_words := ["dog".toList] } (fun _ _ _ => true)
      (Example.server_reachable ℝ) rfl⟩

end SearchServer

namespace SearchServer

variable {α : Type} [LinearOrderedField α]

theorem matches_mem_documentIds {s : SearchServer α} (h : Inv s) {query : Query}
    {pred : DocumentPredicate} {d : Int} (hm : s.Matches query pred d = true) :
    d ∈ s.documentIds := by
  unfold Matches at hm
  rw [Bool.and_eq_true, Bool.and_eq_true] at hm
  unfold documentIds
  rw [h.ids_eq]
  exact passes_mem_keys hm.1.1

/-- C3: on every reachable server, for every query that parses and every
predicate, `FindTopDocuments` returns; every returned id is a stored document
that satisfies the predicate at its stored status and rating, contains a
plus-word and contains no minus-word; and when at most
`MAX_RESULT_DOCUMENT_COUNT` stored documents are such, the returned ids are
exactly those documents, each once. -/
theorem C3_results_are_the_matching_documents (s : SearchServer α) (hs : Reachable s)
    (MAX : Nat) (ln : α → α) (raw_query : Str) (query : Query) (pred : DocumentPredicate)
    (hq : s.ParseQuery raw_query = .ok query) :
    ∃ docs, s.FindTopDocuments MAX ln raw_query pred = .ok docs ∧
      (∀ doc ∈ docs, doc.id ∈ s.documentIds ∧
        (∃ data, StdMap.find s.documents_ doc.id = some data ∧
          pred doc.id data.status data.rating = true) ∧
        (∃ w ∈ query.plus_words, s.containsWord doc.id w = true) ∧
        (∀ w ∈ query.minus_words, s.containsWord doc.id w = false)) ∧
      ((s.documentIds.filter (s.Matches query pred)).length ≤ MAX →
        (docs.map Document.id).Nodup ∧
        ∀ d, d ∈ docs.map Document.id ↔ d ∈ s.documentIds ∧ s.Matches query pred d = true) := by
  obtain ⟨all, docs, -, h2, h3, h4, h5, -, h7⟩ :=
    findTopDocuments_public hs.inv MAX ln pred hq
  refine ⟨docs, h2, ?_, ?_⟩
  · intro doc hdoc
    have hm := (h5 doc.id).1 (List.mem_map_of_mem _ (h7 doc hdoc))
    refine ⟨matches_mem_documentIds hs.inv hm, ?_, ?_, minus_of_matches hm⟩
    · have hm' := hm
      unfold Matches at hm'
      rw [Bool.and_eq_true, Bool.and_eq_true] at hm'
      have hp := hm'.1.1
      unfold passes at hp
      cases hf : StdMap.find s.documents_ doc.id with
      | none => rw [hf] at hp; cases hp
      | some data => rw [hf] at hp; exact ⟨data, rfl, hp⟩
    · have hm' := hm
      unfold Matches at hm'
      rw [Bool.and_eq_true, Bool.and_eq_true] at hm'
      exact List.any_eq_true.1 hm'.1.2
  · intro hle
    have hperm : (all.map Document.id).Perm (s.documentIds.filter (s.Matches query pred)) := by
      apply (List.perm_ext_iff_of_nodup (List.Sorted.nodup h4)
        ((documentIds_nodup hs.inv).filter _)).2
      intro d
      rw [h5, List.mem_filter]
      exact ⟨fun hm => ⟨matches_mem_documentIds hs.inv hm, hm⟩, fun hm => hm.2⟩
    have hlen : all.length ≤ MAX := by
      have := hperm.length_eq
      rw [List.length_map] at this
      omega
    have hdocs : docs.Perm all := by
      rw [h3, List.take_of_length_le (by rw [(std_sort_perm _ all).length_eq]; exact hlen)]
      exact std_sort_perm _ all
    have hids : (docs.map Document.id).Perm (all.map Document.id) := hdocs.map _
    refine ⟨(hids.nodup_iff).2 (List.Sorted.nodup h4), fun d => ?_⟩
    rw [hids.mem_iff, h5]
    exact ⟨fun hm => ⟨matches_mem_documentIds hs.inv hm, hm⟩, fun hm => hm.2⟩

/-- C3 at the scenario and the query `fluffy -dog`. -/
theorem C3_witness :
    Reachable (Example.server ℝ) ∧
    (Example.server ℝ).ParseQuery "fluffy -dog".toList =
      .ok { plus_words := ["fluffy".toList], minus_words := ["dog".toList] } ∧
    ∃ docs, (Example.server ℝ).FindTopDocuments 5 Real.log "fluffy -dog".toList
        (fun _ _ _ => true) = .ok docs ∧
      (∀ doc ∈ docs, doc.id ∈ (Example.server ℝ).documentIds ∧
        (∃ data, StdMap.find (Example.server ℝ).documents_ doc.id = some data ∧
          (fun _ _ _ => true : DocumentPredicate) doc.id data.status data.rating = true) ∧
        (∃ w ∈ ["fluffy".toList], (Example.server ℝ).containsWord doc.id w = true) ∧
        (∀ w ∈ ["dog".toList], (Example.server ℝ).containsWord doc.id w = false)) ∧
      ((((Example.server ℝ).documentIds.filter ((Example.server ℝ).Matches
          { plus_words := ["fluffy".toList], minus_words := ["dog".toList] }
          (fun _ _ _ => true))).length ≤ 5) →
        (docs.map Document.id).Nodup ∧
        ∀ d, d ∈ docs.map Document.id ↔ d ∈ (Example.server ℝ).documentIds ∧
          (Example.server ℝ).Matches
            { plus_words := ["fluffy".toList], minus_words := ["dog".toList] }
            (fun _ _ _ => true) d = true) :=
  ⟨Example.server_reachable ℝ, rfl,
    C3_results_are_the_matching_documents (Example.server ℝ) (Example.server_reachable ℝ) 5
      Real.log "fluffy -dog".toList
      { plus_words := ["fluffy".toList], minus_words := ["dog".toList] } (fun _ _ _ => true) rfl⟩

/-- C5: whenever the query parses and `FindAllDocuments` returns,
`FindTopDocuments` returns at most `MAX_RESULT_DOCUMENT_COUNT` documents, and
exactly the minimum of `MAX_RESULT_DOCUMENT_COUNT` and the number of documents
produced by `FindAllDocuments`. -/
theorem C5_result_count (s : SearchServer α) (MAX : Nat) (ln : α → α) (raw_query : Str)
    (query : Query) (pred : DocumentPredicate) (all : List (Document α))
    (hq : s.ParseQuery raw_query = .ok query)
    (hall : s.FindAllDocuments ln query pred = .ok all) :
    ∃ docs, s.FindTopDocuments MAX ln raw_query pred = .ok docs ∧
      docs.length ≤ MAX ∧ docs.length = min MAX all.length := by
  refine ⟨_, findTopDocuments_eq hq hall, ?_, ?_⟩
  · rw [List.length_take]
    exact min_le_left _ _
  · rw [List.length_take, (std_sort_perm _ all).length_eq]

theorem scenario_fluffy_all :
    ∃ all, (Example.server ℝ).FindAllDocuments Real.log
      { plus_words := ["fluffy".toList], minus_words := [] } (fun _ _ _ => true) = .ok all ∧
      all.length = 2 := by
  have hl : ((Example.server ℝ).FindAllDocuments Real.log
      { plus_words := ["fluffy".toList], minus_words := [] }
      (fun _ _ _ => true)).toOption.map List.length = some 2 := by decide
  cases hf : (Example.server ℝ).FindAllDocuments Real.log
      { plus_words := ["fluffy".toList], minus_words := [] } (fun _ _ _ => true) with
  | error e => rw [hf] at hl; cases hl
  | ok all =>
    rw [hf] at hl
    exact ⟨all, rfl, by simpa [Except.toOption] using hl⟩

/-- C5 at the scenario with a limit of one result: both documents contain
`fluffy`, one is returned. -/
theorem C5_witness :
    ∃ all, (Example.server ℝ).ParseQuery "fluffy".toList =
        .ok { plus_words := ["fluffy".toList], minus_words := [] } ∧
      (Example.server ℝ).FindAllDocuments Real.log
        { plus_words := ["fluffy".toList], minus_words := [] } (fun _ _ _ => true) = .ok all ∧
      all.length = 2 ∧
      ∃ docs, (Example.server ℝ).FindTopDocuments 1 Real.log "fluffy".toList
          (fun _ _ _ => true) = .ok docs ∧
        docs.length ≤ 1 ∧ docs.length = min 1 all.length := by
  obtain ⟨all, hall, hlen⟩ := scenario_fluffy_all
  exact ⟨all, rfl, hall, hlen,
    C5_result_count (Example.server ℝ) 1 Real.log "fluffy".toList
      { plus_words := ["fluffy".toList], minus_words := [] } (fun _ _ _ => true) all rfl hall⟩

end SearchServer

namespace SearchServer

variable {α : Type} [LinearOrderedField α]

/-- C7: `AddDocument(id, text, status, ratings)` fails with `invalid_argument`
if and only if `id < 0`, or `id` is already a key of the stored documents, or
some space-separated token of `text` has a character with code in
`[0, 0x20)`; it succeeds if and only if none of the three holds. -/
theorem C7_addDocument_fails_iff (s : SearchServer α) (document_id : Int) (document : Str)
    (status : DocumentStatus) (ratings : List Int) :
    ((∃ what, (s.AddDocument document_id document status ratings).1 =
        .error (.invalid_argument what)) ↔
      (document_id < 0 ∨ document_id ∈ StdMap.keys s.documents_ ∨ HasControlChar document)) ∧
    ((s.AddDocument document_id document status ratings).1 = .ok () ↔
      ¬ (document_id < 0 ∨ document_id ∈ StdMap.keys s.documents_ ∨
        HasControlChar document)) := by
  rcases addDocument_eq s document_id document status ratings with ⟨hc, ⟨what, h1⟩, -⟩ | ⟨hn, h2⟩
  · refine ⟨⟨fun _ => hc, fun _ => ⟨what, h1⟩⟩, ⟨fun hok => ?_, fun hn => absurd hc hn⟩⟩
    rw [h1] at hok
    cases hok
  · refine ⟨⟨?_, fun hc => absurd hc hn⟩, ⟨fun _ => hn, fun _ => by rw [h2]⟩⟩
    rintro ⟨what, hw⟩
    rw [h2] at hw
    cases hw

/-- C8, amended: in exact arithmetic, after a successful
`AddDocument(id, text, ..)` on a reachable server, `GetWordFrequencies(id)` is
a map whose keys are exactly the non-stop tokens of `text`, each word `w`
mapped to (occurrences of `w` among the non-stop tokens) / (number of non-stop
tokens); no stop word is a key; and for an id that is not stored
`GetWordFrequencies` is empty. -/
theorem C8_word_frequencies (s : SearchServer α) (hs : Reachable s) :
    (∀ (document_id : Int) (document : Str) (status : DocumentStatus) (ratings : List Int),
      (s.AddDocument document_id document status ratings).1 = .ok () →
      StdMap.Ordered ((s.AddDocument document_id document status ratings).2.GetWordFrequencies
        document_id) ∧
      (∀ w, StdMap.find ((s.AddDocument document_id document status ratings).2.GetWordFrequencies
          document_id) w =
        if w ∈ s.nonStopWords document then
          some (((s.nonStopWords document).count w : α) / ((s.nonStopWords document).length : α))
        else none) ∧
      (∀ w, s.IsStopWord w = true →
        w ∉ StdMap.keys ((s.AddDocument document_id document status ratings).2.GetWordFrequencies
          document_id))) ∧
    (∀ d, d ∉ s.documentIds → s.GetWordFrequencies d = []) := by
  constructor
  · intro document_id document status ratings hok
    have h1 := (addDocument_frequencies hs.inv hok).1
    refine ⟨getWordFrequencies_ordered (inv_add hs.inv _ _ _ _) _, h1, fun w hw => ?_⟩
    rw [← StdMap.find_eq_none_iff, h1, if_neg (isStopWord_not_mem_nonStopWords hw)]
  · intro d hd
    apply getWordFrequencies_of_not_mem hs.inv
    unfold documentIds at hd
    rw [hs.inv.ids_eq] at hd
    exact hd

/-- C8, amended, at the server with the stop word `the` and the text
`the cat the cat dog`. -/
theorem C8_witness :
    Reachable (Example.stopServer ℚ) ∧
    ((Example.stopServer ℚ).AddDocument 7 "the cat the cat dog".toList DocumentStatus.ACTUAL
      [1]).1 = .ok () ∧
    (Example.stopServer ℚ).nonStopWords "the cat the cat dog".toList =
      ["cat".toList, "cat".toList, "dog".toList] ∧
    StdMap.find (((Example.stopServer ℚ).AddDocument 7 "the cat the cat dog".toList
      DocumentStatus.ACTUAL [1]).2.GetWordFrequencies 7) "cat".toList =
      if "cat".toList ∈ (Example.stopServer ℚ).nonStopWords "the cat the cat dog".toList then
        some ((((Example.stopServer ℚ).nonStopWords "the cat the cat dog".toList).count
          "cat".toList : ℚ) /
          (((Example.stopServer ℚ).nonStopWords "the cat the cat dog".toList).length : ℚ))
      else none :=
  ⟨Example.stopServer_reachable ℚ, rfl, by decide,
    (((C8_word_frequencies (Example.stopServer ℚ) (Example.stopServer_reachable ℚ)).1 7
      "the cat the cat dog".toList DocumentStatus.ACTUAL [1] rfl).2.1) "cat".toList⟩

/-- C9 fails as stated: with the stop word `the`, adding the document
`(1, "the", ACTUAL, {1})` succeeds and its term frequencies sum to 0. -/
theorem C9_counterexample :
    Reachable (Example.stopServer ℚ) ∧
    ((Example.stopServer ℚ).AddDocument 1 "the".toList DocumentStatus.ACTUAL [1]).1 = .ok () ∧
    StdMap.total (((Example.stopServer ℚ).AddDocument 1 "the".toList DocumentStatus.ACTUAL
      [1]).2.GetWordFrequencies 1) = 0 ∧
    StdMap.total (((Example.stopServer ℚ).AddDocument 1 "the".toList DocumentStatus.ACTUAL
      [1]).2.GetWordFrequencies 1) ≠ 1 := by
  have h0 : StdMap.total (((Example.stopServer ℚ).AddDocument 1 "the".toList
      DocumentStatus.ACTUAL [1]).2.GetWordFrequencies 1) = 0 := by
    have : ((Example.stopServer ℚ).AddDocument 1 "the".toList DocumentStatus.ACTUAL
      [1]).2.GetWordFrequencies 1 = [] := by decide
    rw [this]
    rfl
  refine ⟨Example.stopServer_reachable ℚ, rfl, h0, ?_⟩
  rw [h0]
  exact zero_ne_one

/-- C9, amended: for every document successfully added to a reachable server
whose text has at least one non-stop token, the term frequencies in
`GetWordFrequencies(id)` sum to exactly 1; when the text has no non-stop token
the mapping is empty. -/
theorem C9_frequencies_sum_to_one (s : SearchServer α) (hs : Reachable s) (document_id : Int)
    (document : Str) (status : DocumentStatus) (ratings : List Int)
    (hok : (s.AddDocument document_id document status ratings).1 = .ok ()) :
    (s.nonStopWords document ≠ [] →
      StdMap.total ((s.AddDocument document_id document status ratings).2.GetWordFrequencies
        document_id) = 1) ∧
    (s.nonStopWords document = [] →
      (s.AddDocument document_id document status ratings).2.GetWordFrequencies document_id =
        []) := by
  obtain ⟨h1, h2⟩ := addDocument_frequencies hs.inv hok
  constructor
  · intro hne
    rw [h2, if_neg hne]
  · intro he
    apply eq_nil_of_find_eq_none
    intro w
    rw [h1, he]
    simp

/-- C9, amended, at the server with the stop word `the` and the text
`the cat the cat dog`. -/
theorem C9_witness :
    Reachable (Example.stopServer ℚ) ∧
    ((Example.stopServer ℚ).AddDocument 7 "the cat the cat dog".toList DocumentStatus.ACTUAL
      [1]).1 = .ok () ∧
    (Example.stopServer ℚ).nonStopWords "the cat the cat dog".toList ≠ [] ∧
    StdMap.total (((Example.stopServer ℚ).AddDocument 7 "the cat the cat dog".toList
      DocumentStatus.ACTUAL [1]).2.GetWordFrequencies 7) = 1 :=
  ⟨Example.stopServer_reachable ℚ, rfl, by decide,
    (C9_frequencies_sum_to_one (Example.stopServer ℚ) (Example.stopServer_reachable ℚ) 7
      "the cat the cat dog".toList DocumentStatus.ACTUAL [1] rfl).1 (by decide)⟩

end SearchServer

namespace SearchServer

variable {α : Type} [LinearOrderedField α]

theorem findTopDocuments_rating {s : SearchServer α} (h : Inv s) {MAX : Nat} {ln : α → α}
    {raw_query : Str} {pred : DocumentPredicate} {docs : List (Document α)}
    (hdocs : s.FindTopDocuments MAX ln raw_query pred = .ok docs) :
    ∀ doc ∈ docs, doc.rating = s.storedRating doc.id := by
  cases hq : s.ParseQuery raw_query with
  | error e =>
    unfold FindTopDocuments at hdocs
    rw [hq] at hdocs
    cases hdocs
  | ok query =>
    obtain ⟨all, docs', -, h2, -, -, -, h6, h7⟩ := findTopDocuments_public h MAX ln pred hq
    rw [h2] at hdocs
    cases hdocs
    exact fun doc hdoc => (h6 doc (h7 doc hdoc)).2

/-- C10 fails as stated: for the ratings `{-1, -2}` the stored rating is `-1`
(the quotient `-3 / 2` truncated toward zero), while the floor of `-3 / 2` is
`-2`. -/
theorem C10_counterexample :
    ((Example.empty ℚ).AddDocument 1 "cat".toList DocumentStatus.ACTUAL [-1, -2]).1 = .ok () ∧
    ((Example.empty ℚ).AddDocument 1 "cat".toList DocumentStatus.ACTUAL [-1, -2]).2.storedRating 1
      = -1 ∧
    flooredAverageRating [-1, -2] = -2 ∧
    ComputeAverageRating [-1, -2] ≠ flooredAverageRating [-1, -2] := by
  refine ⟨rfl, by decide, by decide, by decide⟩

/-- C10, amended: for every list of ratings whose running sums fit in an
`int`, the rating stored by a successful `AddDocument` on a reachable server,
which is the rating `FindTopDocuments` reports for the document, is the sum of
the ratings divided by their number with the quotient truncated toward zero,
and 0 when the list is empty; it is the floor of the quotient when the sum is
not negative. -/
theorem C10_rating_is_truncated_average (s : SearchServer α) (hs : Reachable s)
    (document_id : Int) (document : Str) (status : DocumentStatus) (ratings : List Int)
    (hok : (s.AddDocument document_id document status ratings).1 = .ok ())
    (hfit : ∀ k, FitsInt32 (ratings.take k).sum) :
    (s.AddDocument document_id document status ratings).2.storedRating document_id =
      (if ratings.isEmpty then 0 else Int.tdiv ratings.sum (ratings.length : Int)) ∧
    (0 ≤ ratings.sum →
      (s.AddDocument document_id document status ratings).2.storedRating document_id =
        flooredAverageRating ratings) ∧
    (∀ (MAX : Nat) (ln : α → α) (raw_query : Str) (pred : DocumentPredicate)
      (docs : List (Document α)),
      (s.AddDocument document_id document status ratings).2.FindTopDocuments MAX ln raw_query
        pred = .ok docs →
      ∀ doc ∈ docs, doc.id = document_id →
        doc.rating = if ratings.isEmpty then 0 else Int.tdiv ratings.sum (ratings.length : Int)) := by
  have hst : (s.AddDocument document_id document status ratings).2.storedRating document_id =
      (if ratings.isEmpty then 0 else Int.tdiv ratings.sum (ratings.length : Int)) := by
    unfold storedRating
    rw [storedRating_addDocument hs.inv hok]
    exact computeAverageRating_eq ratings hfit
  refine ⟨hst, ?_, ?_⟩
  · intro hsum
    rw [hst]
    unfold flooredAverageRating
    split_ifs
    · rfl
    · rw [Int.tdiv_eq_ediv hsum (Int.ofNat_nonneg _), Int.fdiv_eq_ediv _ (Int.ofNat_nonneg _)]
  · intro MAX ln raw_query pred docs hdocs doc hdoc hid
    rw [findTopDocuments_rating (inv_add hs.inv _ _ _ _) hdocs doc hdoc, hid, hst]

/-- C10, amended, at the first document of the scenario, ratings `{7, 2, 7}`. -/
theorem C10_witness :
    Reachable (Example.empty ℚ) ∧
    ((Example.empty ℚ).AddDocument 1 "white cat fluffy tail".toList DocumentStatus.ACTUAL
      [7, 2, 7]).1 = .ok () ∧
    (∀ k, FitsInt32 (([7, 2, 7] : List Int).take k).sum) ∧
    ((Example.empty ℚ).AddDocument 1 "white cat fluffy tail".toList DocumentStatus.ACTUAL
      [7, 2, 7]).2.storedRating 1 =
      (if ([7, 2, 7] : List Int).isEmpty then 0
        else Int.tdiv ([7, 2, 7] : List Int).sum (([7, 2, 7] : List Int).length : Int)) :=
  have hfit : ∀ k, FitsInt32 (([7, 2, 7] : List Int).take k).sum := by
    intro k
    match k with
    | 0 => decide
    | 1 => decide
    | 2 => decide
    | n + 3 =>
      have h : ([7, 2, 7] : List Int).take (n + 3) = [7, 2, 7] :=
        List.take_of_length_le (by simp)
      rw [h]
      decide
  ⟨Example.empty_reachable ℚ, rfl, hfit,
    (C10_rating_is_truncated_average (Example.empty ℚ) (Example.empty_reachable ℚ) 1
      "white cat fluffy tail".toList DocumentStatus.ACTUAL [7, 2, 7] rfl hfit).1⟩

end SearchServer

/-! ## The tokenizer -/

theorem findSpace_none {text : Str} (h : findSpace text = none) : ∀ c ∈ text, c ≠ ' ' := by
  induction text with
  | nil => intro c hc; cases hc
  | cons a t ih =>
    unfold findSpace at h
    split_ifs at h with ha
    cases hf : findSpace t with
    | none =>
      intro c hc
      rcases List.mem_cons.1 hc with rfl | hc
      · exact ha
      · exact ih hf c hc
    | some i => rw [hf] at h; cases h

theorem findSpace_some {text : Str} {space : Nat} (h : findSpace text = some space) :
    (∀ c ∈ text.take space, c ≠ ' ') ∧
      text = text.take space ++ ' ' :: text.drop (space + 1) := by
  induction text generalizing space with
  | nil => cases h
  | cons a t ih =>
    unfold findSpace at h
    split_ifs at h with ha
    · cases h
      subst ha
      exact ⟨fun c hc => by simp at hc, rfl⟩
    · cases hf : findSpace t with
      | none => rw [hf] at h; cases h
      | some i =>
        rw [hf] at h
        cases h
        obtain ⟨h1, h2⟩ := ih hf
        refine ⟨?_, ?_⟩
        · intro c hc
          rw [List.take_succ_cons] at hc
          rcases List.mem_cons.1 hc with rfl | hc
          · exact ha
          · exact h1 c hc
        · rw [List.take_succ_cons, List.drop_succ_cons, List.cons_append, ← h2]

theorem SplitIntoWords.loop_eq (fuel : Nat) (text : Str) (result : List Str)
    (h : text.length < fuel) :
    SplitIntoWords.loop fuel text result = result ++ text.splitOn ' ' := by
  induction fuel generalizing text result with
  | zero => omega
  | succ n ih =>
    unfold SplitIntoWords.loop
    cases hf : findSpace text with
    | none =>
      have : text.splitOn ' ' = [text] := by
        unfold List.splitOn
        apply List.splitOnP_eq_single
        intro c hc hp
        exact findSpace_none hf c hc (by simpa using hp)
      rw [this]
    | some space =>
      obtain ⟨h1, h2⟩ := findSpace_some hf
      have hsplit : text.splitOn ' ' = text.take space :: (text.drop (space + 1)).splitOn ' ' := by
        conv_lhs => rw [h2]
        unfold List.splitOn
        apply List.splitOnP_first
        · intro c hc hp
          exact h1 c hc (by simpa using hp)
        · simp
      have hlen : (text.drop (space + 1)).length < n := by
        have hl := congrArg List.length h2
        rw [List.length_append, List.length_cons] at hl
        omega
      simp only
      rw [ih _ _ hlen, hsplit, List.append_assoc]
      rfl

/-- `SplitIntoWords` never runs out of iterations: it returns the maximal
space-free pieces of the text. -/
theorem splitIntoWords_eq_splitOn (text : Str) : SplitIntoWords text = text.splitOn ' ' := by
  unfold SplitIntoWords
  rw [SplitIntoWords.loop_eq _ _ _ (Nat.lt_succ_self _), List.nil_append]

theorem splitIntoWords_intercalate {words : List Str} (hw : ∀ w ∈ words, ' ' ∉ w)
    (hne : words ≠ []) : SplitIntoWords ([' '].intercalate words) = words := by
  rw [splitIntoWords_eq_splitOn]
  exact List.splitOn_intercalate _ ' ' hw hne

/-! ## The order of the results -/

theorem std_sort.mem_sorted_insert {T : Type} (comp : T → T → Bool) (x : T) (l : List T) (y : T) :
    y ∈ std_sort.insert comp x l ↔ y = x ∨ y ∈ l := by
  rw [(std_sort.insert_perm comp x l).mem_iff, List.mem_cons]

/-- Insertion keeps a list ordered when `comp` is asymmetric and "not placed
after" is transitive on the elements at hand. -/
theorem std_sort.insert_pairwise {T : Type} (comp : T → T → Bool) (x : T) (l : List T)
    (hasym : ∀ a b, comp a b = true → comp b a = false)
    (htrans : ∀ a ∈ x :: l, ∀ b ∈ x :: l, ∀ c ∈ x :: l,
      comp b a = false → comp c b = false → comp c a = false)
    (hl : l.Pairwise (fun a b => comp b a = false)) :
    (std_sort.insert comp x l).Pairwise (fun a b => comp b a = false) := by
  induction l with
  | nil => simp [std_sort.insert]
  | cons y t ih =>
    rw [List.pairwise_cons] at hl
    unfold std_sort.insert
    by_cases hc : comp y x = true
    · rw [if_pos hc, List.pairwise_cons]
      refine ⟨?_, ih ?_ hl.2⟩
      · intro z hz
        rcases (std_sort.mem_sorted_insert comp x t z).1 hz with rfl | hz
        · exact hasym _ _ hc
        · exact hl.1 z hz
      · intro a ha b hb c hc'
        have sub : ∀ u ∈ x :: t, u ∈ x :: y :: t := by
          intro u hu
          rcases List.mem_cons.1 hu with rfl | hu
          · exact List.mem_cons_self _ _
          · exact List.mem_cons_of_mem _ (List.mem_cons_of_mem _ hu)
        exact htrans a (sub a ha) b (sub b hb) c (sub c hc')
    · rw [if_neg hc, List.pairwise_cons]
      have hxy : comp y x = false := by
        cases h : comp y x
        · rfl
        · exact absurd h hc
      refine ⟨?_, List.pairwise_cons.2 hl⟩
      intro z hz
      rcases List.mem_cons.1 hz with rfl | hz
      · exact hxy
      · exact htrans x (List.mem_cons_self _ _) y (List.mem_cons_of_mem _ (List.mem_cons_self _ _))
          z (List.mem_cons_of_mem _ (List.mem_cons_of_mem _ hz)) hxy (hl.1 z hz)

/-- The model of `std::sort` orders its input whenever the comparator is
asymmetric and "not placed after" is transitive on the elements. -/
theorem std_sort_pairwise {T : Type} (comp : T → T → Bool) (l : List T)
    (hasym : ∀ a b, comp a b = true → comp b a = false)
    (htrans : ∀ a ∈ l, ∀ b ∈ l, ∀ c ∈ l,
      comp b a = false → comp c b = false → comp c a = false) :
    (std_sort comp l).Pairwise (fun a b => comp b a = false) := by
  induction l with
  | nil => simp [std_sort]
  | cons x t ih =>
    unfold std_sort
    apply std_sort.insert_pairwise comp x _ hasym
    · intro a ha b hb c hc
      have sub : ∀ u ∈ x :: std_sort comp t, u ∈ x :: t := by
        intro u hu
        rcases List.mem_cons.1 hu with rfl | hu
        · exact List.mem_cons_self _ _
        · exact List.mem_cons_of_mem _ ((std_sort_perm comp t).mem_iff.1 hu)
      exact htrans a (sub a ha) b (sub b hb) c (sub c hc)
    · exact ih (fun a ha b hb c hc =>
        htrans a (List.mem_cons_of_mem _ ha) b (List.mem_cons_of_mem _ hb) c
          (List.mem_cons_of_mem _ hc))

namespace SearchServer

variable {α : Type} [LinearOrderedField α]

theorem tied_comm (a b : Document α) : Tied a b ↔ Tied b a := by
  unfold Tied
  rw [abs_sub_comm]

/-- The comparator does not place `b` before `a` exactly when `a`, `b` are in
the order of the specification. -/
theorem comp_eq_false_iff (a b : Document α) :
    FindTopDocuments.comp b a = false ↔ RankedBefore a b := by
  unfold FindTopDocuments.comp RankedBefore
  by_cases ht : Tied a b
  · have ht' : |b.relevance - a.relevance| < 1 / 1000000 := (tied_comm a b).1 ht
    rw [if_pos ht']
    simp only [decide_eq_false_iff_not, gt_iff_lt, not_lt]
    exact ⟨fun h => ⟨fun hn => absurd ht hn, fun _ => h⟩, fun h => h.2 ht⟩
  · have ht' : ¬ |b.relevance - a.relevance| < 1 / 1000000 :=
      fun h => ht ((tied_comm a b).2 h)
    rw [if_neg ht']
    simp only [decide_eq_false_iff_not, gt_iff_lt, not_lt]
    constructor
    · intro h
      refine ⟨fun _ => ?_, fun h' => absurd h' ht⟩
      rcases lt_or_eq_of_le h with hlt | heq
      · exact hlt
      · exfalso
        apply ht
        unfold Tied
        rw [heq, sub_self, abs_zero]
        norm_num
    · intro h
      exact le_of_lt (h.1 ht)

theorem comp_asymm (a b : Document α) (h : FindTopDocuments.comp a b = true) :
    FindTopDocuments.comp b a = false := by
  unfold FindTopDocuments.comp at h ⊢
  by_cases ht : |a.relevance - b.relevance| < 1 / 1000000
  · have ht' : |b.relevance - a.relevance| < 1 / 1000000 := by rw [abs_sub_comm]; exact ht
    rw [if_pos ht] at h
    rw [if_pos ht']
    simp only [decide_eq_true_eq, decide_eq_false_iff_not, gt_iff_lt, not_lt] at h ⊢
    exact le_of_lt h
  · have ht' : ¬ |b.relevance - a.relevance| < 1 / 1000000 := by rw [abs_sub_comm]; exact ht
    rw [if_neg ht] at h
    rw [if_neg ht']
    simp only [decide_eq_true_eq, decide_eq_false_iff_not, gt_iff_lt, not_lt] at h ⊢
    exact le_of_lt h

/-- The order of the specification is transitive on three results among which
being tied is transitive. -/
theorem rankedBefore_trans {a b c : Document α}
    (htie : ∀ x y z : Document α, x ∈ [a, b, c] → y ∈ [a, b, c] → z ∈ [a, b, c] →
      Tied x y → Tied y z → Tied x z)
    (hab : RankedBefore a b) (hbc : RankedBefore b c) : RankedBefore a c := by
  have ma : a ∈ [a, b, c] := by simp
  have mb : b ∈ [a, b, c] := by simp
  have mc : c ∈ [a, b, c] := by simp
  unfold RankedBefore at *
  by_cases tab : Tied a b <;> by_cases tbc : Tied b c
  · have tac := htie a b c ma mb mc tab tbc
    exact ⟨fun hn => absurd tac hn, fun _ => le_trans (hbc.2 tbc) (hab.2 tab)⟩
  · have nac : ¬ Tied a c := fun tac =>
      tbc (htie b a c mb ma mc ((tied_comm a b).1 tab) tac)
    refine ⟨fun _ => ?_, fun tac => absurd tac nac⟩
    have h1 := hbc.1 tbc
    unfold Tied at tab tbc
    rw [not_lt] at tbc
    rw [abs_lt] at tab
    rw [abs_of_pos (sub_pos.2 h1)] at tbc
    linarith [tab.1]
  · have nac : ¬ Tied a c := fun tac =>
      tab (htie a c b ma mc mb tac ((tied_comm b c).1 tbc))
    refine ⟨fun _ => ?_, fun tac => absurd tac nac⟩
    have h1 := hab.1 tab
    unfold Tied at tab tbc
    rw [not_lt] at tab
    rw [abs_lt] at tbc
    rw [abs_of_pos (sub_pos.2 h1)] at tab
    linarith [tbc.1]
  · have h1 := hab.1 tab
    have h2 := hbc.1 tbc
    have h3 : c.relevance < a.relevance := lt_trans h2 h1
    refine ⟨fun _ => h3, fun tac => ?_⟩
    exfalso
    unfold Tied at tab tac
    rw [not_lt, abs_of_pos (sub_pos.2 h1)] at tab
    rw [abs_of_pos (sub_pos.2 h3)] at tac
    linarith

end SearchServer

namespace SearchServer

variable {α : Type} [LinearOrderedField α]

theorem tied_self (a : Document α) : Tied a a := by
  unfold Tied
  rw [sub_self, abs_zero]
  norm_num

/-- C4, amended: whenever the query parses and `FindAllDocuments` returns
documents among which being tied (relevances closer than `1e-6`) is
transitive, `FindTopDocuments` returns a list in which every result `a` placed
before a result `b` has the greater relevance if the two are not tied, and a
rating at least that of `b` if they are. -/
theorem C4_order_when_ties_are_transitive (s : SearchServer α) (MAX : Nat) (ln : α → α)
    (raw_query : Str) (query : Query) (pred : DocumentPredicate) (all : List (Document α))
    (hq : s.ParseQuery raw_query = .ok query)
    (hall : s.FindAllDocuments ln query pred = .ok all)
    (htie : ∀ a ∈ all, ∀ b ∈ all, ∀ c ∈ all, Tied a b → Tied b c → Tied a c) :
    ∃ docs, s.FindTopDocuments MAX ln raw_query pred = .ok docs ∧
      docs.Pairwise RankedBefore := by
  refine ⟨_, findTopDocuments_eq hq hall, ?_⟩
  have hsorted : (std_sort FindTopDocuments.comp all).Pairwise
      (fun a b => FindTopDocuments.comp b a = false) := by
    apply std_sort_pairwise _ _ comp_asymm
    intro a ha b hb c hc hab hbc
    rw [comp_eq_false_iff] at hab hbc ⊢
    refine rankedBefore_trans ?_ hab hbc
    intro x y z hx hy hz
    have sub : ∀ u ∈ [a, b, c], u ∈ all := by
      intro u hu
      simp only [List.mem_cons, List.mem_singleton, List.not_mem_nil, or_false] at hu
      rcases hu with rfl | rfl | rfl <;> assumption
    exact htie x (sub x hx) y (sub y hy) z (sub z hz)
  exact ((hsorted.sublist (List.take_sublist _ _)).imp
    (fun {a b} h => (comp_eq_false_iff a b).1 h))

/-- C4, amended, at the scenario and the query `fluffy`, which both documents
match. -/
theorem C4_witness :
    ∃ all, (Example.server ℝ).ParseQuery "fluffy".toList =
        .ok { plus_words := ["fluffy".toList], minus_words := [] } ∧
      (Example.server ℝ).FindAllDocuments Real.log
        { plus_words := ["fluffy".toList], minus_words := [] } (fun _ _ _ => true) = .ok all ∧
      all.length = 2 ∧
      (∀ a ∈ all, ∀ b ∈ all, ∀ c ∈ all, Tied a b → Tied b c → Tied a c) ∧
      ∃ docs, (Example.server ℝ).FindTopDocuments 5 Real.log "fluffy".toList
          (fun _ _ _ => true) = .ok docs ∧ docs.Pairwise RankedBefore := by
  obtain ⟨all, hall, hlen⟩ := scenario_fluffy_all
  have htie : ∀ a ∈ all, ∀ b ∈ all, ∀ c ∈ all, Tied a b → Tied b c → Tied a c := by
    match all, hlen with
    | [x, y], _ =>
      intro a ha b hb c hc hab hbc
      simp only [List.mem_cons, List.mem_singleton, List.not_mem_nil, or_false] at ha hb hc
      rcases ha with rfl | rfl <;> rcases hb with rfl | rfl <;> rcases hc with rfl | rfl <;>
        first
        | exact tied_self _
        | exact hab
        | exact hbc
  exact ⟨all, rfl, hall, hlen, htie,
    C4_order_when_ties_are_transitive (Example.server ℝ) 5 Real.log "fluffy".toList
      { plus_words := ["fluffy".toList], minus_words := [] } (fun _ _ _ => true) all rfl hall
      htie⟩

end SearchServer

/-! ## Building a server document by document -/

namespace StdMap

variable {K V : Type} [LinearOrder K]

theorem length_access_of_not_mem (dflt : V) (f : V → V) (k : K) (m : StdMap K V)
    (h : k ∉ keys m) : (access dflt f k m).length = m.length + 1 := by
  induction m with
  | nil => rfl
  | cons p t ih =>
    obtain ⟨a, b⟩ := p
    rw [keys_cons, List.mem_cons, not_or] at h
    unfold access
    split_ifs with h1 h2
    · rfl
    · exact absurd h2 h.1
    · rw [List.length_cons, ih h.2, List.length_cons]

end StdMap

namespace SearchServer

variable {α : Type} [LinearOrderedField α]

theorem addDocument_ok {s : SearchServer α} {document_id : Int} {document : Str}
    (status : DocumentStatus) (ratings : List Int) (h0 : 0 ≤ document_id)
    (hnew : document_id ∉ StdMap.keys s.documents_) (hvalid : ¬ HasControlChar document) :
    (s.AddDocument document_id document status ratings).1 = .ok () := by
  rcases addDocument_eq s document_id document status ratings with ⟨hc, -, -⟩ | ⟨-, h2⟩
  · rcases hc with h | h | h
    · omega
    · exact absurd h hnew
    · exact absurd h hvalid
  · rw [h2]

/-- What a successful `AddDocument` changes in the observable content. -/
theorem addDocument_effect {s : SearchServer α} (h : Inv s) {document_id : Int}
    {document : Str} {status : DocumentStatus} {ratings : List Int}
    (hok : (s.AddDocument document_id document status ratings).1 = .ok ()) :
    (s.AddDocument document_id document status ratings).2.stop_words_ = s.stop_words_ ∧
    (s.AddDocument document_id document status ratings).2.documentIds =
      StdSet.insert document_id s.documentIds ∧
    (s.AddDocument document_id document status ratings).2.GetDocumentCount =
      s.GetDocumentCount + 1 ∧
    (∀ d, StdMap.find (s.AddDocument document_id document status ratings).2.documents_ d =
      if d = document_id then
        some { rating := ComputeAverageRating ratings, status := status }
      else StdMap.find s.documents_ d) ∧
    (∀ d w, StdMap.find ((s.AddDocument document_id document status ratings).2.GetWordFrequencies
        d) w =
      if d = document_id then
        if w ∈ s.nonStopWords document then
          some (((s.nonStopWords document).count w : α) / ((s.nonStopWords document).length : α))
        else none
      else StdMap.find (s.GetWordFrequencies d) w) := by
  have hfreq := (addDocument_frequencies h hok).1
  rcases addDocument_eq s document_id document status ratings with ⟨-, ⟨what, h1⟩, -⟩ | ⟨hn, h2⟩
  · rw [h1] at hok; cases hok
  · have hid : document_id ∉ StdMap.keys s.documents_ := fun hm => hn (Or.inr (Or.inl hm))
    obtain ⟨-, i2, i3, i4, i5, -⟩ := foldl_step h.toInvCore document_id
      (1 / ((s.nonStopWords document).length : α)) (s.nonStopWords document)
    refine ⟨?_, ?_, ?_, ?_, ?_⟩
    · rw [h2]; exact i4
    · rw [h2]
      show StdSet.insert _ _ = _
      rw [i3]
      rfl
    · rw [h2]
      show (StdMap.emplace _ _ _).length = _
      unfold StdMap.emplace
      rw [i2, StdMap.length_access_of_not_mem _ _ _ _ hid]
      rfl
    · intro d
      rw [h2]
      show StdMap.find (StdMap.emplace _ _ _) d = _
      unfold StdMap.emplace
      rw [i2, StdMap.find_access _ _ _ h.docs_ordered, (StdMap.find_eq_none_iff _ _).2 hid]
      rfl
    · intro d w
      by_cases hd : d = document_id
      · subst hd
        rw [hfreq, if_pos rfl]
      · rw [if_neg hd, find_getWordFrequencies, find_getWordFrequencies, h2]
        show StdMap.find2 (List.foldl _ s _).document_to_word_freqs_ d w = _
        rw [i5]
        simp [hd]

theorem parseQuery_congr {s t : SearchServer α} (h : s.stop_words_ = t.stop_words_)
    (raw_query : Str) : s.ParseQuery raw_query = t.ParseQuery raw_query := by
  unfold ParseQuery ParseQueryWord IsStopWord
  rw [h]

end SearchServer

namespace Example

open SearchServer

variable {α : Type} [LinearOrderedField α]

theorem describes_empty : Describes (empty α) [] (fun _ => none) (fun _ _ => none) :=
  ⟨(empty_reachable α).inv, rfl, rfl, rfl, fun _ => rfl, fun _ _ => rfl⟩

theorem nonStopWords_of_no_stop_words {s : SearchServer α} (h : s.stop_words_ = [])
    (text : Str) : s.nonStopWords text = SplitIntoWords text := by
  unfold nonStopWords
  apply List.filter_eq_self.2
  intro w _
  unfold IsStopWord StdSet.count
  rw [h]
  simp

/-- Adding a document with a fresh id and no control character extends the
description. -/
theorem describes_add {s : SearchServer α} {ids : List Int} {data : Int → Option DocumentData}
    {freq : Int → Str → Option α} (h : Describes s ids data freq) (document_id : Int)
    (document : Str) (status : DocumentStatus) (ratings : List Int) (h0 : 0 ≤ document_id)
    (hnew : document_id ∉ ids) (hvalid : ¬ HasControlChar document) :
    (s.AddDocument document_id document status ratings).1 = .ok () ∧
    Describes (s.AddDocument document_id document status ratings).2
      (StdSet.insert document_id ids)
      (fun d => if d = document_id then
          some { rating := ComputeAverageRating ratings, status := status }
        else data d)
      (fun d w => if d = document_id then
          if w ∈ SplitIntoWords document then
            some (((SplitIntoWords document).count w : α) / ((SplitIntoWords document).length : α))
          else none
        else freq d w) := by
  obtain ⟨hinv, hstop, hids, hcount, hdata, hfreq⟩ := h
  have hnew' : document_id ∉ StdMap.keys s.documents_ := by
    rw [← hinv.ids_eq]
    intro hm
    apply hnew
    rw [← hids]
    exact hm
  have hok := addDocument_ok (s := s) status ratings h0 hnew' hvalid
  obtain ⟨e1, e2, e3, e4, e5⟩ := addDocument_effect hinv hok
  refine ⟨hok, inv_add hinv _ _ _ _, e1.trans hstop, ?_, ?_, ?_, ?_⟩
  · rw [e2, hids]
  · rw [e3, hcount]
    have hlen : ∀ (l : List Int) (x : Int), x ∉ l → (StdSet.insert x l).length = l.length + 1 := by
      intro l x hx
      induction l with
      | nil => rfl
      | cons a t ih =>
        rw [List.mem_cons, not_or] at hx
        unfold StdSet.insert
        split_ifs with h1 h2
        · rfl
        · exact absurd h2 hx.1
        · rw [List.length_cons, ih hx.2, List.length_cons]
    rw [hlen _ _ hnew]
  · intro d
    rw [e4, hdata]
  · intro d w
    rw [e5, hfreq, nonStopWords_of_no_stop_words hstop]

end Example

/-! ## Three results that cannot be ordered -/

theorem List.Pairwise.no_cycle {T : Type} {R : T → T → Prop} {l : List T}
    (hp : l.Pairwise R) {a b c : T} (ha : a ∈ l) (hb : b ∈ l) (hc : c ∈ l)
    (hab : a ≠ b) (hac : a ≠ c)
    (h1 : ¬ R b a) (h2 : ¬ R c b) (h3 : ¬ R a c) : False := by
  induction l with
  | nil => cases ha
  | cons x t ih =>
    rw [List.pairwise_cons] at hp
    rcases List.mem_cons.1 ha with rfl | ha'
    · rcases List.mem_cons.1 hc with rfl | hc'
      · exact hac rfl
      · exact h3 (hp.1 c hc')
    · rcases List.mem_cons.1 hb with rfl | hb'
      · exact h1 (hp.1 a ha')
      · rcases List.mem_cons.1 hc with rfl | hc'
        · exact h2 (hp.1 b hb')
        · exact ih hp.2 ha' hb' hc'

namespace Example

open SearchServer

variable {α : Type} [LinearOrderedField α]

theorem splitIntoWords_longText (n : Nat) :
    SplitIntoWords (longText n) = "w".toList :: List.replicate n "x".toList := by
  unfold longText
  apply splitIntoWords_intercalate
  · intro w hw
    rcases List.mem_cons.1 hw with rfl | hw
    · decide
    · rw [List.eq_of_mem_replicate hw]
      decide
  · exact List.cons_ne_nil _ _

theorem longText_valid (n : Nat) : ¬ HasControlChar (longText n) := by
  rintro ⟨w, hw, c, hc, hlt⟩
  rw [splitIntoWords_longText] at hw
  rcases List.mem_cons.1 hw with rfl | hw
  · simp only [String.toList, List.mem_singleton] at hc
    subst hc
    revert hlt
    decide
  · rw [List.eq_of_mem_replicate hw] at hc
    simp only [String.toList, List.mem_singleton] at hc
    subst hc
    revert hlt
    decide

theorem x_valid : ¬ HasControlChar "x".toList := by
  rintro ⟨w, hw, c, hc, hlt⟩
  have : SplitIntoWords "x".toList = ["x".toList] := by decide
  rw [this, List.mem_singleton] at hw
  subst hw
  simp only [String.toList, List.mem_singleton] at hc
  subst hc
  revert hlt
  decide

theorem added_eq (s : SearchServer α) (document_id : Int) (document : Str)
    (status : DocumentStatus) (ratings : List Int) :
    added α s document_id document status ratings =
      (s.AddDocument document_id document status ratings).2 := by
  unfold added
  rfl

theorem describes_added {s : SearchServer α} {ids : List Int} {data : Int → Option DocumentData}
    {freq : Int → Str → Option α} (h : Describes s ids data freq) (document_id : Int)
    (document : Str) (status : DocumentStatus) (ratings : List Int) (h0 : 0 ≤ document_id)
    (hnew : document_id ∉ ids) (hvalid : ¬ HasControlChar document) :
    Describes (added α s document_id document status ratings)
      (StdSet.insert document_id ids)
      (fun d => if d = document_id then
          some { rating := ComputeAverageRating ratings, status := status }
        else data d)
      (fun d w => if d = document_id then
          if w ∈ SplitIntoWords document then
            some (((SplitIntoWords document).count w : α) / ((SplitIntoWords document).length : α))
          else none
        else freq d w) := by
  rw [added_eq]
  exact (describes_add h document_id document status ratings h0 hnew hvalid).2

theorem reachable_added {s : SearchServer α} (h : Reachable s) (document_id : Int)
    (document : Str) (status : DocumentStatus) (ratings : List Int) :
    Reachable (added α s document_id document status ratings) := by
  rw [added_eq]
  exact Reachable.add _ _ _ _ _ h

theorem tieServer_reachable : Reachable (tieServer α) :=
  reachable_added (reachable_added (reachable_added (reachable_added (empty_reachable α)
    _ _ _ _) _ _ _ _) _ _ _ _) _ _ _ _

/-- The metadata and the frequencies of `w` in the four documents of
`tieServer`. -/
theorem tieServer_describes :
    ∃ data freq, Describes (tieServer α) [1, 2, 3, 4] data freq ∧
      data 1 = some { rating := 3, status := DocumentStatus.ACTUAL } ∧
      data 2 = some { rating := 2, status := DocumentStatus.ACTUAL } ∧
      data 3 = some { rating := 1, status := DocumentStatus.ACTUAL } ∧
      freq 1 "w".toList = some (1 / 602) ∧
      freq 2 "w".toList = some (1 / 601) ∧
      freq 3 "w".toList = some (1 / 600) ∧
      freq 4 "w".toList = none := by
  have d1 := describes_added (describes_empty (α := α)) 1 (longText 601)
    DocumentStatus.ACTUAL [3] (by decide) (by decide) (longText_valid _)
  have d2 := describes_added d1 2 (longText 600)
    DocumentStatus.ACTUAL [2] (by decide) (by decide) (longText_valid _)
  have d3 := describes_added d2 3 (longText 599)
    DocumentStatus.ACTUAL [1] (by decide) (by decide) (longText_valid _)
  have d4 := describes_added d3 4 "x".toList
    DocumentStatus.ACTUAL [0] (by decide) (by decide) x_valid
  have hwx : "w".toList ≠ "x".toList := by decide
  have hcount : ∀ n : Nat, List.count "w".toList ("w".toList :: List.replicate n "x".toList) = 1 := by
    intro n
    rw [List.count_cons_self, List.count_replicate]
    simp [hwx.symm]
  refine ⟨_, _, d4, ?_, ?_, ?_, ?_, ?_, ?_, ?_⟩
  · simp only [show ((1 : Int) = 4) = False from by decide, show ((1 : Int) = 3) = False from by decide,
      show ((1 : Int) = 2) = False from by decide, if_false, if_true]
    rfl
  · simp only [show ((2 : Int) = 4) = False from by decide, show ((2 : Int) = 3) = False from by decide,
      if_false, if_true]
    rfl
  · simp only [show ((3 : Int) = 4) = False from by decide, if_false, if_true]
    rfl
  · simp only [show ((1 : Int) = 4) = False from by decide, show ((1 : Int) = 3) = False from by decide,
      show ((1 : Int) = 2) = False from by decide, if_false, if_true, splitIntoWords_longText,
      hcount, List.mem_cons, true_or, List.length_cons, List.length_replicate]
    norm_num
  · simp only [show ((2 : Int) = 4) = False from by decide, show ((2 : Int) = 3) = False from by decide,
      if_false, if_true, splitIntoWords_longText,
      hcount, List.mem_cons, true_or, List.length_cons, List.length_replicate]
    norm_num
  · simp only [show ((3 : Int) = 4) = False from by decide,
      if_false, if_true, splitIntoWords_longText,
      hcount, List.mem_cons, true_or, List.length_cons, List.length_replicate]
    norm_num
  · have : SplitIntoWords "x".toList = ["x".toList] := by decide
    simp only [if_true, this, List.mem_singleton, hwx, if_false]

end Example

namespace SearchServer

/-- A server described as `Example.tieServer` returns, for the query `w`, a
list that is not in the order of the specification, whatever its order. -/
theorem no_order_of_tied_cycle (s : SearchServer ℝ) (data : Int → Option DocumentData)
    (freq : Int → Str → Option ℝ) (hdesc : Example.Describes s [1, 2, 3, 4] data freq)
    (m1 : data 1 = some { rating := 3, status := DocumentStatus.ACTUAL })
    (m2 : data 2 = some { rating := 2, status := DocumentStatus.ACTUAL })
    (m3 : data 3 = some { rating := 1, status := DocumentStatus.ACTUAL })
    (f1 : freq 1 "w".toList = some (1 / 602)) (f2 : freq 2 "w".toList = some (1 / 601))
    (f3 : freq 3 "w".toList = some (1 / 600)) (f4 : freq 4 "w".toList = none) :
    ∃ docs, s.FindTopDocuments 5 Real.log "w".toList (fun _ _ _ => true) = .ok docs ∧
      ¬ docs.Pairwise RankedBefore := by
  obtain ⟨hinv, hstop, hids, hcount, hdata, hfreq⟩ := hdesc
  have hq : s.ParseQuery "w".toList =
      .ok { plus_words := ["w".toList], minus_words := [] } := by
    rw [parseQuery_congr (hstop.trans (rfl : (Example.empty ℝ).stop_words_ = []).symm)]
    rfl
  obtain ⟨all, docs, -, h2, h3, h4, h5, h6, -⟩ :=
    findTopDocuments_public hinv 5 Real.log (fun _ _ _ => true) hq
  refine ⟨docs, h2, ?_⟩
  -- the observable content of the server
  have c1 : s.containsWord 1 "w".toList = true := by
    unfold containsWord; rw [hfreq, f1]; rfl
  have c2 : s.containsWord 2 "w".toList = true := by
    unfold containsWord; rw [hfreq, f2]; rfl
  have c3 : s.containsWord 3 "w".toList = true := by
    unfold containsWord; rw [hfreq, f3]; rfl
  have c4 : s.containsWord 4 "w".toList = false := by
    unfold containsWord; rw [hfreq, f4]; rfl
  have t1 : s.tf "w".toList 1 = 1 / 602 := by
    unfold tf; rw [hfreq, f1]; rfl
  have t2 : s.tf "w".toList 2 = 1 / 601 := by
    unfold tf; rw [hfreq, f2]; rfl
  have t3 : s.tf "w".toList 3 = 1 / 600 := by
    unfold tf; rw [hfreq, f3]; rfl
  have hdf : s.df "w".toList = 3 := by
    unfold df
    rw [hids]
    simp only [List.filter, c1, c2, c3, c4]
    rfl
  have hN : s.GetDocumentCount = 4 := by rw [hcount]; rfl
  have hlog : Real.log ((s.GetDocumentCount : ℝ) /
      (s.df "w".toList : ℝ)) = Real.log (4 / 3) := by
    rw [hN, hdf]; norm_num
  have hL1 : (1 : ℝ) / 4 ≤ Real.log (4 / 3) := by
    have := Real.one_sub_inv_le_log_of_pos (show (0 : ℝ) < 4 / 3 by norm_num)
    norm_num at this
    linarith
  have hL2 : Real.log (4 / 3) ≤ (1 : ℝ) / 3 := by
    have := Real.log_le_sub_one_of_pos (show (0 : ℝ) < 4 / 3 by norm_num)
    norm_num at this
    linarith
  -- the three results
  have key : ∀ (d : Int) (t : ℝ) (r : Int),
      s.containsWord d "w".toList = true →
      s.tf "w".toList d = t →
      data d = some { rating := r, status := DocumentStatus.ACTUAL } →
      ∃ x ∈ all, x.id = d ∧ x.relevance = t * Real.log (4 / 3) ∧ x.rating = r := by
    intro d t r hc ht hm
    have hp : s.passes (fun _ _ _ => true) d = true := by
      unfold passes; rw [hdata, hm]
    have hM : s.Matches
        { plus_words := ["w".toList], minus_words := [] } (fun _ _ _ => true) d = true := by
      unfold Matches
      simp only [List.any, hp, hc, Bool.or_false, Bool.and_self, Bool.not_false]
    obtain ⟨x, hx, hid⟩ := List.mem_map.1 ((h5 d).2 hM)
    refine ⟨x, hx, hid, ?_, ?_⟩
    · rw [(h6 x hx).1, hid]
      simp only [List.filter, hc, List.map_cons, List.map_nil, List.sum_cons, List.sum_nil,
        add_zero]
      rw [ht, hlog]
    · rw [(h6 x hx).2, hid]
      unfold storedRating
      rw [hdata, hm]
  obtain ⟨x1, hx1, i1, r1, g1⟩ := key 1 _ 3 c1 t1 m1
  obtain ⟨x2, hx2, i2, r2, g2⟩ := key 2 _ 2 c2 t2 m2
  obtain ⟨x3, hx3, i3, r3, g3⟩ := key 3 _ 1 c3 t3 m3
  -- nothing is truncated
  have hlen : all.length ≤ 5 := by
    have hsub : all.map Document.id ⊆ [1, 2, 3, 4] := by
      intro d hd
      rw [← hids]
      exact matches_mem_documentIds hinv ((h5 d).1 hd)
    have := (List.subperm_of_subset (List.Sorted.nodup h4) hsub).length_le
    rw [List.length_map] at this
    exact le_trans this (by decide)
  have hmem : ∀ x ∈ all, x ∈ docs := by
    intro x hx
    rw [h3, List.take_of_length_le (by rw [(std_sort_perm _ all).length_eq]; exact hlen)]
    exact (std_sort_perm _ all).mem_iff.2 hx
  intro hp
  refine List.Pairwise.no_cycle hp (hmem x1 hx1) (hmem x2 hx2) (hmem x3 hx3) ?_ ?_ ?_ ?_ ?_
  · intro h; rw [h, i2] at i1; exact absurd i1 (by decide)
  · intro h; rw [h, i3] at i1; exact absurd i1 (by decide)
  · -- 2 before 1: tied, and the rating of 1 is greater
    intro h
    have ht : Tied x2 x1 := by
      unfold Tied
      rw [r1, r2, abs_lt]
      constructor <;> nlinarith
    have := h.2 ht
    rw [g1, g2] at this
    exact absurd this (by decide)
  · -- 3 before 2: tied, and the rating of 2 is greater
    intro h
    have ht : Tied x3 x2 := by
      unfold Tied
      rw [r2, r3, abs_lt]
      constructor <;> nlinarith
    have := h.2 ht
    rw [g2, g3] at this
    exact absurd this (by decide)
  · -- 1 before 3: not tied, and the relevance of 3 is greater
    intro h
    have hnt : ¬ Tied x1 x3 := by
      unfold Tied
      rw [r1, r3, not_lt, abs_sub_comm]
      refine le_trans ?_ (le_abs_self _)
      nlinarith
    have := h.1 hnt
    rw [r1, r3] at this
    nlinarith

/-- C4 fails as stated: on the reachable server `Example.tieServer` the query
`w` matches three documents whose relevances are `ln(4/3)/602`, `ln(4/3)/601`
and `ln(4/3)/600` with ratings 3, 2 and 1.  The first two and the last two are
tied, the first and the last are not, so that the order claimed would put 1
before 2, 2 before 3 and 3 before 1: the list returned by `FindTopDocuments`,
whatever its order, has two results that violate the claim. -/
theorem C4_counterexample :
    Reachable (Example.tieServer ℝ) ∧
    ∃ docs, (Example.tieServer ℝ).FindTopDocuments 5 Real.log "w".toList (fun _ _ _ => true) =
        .ok docs ∧
      ¬ docs.Pairwise RankedBefore := by
  obtain ⟨data, freq, hdesc, m1, m2, m3, f1, f2, f3, f4⟩ := @Example.tieServer_describes ℝ _
  exact ⟨Example.tieServer_reachable,
    no_order_of_tied_cycle _ data freq hdesc m1 m2 m3 f1 f2 f3 f4⟩

end SearchServer

/-! ## The sharded map and the interleavings -/

namespace StdMap

variable {V : Type}

theorem ordered_touch [Zero V] (ks : List Int) (m : StdMap Int V) (hm : Ordered m) :
    Ordered (ks.foldl (fun m k => access 0 (fun v => v) k m) m) := by
  induction ks generalizing m with
  | nil => exact hm
  | cons k t ih => exact ih _ (ordered_access _ _ _ hm)

end StdMap

namespace ConcurrentMap

variable {V : Type}

end ConcurrentMap

/-! ## The parallel search -/

namespace SearchServer

variable {α : Type} [LinearOrderedField α]

end SearchServer

namespace SearchServer

variable {α : Type} [LinearOrderedField α]

end SearchServer

namespace SearchServer

variable {α : Type} [LinearOrderedField α]

end SearchServer

/-! ## The tokenizer, continued -/

theorem splitOn_space_cons (c : Char) (text : Str) :
    (c :: text).splitOn ' ' =
      if c = ' ' then [] :: text.splitOn ' '
      else (text.splitOn ' ').modifyHead (List.cons c) := by
  unfold List.splitOn
  rw [List.splitOnP_cons]
  by_cases h : c = ' '
  · simp [h]
  · simp [h]

theorem splitOn_space_ne_nil (text : Str) : text.splitOn ' ' ≠ [] :=
  List.splitOnP_ne_nil _ _

theorem splitOn_space_no_space (text : Str) : ∀ w ∈ text.splitOn ' ', ' ' ∉ w := by
  induction text with
  | nil =>
    intro w hw
    rw [List.splitOn_nil, List.mem_singleton] at hw
    rw [hw]
    exact List.not_mem_nil _
  | cons c t ih =>
    intro w hw
    rw [splitOn_space_cons] at hw
    by_cases h : c = ' '
    · rw [if_pos h] at hw
      rcases List.mem_cons.1 hw with rfl | hw
      · exact List.not_mem_nil _
      · exact ih w hw
    · rw [if_neg h] at hw
      cases hs : t.splitOn ' ' with
      | nil => exact absurd hs (splitOn_space_ne_nil t)
      | cons first rest =>
        rw [hs] at hw ih
        simp only [List.modifyHead_cons] at hw
        rcases List.mem_cons.1 hw with rfl | hw
        · intro hm
          rcases List.mem_cons.1 hm with hc | hm
          · exact h hc.symm
          · exact ih first (List.mem_cons_self _ _) hm
        · exact ih w (List.mem_cons_of_mem _ hw)

theorem splitOn_space_length (text : Str) :
    (text.splitOn ' ').length = text.count ' ' + 1 := by
  induction text with
  | nil => rfl
  | cons c t ih =>
    rw [splitOn_space_cons]
    by_cases h : c = ' '
    · rw [if_pos h, List.length_cons, ih, h, List.count_cons_self]
    · rw [if_neg h, List.length_modifyHead, ih, List.count_cons_of_ne (fun hc => h hc.symm)]

/-- C20: for every text the loop of `SplitIntoWords` ends within its bound on
the iterations (any larger bound gives the same tokens); no token contains a
space; the tokens are one more than the spaces of the text; joined by single
spaces they give the text back; and a text without a space, whatever other
characters it has, is a single token. -/
theorem C20_splitIntoWords (text : Str) :
    (∀ fuel, text.length < fuel → SplitIntoWords.loop fuel text [] = SplitIntoWords text) ∧
    (∀ w ∈ SplitIntoWords text, ' ' ∉ w) ∧
    (SplitIntoWords text).length = text.count ' ' + 1 ∧
    [' '].intercalate (SplitIntoWords text) = text ∧
    (' ' ∉ text → SplitIntoWords text = [text]) := by
  refine ⟨?_, ?_, ?_, ?_, ?_⟩
  · intro fuel hf
    rw [SplitIntoWords.loop_eq _ _ _ hf, splitIntoWords_eq_splitOn, List.nil_append]
  · rw [splitIntoWords_eq_splitOn]
    exact splitOn_space_no_space text
  · rw [splitIntoWords_eq_splitOn]
    exact splitOn_space_length text
  · rw [splitIntoWords_eq_splitOn]
    exact List.intercalate_splitOn _ ' '
  · intro h
    rw [splitIntoWords_eq_splitOn]
    unfold List.splitOn
    apply List.splitOnP_eq_single
    intro c hc hp
    apply h
    have : c = ' ' := by simpa using hp
    rw [← this]
    exact hc

/-- C20 at the text `a`, tab, `b`: no space, one token. -/
theorem C20_witness :
    ' ' ∉ ['a', '\t', 'b'] ∧ SplitIntoWords ['a', '\t', 'b'] = [['a', '\t', 'b']] :=
  ⟨by decide, (C20_splitIntoWords ['a', '\t', 'b']).2.2.2.2 (by decide)⟩

/-! ## RemoveDocument -/

namespace SearchServer

variable {α : Type} [LinearOrderedField α]

/-- The guard of `RemoveDocument` looks the id up in `document_to_word_freqs_`:
an id without an entry there is left alone. -/
theorem removeDocument_of_not_indexed (s : SearchServer α) (document_id : Int)
    (h : document_id ∉ StdMap.keys s.document_to_word_freqs_) :
    s.RemoveDocument document_id = s := by
  unfold RemoveDocument
  rw [if_pos ((count_eq_zero_iff _ _).2 h)]

/-- After `RemoveDocument(id)` the word frequencies of `id` are empty, on every
server. -/
theorem getWordFrequencies_removeDocument (s : SearchServer α) (document_id : Int) :
    (s.RemoveDocument document_id).GetWordFrequencies document_id = [] := by
  by_cases hk : document_id ∈ StdMap.keys s.document_to_word_freqs_
  · unfold RemoveDocument
    rw [if_neg (fun h0 => (count_eq_zero_iff _ _).1 h0 hk)]
    unfold GetWordFrequencies
    simp only
    rw [StdMap.find_erase, if_pos rfl]
  · rw [removeDocument_of_not_indexed s document_id hk]
    unfold GetWordFrequencies
    rw [(StdMap.find_eq_none_iff _ _).2 hk]

/-- C11 fails at the server constructed with the stop word `the`: after
`AddDocument(1, "the", ACTUAL, {1})`, which succeeds, `RemoveDocument(1)`
leaves id 1 in the id iteration and the document count at 1, because the
guard of `RemoveDocument` consults `document_to_word_freqs_`, where a document
of stop words only has no entry. -/
theorem C11_all_stop_word_document_stays :
    Reachable (((Example.stopServer ℚ).AddDocument 1 "the".toList DocumentStatus.ACTUAL
      [1]).2.RemoveDocument 1) ∧
    ((Example.stopServer ℚ).AddDocument 1 "the".toList DocumentStatus.ACTUAL [1]).1 = .ok () ∧
    (((Example.stopServer ℚ).AddDocument 1 "the".toList DocumentStatus.ACTUAL
      [1]).2.RemoveDocument 1).documentIds = [1] ∧
    (((Example.stopServer ℚ).AddDocument 1 "the".toList DocumentStatus.ACTUAL
      [1]).2.RemoveDocument 1).GetDocumentCount = 1 :=
  ⟨Reachable.remove _ _ (Reachable.add _ _ _ _ _ (Example.stopServer_reachable ℚ)),
    rfl, by decide, by decide⟩

/-- C12: on every reachable server, `RemoveDocument(id)` with an id that is not
in the id set returns the server unchanged: documents, both postings maps, the
id set and with them the document count.  The function has no failing path. -/
theorem C12_removeDocument_unknown_id (s : SearchServer α) (hs : Reachable s)
    (document_id : Int) (h : document_id ∉ s.documentIds) :
    s.RemoveDocument document_id = s ∧
    (s.RemoveDocument document_id).GetDocumentCount = s.GetDocumentCount := by
  have hinv := hs.inv
  have hk : document_id ∉ StdMap.keys s.document_to_word_freqs_ := by
    intro hm
    apply h
    unfold documentIds
    rw [hinv.ids_eq]
    exact hinv.d2w_docs _ hm
  rw [removeDocument_of_not_indexed s document_id hk]
  exact ⟨rfl, rfl⟩

/-- C12 at the two-document example server and the unknown id 3. -/
theorem C12_witness :
    (3 : Int) ∉ (Example.server ℚ).documentIds ∧
    (Example.server ℚ).RemoveDocument 3 = Example.server ℚ :=
  ⟨by decide,
    (C12_removeDocument_unknown_id (Example.server ℚ) (Example.server_reachable ℚ) 3
      (by decide)).1⟩

end SearchServer

/-! ## ParseQueryWord and ParseQuery -/

namespace SearchServer

variable {α : Type} [LinearOrderedField α]

theorem parseQuery_eq_fold (s : SearchServer α) (text : Str) :
    s.ParseQuery text =
      (SplitIntoWords text).foldlM (ParseQuery.step s) { plus_words := [], minus_words := [] } :=
  rfl

theorem isValidWord_eq_true_iff (word : Str) :
    IsValidWord word = true ↔ ¬ ∃ c ∈ word, c.toNat < 0x20 := by
  rw [← isValidWord_eq_false_iff]
  cases IsValidWord word <;> simp

/-- The outcome of `ParseQueryWord` on a token. -/
theorem parseQueryWord_eq (s : SearchServer α) (token : Str) :
    s.ParseQueryWord token =
      if BadToken token then
        .error (.invalid_argument
          (if token = [] then "Query word is empty".toList
           else "Query word ".toList ++ stripMinus token ++ " is invalid".toList))
      else
        .ok { data := stripMinus token, is_minus := decide (token.head? = some '-'),
              is_stop := s.IsStopWord (stripMinus token) } := by
  unfold ParseQueryWord
  cases token with
  | nil =>
    have hb : BadToken ([] : Str) := Or.inl rfl
    rw [if_pos hb]
    rfl
  | cons c t =>
    have hs : (if decide ((c :: t).head? = some '-') = true then (c :: t).drop 1 else c :: t) =
        stripMinus (c :: t) := by
      unfold stripMinus
      simp only [decide_eq_true_eq]
    simp only [List.isEmpty_cons, Bool.false_eq_true, if_false, hs]
    have hiff : ((stripMinus (c :: t)).isEmpty = true ∨
        (stripMinus (c :: t)).head? = some '-' ∨
        (!IsValidWord (stripMinus (c :: t))) = true) ↔ BadToken (c :: t) := by
      unfold BadToken
      rw [List.isEmpty_iff, Bool.not_eq_true', isValidWord_eq_false_iff]
    by_cases hb : BadToken (c :: t)
    · rw [if_pos (hiff.2 hb), if_pos hb, if_neg (List.cons_ne_nil c t)]
    · rw [if_neg (fun h => hb (hiff.1 h)), if_neg hb]

theorem parseQueryWord_bad (s : SearchServer α) {token : Str} (h : BadToken token) :
    ∃ what, s.ParseQueryWord token = .error (.invalid_argument what) := by
  rw [parseQueryWord_eq, if_pos h]
  exact ⟨_, rfl⟩

theorem parseQueryWord_good (s : SearchServer α) {token : Str} (h : ¬ BadToken token) :
    s.ParseQueryWord token =
      .ok { data := stripMinus token, is_minus := decide (token.head? = some '-'),
            is_stop := s.IsStopWord (stripMinus token) } := by
  rw [parseQueryWord_eq, if_neg h]

theorem stripMinus_of_not_minus {token : Str} (h : token.head? ≠ some '-') :
    stripMinus token = token := by
  unfold stripMinus
  rw [if_neg h]

/-- One iteration of the loop of `ParseQuery` on a well-formed token. -/
theorem parseQuery_step_good (s : SearchServer α) (result : Query) {token : Str}
    (h : ¬ BadToken token) :
    ParseQuery.step s result token =
      .ok (if s.IsStopWord (stripMinus token) = true then result
        else if token.head? = some '-' then
          { result with minus_words := StdSet.insert (stripMinus token) result.minus_words }
        else { result with plus_words := StdSet.insert (stripMinus token) result.plus_words }) := by
  unfold ParseQuery.step
  rw [parseQueryWord_good s h]
  simp only [bind, Except.bind, pure, Except.pure]
  by_cases h1 : s.IsStopWord (stripMinus token) = true
  · simp [h1]
  · by_cases h2 : token.head? = some '-'
    · simp [h1, h2]
    · simp [h1, h2]

theorem parseQuery_step_bad (s : SearchServer α) (result : Query) {token : Str}
    (h : BadToken token) :
    ∃ what, ParseQuery.step s result token = .error (.invalid_argument what) := by
  obtain ⟨what, hw⟩ := parseQueryWord_bad s h
  refine ⟨what, ?_⟩
  unfold ParseQuery.step
  rw [hw]
  rfl

/-- A failure of the loop of `ParseQuery` is an `invalid_argument` raised for a
malformed token. -/
theorem parseQuery_fold_error (s : SearchServer α) (l : List Str) (init : Query) (e : Exception)
    (h : l.foldlM (ParseQuery.step s) init = .error e) :
    (∃ token ∈ l, BadToken token) ∧ ∃ what, e = .invalid_argument what := by
  induction l generalizing init with
  | nil =>
    simp only [List.foldlM_nil, pure, Except.pure] at h
    cases h
  | cons w t ih =>
    rw [List.foldlM_cons] at h
    by_cases hb : BadToken w
    · obtain ⟨what, hw⟩ := parseQuery_step_bad s init hb
      rw [hw] at h
      simp only [bind, Except.bind] at h
      cases h
      exact ⟨⟨w, List.mem_cons_self _ _, hb⟩, what, rfl⟩
    · rw [parseQuery_step_good s init hb] at h
      simp only [bind, Except.bind] at h
      obtain ⟨⟨token, ht, hbad⟩, hwhat⟩ := ih _ h
      exact ⟨⟨token, List.mem_cons_of_mem _ ht, hbad⟩, hwhat⟩

/-- What a successful run of the loop of `ParseQuery` has seen and built. -/
theorem parseQuery_fold_ok (s : SearchServer α) (l : List Str) (init q : Query)
    (h : l.foldlM (ParseQuery.step s) init = .ok q) :
    (∀ token ∈ l, ¬ BadToken token) ∧
    (∀ x, x ∈ q.plus_words ↔ x ∈ init.plus_words ∨
      ∃ token ∈ l, token.head? ≠ some '-' ∧ token = x ∧ s.IsStopWord x = false) ∧
    (∀ x, x ∈ q.minus_words ↔ x ∈ init.minus_words ∨
      ∃ token ∈ l, token.head? = some '-' ∧ stripMinus token = x ∧ s.IsStopWord x = false) := by
  induction l generalizing init with
  | nil =>
    simp only [List.foldlM_nil, pure, Except.pure] at h
    cases h
    simp
  | cons w t ih =>
    rw [List.foldlM_cons] at h
    by_cases hb : BadToken w
    · obtain ⟨what, hw⟩ := parseQuery_step_bad s init hb
      rw [hw] at h
      simp only [bind, Except.bind] at h
      cases h
    · rw [parseQuery_step_good s init hb] at h
      simp only [bind, Except.bind] at h
      obtain ⟨h1, h2, h3⟩ := ih _ h
      refine ⟨?_, ?_, ?_⟩
      · intro token ht
        rcases List.mem_cons.1 ht with rfl | ht
        · exact hb
        · exact h1 token ht
      · intro x
        rw [h2 x]
        by_cases hstop : s.IsStopWord (stripMinus w) = true
        · rw [if_pos hstop]
          constructor
          · rintro (hx | ⟨token, ht, hh, hx, hs⟩)
            · exact Or.inl hx
            · exact Or.inr ⟨token, List.mem_cons_of_mem _ ht, hh, hx, hs⟩
          · rintro (hx | ⟨token, ht, hh, hx, hs⟩)
            · exact Or.inl hx
            · rcases List.mem_cons.1 ht with rfl | ht
              · rw [← hx, ← stripMinus_of_not_minus hh, hstop] at hs
                cases hs
              · exact Or.inr ⟨token, ht, hh, hx, hs⟩
        · rw [if_neg hstop]
          by_cases hminus : w.head? = some '-'
          · rw [if_pos hminus]
            constructor
            · rintro (hx | ⟨token, ht, hh, hx, hs⟩)
              · exact Or.inl hx
              · exact Or.inr ⟨token, List.mem_cons_of_mem _ ht, hh, hx, hs⟩
            · rintro (hx | ⟨token, ht, hh, hx, hs⟩)
              · exact Or.inl hx
              · rcases List.mem_cons.1 ht with rfl | ht
                · exact absurd hminus hh
                · exact Or.inr ⟨token, ht, hh, hx, hs⟩
          · rw [if_neg hminus]
            simp only [StdSet.mem_insert]
            constructor
            · rintro ((hx | hx) | ⟨token, ht, hh, hx, hs⟩)
              · refine Or.inr ⟨w, List.mem_cons_self _ _, hminus, ?_, ?_⟩
                · rw [hx, stripMinus_of_not_minus hminus]
                · rw [hx]
                  simpa using hstop
              · exact Or.inl hx
              · exact Or.inr ⟨token, List.mem_cons_of_mem _ ht, hh, hx, hs⟩
            · rintro (hx | ⟨token, ht, hh, hx, hs⟩)
              · exact Or.inl (Or.inr hx)
              · rcases List.mem_cons.1 ht with rfl | ht
                · exact Or.inl (Or.inl (by rw [stripMinus_of_not_minus hminus, hx]))
                · exact Or.inr ⟨token, ht, hh, hx, hs⟩
      · intro x
        rw [h3 x]
        by_cases hstop : s.IsStopWord (stripMinus w) = true
        · rw [if_pos hstop]
          constructor
          · rintro (hx | ⟨token, ht, hh, hx, hs⟩)
            · exact Or.inl hx
            · exact Or.inr ⟨token, List.mem_cons_of_mem _ ht, hh, hx, hs⟩
          · rintro (hx | ⟨token, ht, hh, hx, hs⟩)
            · exact Or.inl hx
            · rcases List.mem_cons.1 ht with rfl | ht
              · rw [← hx, hstop] at hs
                cases hs
              · exact Or.inr ⟨token, ht, hh, hx, hs⟩
        · rw [if_neg hstop]
          by_cases hminus : w.head? = some '-'
          · rw [if_pos hminus]
            simp only [StdSet.mem_insert]
            constructor
            · rintro ((hx | hx) | ⟨token, ht, hh, hx, hs⟩)
              · refine Or.inr ⟨w, List.mem_cons_self _ _, hminus, hx.symm, ?_⟩
                rw [hx]
                simpa using hstop
              · exact Or.inl hx
              · exact Or.inr ⟨token, List.mem_cons_of_mem _ ht, hh, hx, hs⟩
            · rintro (hx | ⟨token, ht, hh, hx, hs⟩)
              · exact Or.inl (Or.inr hx)
              · rcases List.mem_cons.1 ht with rfl | ht
                · exact Or.inl (Or.inl hx.symm)
                · exact Or.inr ⟨token, ht, hh, hx, hs⟩
          · rw [if_neg hminus]
            constructor
            · rintro (hx | ⟨token, ht, hh, hx, hs⟩)
              · exact Or.inl hx
              · exact Or.inr ⟨token, List.mem_cons_of_mem _ ht, hh, hx, hs⟩
            · rintro (hx | ⟨token, ht, hh, hx, hs⟩)
              · exact Or.inl hx
              · rcases List.mem_cons.1 ht with rfl | ht
                · exact absurd hh hminus
                · exact Or.inr ⟨token, ht, hh, hx, hs⟩

/-- `ParseQuery` fails exactly on a text with a malformed token, and then with
`invalid_argument`. -/
theorem parseQuery_error_iff (s : SearchServer α) (text : Str) :
    ((∃ what, s.ParseQuery text = .error (.invalid_argument what)) ↔
      ∃ token ∈ SplitIntoWords text, BadToken token) ∧
    ((∃ q, s.ParseQuery text = .ok q) ↔ ¬ ∃ token ∈ SplitIntoWords text, BadToken token) := by
  rw [parseQuery_eq_fold]
  cases h : (SplitIntoWords text).foldlM (ParseQuery.step s)
      { plus_words := [], minus_words := [] } with
  | error e =>
    obtain ⟨hbad, what, he⟩ := parseQuery_fold_error s _ _ e h
    refine ⟨⟨fun _ => hbad, fun _ => ⟨what, by rw [he]⟩⟩, ⟨?_, fun hn => absurd hbad hn⟩⟩
    rintro ⟨q, hq⟩
    cases hq
  | ok q =>
    obtain ⟨hgood, -, -⟩ := parseQuery_fold_ok s _ _ q h
    refine ⟨⟨?_, ?_⟩, ⟨fun _ => ?_, fun _ => ⟨q, rfl⟩⟩⟩
    · rintro ⟨what, hw⟩
      cases hw
    · rintro ⟨token, ht, hb⟩
      exact absurd hb (hgood token ht)
    · rintro ⟨token, ht, hb⟩
      exact hgood token ht hb

end SearchServer

/-! ## The parsed query -/

namespace SearchServer

variable {α : Type} [LinearOrderedField α]

theorem findTopDocuments_of_parse_error {s : SearchServer α} (MAX : Nat) (ln : α → α)
    {raw_query : Str} (pred : DocumentPredicate) {e : Exception}
    (h : s.ParseQuery raw_query = .error e) :
    s.FindTopDocuments MAX ln raw_query pred = .error e := by
  unfold FindTopDocuments
  rw [h]
  rfl

theorem stripMinus_cons_minus (w : Str) : stripMinus ('-' :: w) = w := by
  unfold stripMinus
  simp

theorem eq_cons_of_head_minus {token : Str} (h : token.head? = some '-') :
    token = '-' :: stripMinus token := by
  cases token with
  | nil => cases h
  | cons c t =>
    simp only [List.head?_cons, Option.some.injEq] at h
    rw [h, stripMinus_cons_minus]

/-- C16 fails as stated: the query `cat -cat` is accepted and `cat` is both a
plus-word and a minus-word of the parsed query. -/
theorem C16_counterexample :
    (Example.empty ℚ).ParseQuery "cat -cat".toList =
      .ok { plus_words := ["cat".toList], minus_words := ["cat".toList] } ∧
    ¬ List.Disjoint ["cat".toList] ["cat".toList] := by
  refine ⟨rfl, ?_⟩
  intro h
  exact h (List.mem_singleton_self _) (List.mem_singleton_self _)

/-- C16, amended: for every query text that `ParseQuery` accepts, the
plus-words and the minus-words are each strictly ascending, hence without
duplicates, neither set contains a stop word, and a word is in both sets
exactly when it is not a stop word and the text has it as a token both plain
and with a leading `-`. -/
theorem C16_parsed_sets (s : SearchServer α) (text : Str) (q : Query)
    (h : s.ParseQuery text = .ok q) :
    q.plus_words.Sorted (· < ·) ∧ q.minus_words.Sorted (· < ·) ∧
    q.plus_words.Nodup ∧ q.minus_words.Nodup ∧
    (∀ w ∈ q.plus_words, s.IsStopWord w = false) ∧
    (∀ w ∈ q.minus_words, s.IsStopWord w = false) ∧
    (∀ w, w ∈ q.plus_words ∧ w ∈ q.minus_words ↔
      w ∈ SplitIntoWords text ∧ '-' :: w ∈ SplitIntoWords text ∧ s.IsStopWord w = false) := by
  obtain ⟨hp, hm⟩ := parseQuery_sorted h
  rw [parseQuery_eq_fold] at h
  obtain ⟨hgood, hplus, hminus⟩ := parseQuery_fold_ok s _ _ q h
  refine ⟨hp, hm, hp.nodup, hm.nodup, ?_, ?_, ?_⟩
  · intro w hw
    rcases (hplus w).1 hw with hx | ⟨token, -, -, -, hs⟩
    · cases hx
    · exact hs
  · intro w hw
    rcases (hminus w).1 hw with hx | ⟨token, -, -, -, hs⟩
    · cases hx
    · exact hs
  · intro w
    rw [hplus w, hminus w]
    constructor
    · rintro ⟨hx | ⟨t1, ht1, -, rfl, hs⟩, hy | ⟨t2, ht2, hh2, hx2, -⟩⟩
      · cases hx
      · cases hx
      · cases hy
      · refine ⟨ht1, ?_, hs⟩
        rw [← hx2, ← eq_cons_of_head_minus hh2]
        exact ht2
    · rintro ⟨h1, h2, hs⟩
      have hg := hgood _ h2
      have hh : w.head? ≠ some '-' := by
        intro hh
        apply hg
        right; left
        rw [stripMinus_cons_minus]
        exact hh
      exact ⟨Or.inr ⟨w, h1, hh, rfl, hs⟩, Or.inr ⟨'-' :: w, h2, rfl, stripMinus_cons_minus w, hs⟩⟩

/-- C16, amended, at the server with the stop word `the` and the query
`the cat -dog cat -the`. -/
theorem C16_witness :
    (Example.stopServer ℚ).ParseQuery "the cat -dog cat -the".toList =
      .ok { plus_words := ["cat".toList], minus_words := ["dog".toList] } ∧
    (["cat".toList] : List Str).Nodup ∧ (["dog".toList] : List Str).Nodup ∧
    (∀ w ∈ (["cat".toList] : List Str), (Example.stopServer ℚ).IsStopWord w = false) :=
  ⟨rfl,
    (C16_parsed_sets (Example.stopServer ℚ) "the cat -dog cat -the".toList
      { plus_words := ["cat".toList], minus_words := ["dog".toList] } rfl).2.2.1,
    (C16_parsed_sets (Example.stopServer ℚ) "the cat -dog cat -the".toList
      { plus_words := ["cat".toList], minus_words := ["dog".toList] } rfl).2.2.2.1,
    (C16_parsed_sets (Example.stopServer ℚ) "the cat -dog cat -the".toList
      { plus_words := ["cat".toList], minus_words := ["dog".toList] } rfl).2.2.2.2.1⟩

/-- C17: on a reachable server `FindTopDocuments(query, ..)` fails with
`invalid_argument` if and only if some space-separated token of the query,
after stripping one leading `-` when present, is empty, or begins with `-`, or
has a character with code in `[0, 0x20)`, and it returns documents if and only
if there is no such token; a token that is not malformed is parsed into the
stripped word, flagged as a minus-word exactly when its first character is
`-`; and the minus-words (plus-words) of an accepted query are the stripped
tokens with (the tokens without) a leading `-` that are not stop words. -/
theorem C17_query_validation (MAX : Nat) (ln : α → α) (s : SearchServer α) (hs : Reachable s)
    (raw_query : Str) (pred : DocumentPredicate) :
    ((∃ what, s.FindTopDocuments MAX ln raw_query pred = .error (.invalid_argument what)) ↔
      ∃ token ∈ SplitIntoWords raw_query, BadToken token) ∧
    ((∃ docs, s.FindTopDocuments MAX ln raw_query pred = .ok docs) ↔
      ¬ ∃ token ∈ SplitIntoWords raw_query, BadToken token) ∧
    (∀ token, ¬ BadToken token →
      ∃ query_word, s.ParseQueryWord token = .ok query_word ∧
        query_word.data = stripMinus token ∧
        (query_word.is_minus = true ↔ token.head? = some '-')) ∧
    (∀ q, s.ParseQuery raw_query = .ok q → ∀ w,
      (w ∈ q.minus_words ↔ ∃ token ∈ SplitIntoWords raw_query,
        token.head? = some '-' ∧ stripMinus token = w ∧ s.IsStopWord w = false) ∧
      (w ∈ q.plus_words ↔ ∃ token ∈ SplitIntoWords raw_query,
        token.head? ≠ some '-' ∧ token = w ∧ s.IsStopWord w = false)) := by
  obtain ⟨herr, hok⟩ := parseQuery_error_iff s raw_query
  refine ⟨?_, ?_, ?_, ?_⟩
  · rw [← herr]
    cases hq : s.ParseQuery raw_query with
    | error e =>
      rw [findTopDocuments_of_parse_error MAX ln pred hq]
      constructor
      · rintro ⟨what, hw⟩
        cases hw
        exact ⟨what, rfl⟩
      · rintro ⟨what, hw⟩
        cases hw
        exact ⟨what, rfl⟩
    | ok q =>
      obtain ⟨all, docs, -, hdocs, -⟩ := findTopDocuments_public hs.inv MAX ln pred hq
      rw [hdocs]
      constructor
      · rintro ⟨what, hw⟩
        cases hw
      · rintro ⟨what, hw⟩
        cases hw
  · rw [← hok]
    cases hq : s.ParseQuery raw_query with
    | error e =>
      rw [findTopDocuments_of_parse_error MAX ln pred hq]
      constructor
      · rintro ⟨docs, hd⟩
        cases hd
      · rintro ⟨q, hd⟩
        cases hd
    | ok q =>
      obtain ⟨all, docs, -, hdocs, -⟩ := findTopDocuments_public hs.inv MAX ln pred hq
      exact ⟨fun _ => ⟨q, rfl⟩, fun _ => ⟨docs, hdocs⟩⟩
  · intro token hb
    exact ⟨_, parseQueryWord_good s hb, rfl, by simp⟩
  · intro q hq w
    rw [parseQuery_eq_fold] at hq
    obtain ⟨-, hplus, hminus⟩ := parseQuery_fold_ok s _ _ q hq
    rw [hplus w, hminus w]
    constructor
    · constructor
      · rintro (hx | hx)
        · cases hx
        · exact hx
      · exact Or.inr
    · constructor
      · rintro (hx | hx)
        · cases hx
        · exact hx
      · exact Or.inr

/-- C17 at the two-document example server: the query `cat --dog` has the
token `--dog`, which after stripping one `-` begins with `-`, and fails. -/
theorem C17_witness :
    Reachable (Example.server ℝ) ∧
    ∃ what, (Example.server ℝ).FindTopDocuments 5 Real.log "cat --dog".toList
      (fun _ _ _ => true) = .error (.invalid_argument what) :=
  ⟨Example.server_reachable ℝ,
    (C17_query_validation 5 Real.log (Example.server ℝ) (Example.server_reachable ℝ)
      "cat --dog".toList (fun _ _ _ => true)).1.2 ⟨"--dog".toList, by decide, by decide⟩⟩

end SearchServer

/-! ## MatchDocument -/

theorem StdSet.count_zero_iff_not_mem {T : Type} [LinearOrder T] (s : StdSet T) (x : T) :
    StdSet.count s x = 0 ↔ x ∉ s := by
  unfold StdSet.count
  split_ifs with h <;> simp [h]

/-- A character of the text other than the space is in one of the tokens. -/
theorem mem_splitOn_space_of_mem (text : Str) (c : Char) (hc : c ∈ text) (hne : c ≠ ' ') :
    ∃ token ∈ text.splitOn ' ', c ∈ token := by
  induction text with
  | nil => cases hc
  | cons x xs ih =>
    rw [splitOn_space_cons]
    by_cases hx : x = ' '
    · rw [if_pos hx]
      rcases List.mem_cons.1 hc with rfl | hc
      · exact absurd hx hne
      · obtain ⟨token, ht, hm⟩ := ih hc
        exact ⟨token, List.mem_cons_of_mem _ ht, hm⟩
    · rw [if_neg hx]
      cases hs : xs.splitOn ' ' with
      | nil => exact absurd hs (splitOn_space_ne_nil xs)
      | cons first rest =>
        simp only [List.modifyHead_cons]
        rcases List.mem_cons.1 hc with rfl | hc
        · exact ⟨c :: first, List.mem_cons_self _ _, List.mem_cons_self _ _⟩
        · obtain ⟨token, ht, hm⟩ := ih hc
          rw [hs] at ht
          rcases List.mem_cons.1 ht with rfl | ht
          · exact ⟨x :: token, List.mem_cons_self _ _, List.mem_cons_of_mem _ hm⟩
          · exact ⟨token, List.mem_cons_of_mem _ ht, hm⟩

namespace SearchServer

variable {α : Type} [LinearOrderedField α]

theorem mem_stripMinus {token : Str} {c : Char} (hc : c ∈ token) (hne : c ≠ '-') :
    c ∈ stripMinus token := by
  unfold stripMinus
  split_ifs with h
  · cases token with
    | nil => cases hc
    | cons x t =>
      simp only [List.head?_cons, Option.some.injEq] at h
      rcases List.mem_cons.1 hc with rfl | hc
      · exact absurd h hne
      · exact hc
  · exact hc

/-- A text that `ParseQuery` accepts passes the check `IsValidWord(raw_query)`
that `MatchDocument` makes first. -/
theorem isValidWord_of_parseQuery_ok {s : SearchServer α} {raw_query : Str} {q : Query}
    (h : s.ParseQuery raw_query = .ok q) : IsValidWord raw_query = true := by
  rw [isValidWord_eq_true_iff]
  rintro ⟨c, hc, hlt⟩
  rw [parseQuery_eq_fold] at h
  obtain ⟨hgood, -, -⟩ := parseQuery_fold_ok s _ _ q h
  have hne : c ≠ ' ' := by
    rintro rfl
    exact absurd hlt (by decide)
  have hne2 : c ≠ '-' := by
    rintro rfl
    exact absurd hlt (by decide)
  obtain ⟨token, ht, hm⟩ := mem_splitOn_space_of_mem raw_query c hc hne
  rw [← splitIntoWords_eq_splitOn] at ht
  exact hgood token ht (Or.inr (Or.inr ⟨c, mem_stripMinus hm hne2, hlt⟩))

/-- `word_to_document_freqs_.count(word) != 0` and
`word_to_document_freqs_.at(word).count(document_id) != 0`, as one lookup. -/
theorem matchDocument_plusWord_eq (s : SearchServer α) (document_id : Int)
    (matched_words : List Str) (word : Str) :
    MatchDocument.plusWord s document_id matched_words word =
      if (StdMap.find2 s.word_to_document_freqs_ word document_id).isSome then
        matched_words ++ [word]
      else matched_words := by
  unfold MatchDocument.plusWord StdMap.find2
  cases StdMap.find s.word_to_document_freqs_ word with
  | none => simp
  | some docs =>
    simp only [Option.some_bind]
    by_cases hk : document_id ∈ StdMap.keys docs
    · rw [if_pos (fun h0 => (count_eq_zero_iff _ _).1 h0 hk),
        if_pos ((StdMap.find_isSome_iff _ _).2 hk)]
    · rw [if_neg (fun h0 => h0 ((count_eq_zero_iff _ _).2 hk)),
        if_neg (fun h0 => hk ((StdMap.find_isSome_iff _ _).1 h0))]

theorem matchDocument_plus_fold (s : SearchServer α) (document_id : Int) (words : List Str)
    (matched_words : List Str) :
    words.foldl (MatchDocument.plusWord s document_id) matched_words =
      matched_words ++ words.filter
        (fun word => (StdMap.find2 s.word_to_document_freqs_ word document_id).isSome) := by
  induction words generalizing matched_words with
  | nil => simp
  | cons w t ih =>
    rw [List.foldl_cons, ih, matchDocument_plusWord_eq, List.filter_cons]
    split_ifs with h
    · simp
    · rfl

/-- The `any_of` over the minus-words leaves `matched_words` as it was when no
minus-word occurs in the document. -/
theorem matchDocument_minus_unchanged (s : SearchServer α) (document_id : Int)
    (words : List Str) (matched_words : List Str)
    (h : ∀ word ∈ words,
      (StdMap.find2 s.word_to_document_freqs_ word document_id).isSome = false) :
    (std_any_of (MatchDocument.minusWord s document_id) words matched_words).2 =
      matched_words := by
  induction words with
  | nil => rfl
  | cons w t ih =>
    have hw := h w (List.mem_cons_self _ _)
    have hstep : (MatchDocument.minusWord s document_id matched_words w).2 = matched_words := by
      unfold MatchDocument.minusWord
      unfold StdMap.find2 at hw
      cases hf : StdMap.find s.word_to_document_freqs_ w with
      | none => rfl
      | some docs =>
        rw [hf] at hw
        simp only [Option.some_bind] at hw
        have hk : document_id ∉ StdMap.keys docs := by
          rw [← StdMap.find_isSome_iff, hw]
          simp
        simp only
        rw [if_neg (fun h0 => h0 ((count_eq_zero_iff _ _).2 hk))]
    unfold std_any_of
    split_ifs with hc
    · exact hstep
    · rw [hstep]
      exact ih (fun word hword => h word (List.mem_cons_of_mem _ hword))

/-- C13 fails at the two-document example server (1: `white cat fluffy tail`,
2: `fluffy dog`), the query `fluffy -cat -dog` and the stored id 2: the
minus-word `dog` occurs in document 2, and `MatchDocument` returns the matched
word `fluffy`.  The predicate given to `any_of` returns `true` for the indexed
minus-word `cat`, which is not in the document, and `any_of` stops there,
before `dog`. -/
theorem C13_later_minus_word_is_not_checked :
    Reachable (Example.server ℚ) ∧
    (Example.server ℚ).ParseQuery "fluffy -cat -dog".toList =
      .ok { plus_words := ["fluffy".toList], minus_words := ["cat".toList, "dog".toList] } ∧
    (2 : Int) ∈ (Example.server ℚ).documentIds ∧
    (Example.server ℚ).containsWord 2 "dog".toList = true ∧
    (Example.server ℚ).MatchDocument "fluffy -cat -dog".toList 2 =
      .ok (["fluffy".toList], DocumentStatus.ACTUAL) :=
  ⟨Example.server_reachable ℚ, rfl, by decide, by decide, rfl⟩

/-- C14: on a reachable server, for a query that parses and a stored id such
that no minus-word of the query occurs in the document, `MatchDocument` returns
the plus-words of the query that occur in the document, in the strictly
ascending order of the plus-word set, so each once, together with the stored
status of the document. -/
theorem C14_matchDocument_plus_words (s : SearchServer α) (hs : Reachable s)
    (raw_query : Str) (query : Query) (document_id : Int)
    (hq : s.ParseQuery raw_query = .ok query)
    (hid : document_id ∈ s.documentIds)
    (hminus : ∀ word ∈ query.minus_words, s.containsWord document_id word = false) :
    ∃ document_data, StdMap.find s.documents_ document_id = some document_data ∧
      s.MatchDocument raw_query document_id =
        .ok (query.plus_words.filter (fun word => s.containsWord document_id word),
          document_data.status) ∧
      (query.plus_words.filter (fun word => s.containsWord document_id word)).Sorted (· < ·) ∧
      (query.plus_words.filter (fun word => s.containsWord document_id word)).Nodup ∧
      ∀ word, word ∈ query.plus_words.filter (fun word => s.containsWord document_id word) ↔
        word ∈ query.plus_words ∧ s.containsWord document_id word = true := by
  have hinv := hs.inv
  have hk : document_id ∈ StdMap.keys s.documents_ := by
    rw [← hinv.ids_eq]
    exact hid
  obtain ⟨document_data, hfind, hat⟩ := at_eq_ok hk
  have hsorted : (query.plus_words.filter
      (fun word => s.containsWord document_id word)).Sorted (· < ·) :=
    (parseQuery_sorted hq).1.filter _
  refine ⟨document_data, hfind, ?_, hsorted, hsorted.nodup, ?_⟩
  · unfold MatchDocument
    rw [isValidWord_of_parseQuery_ok hq, hq]
    have hcount : ¬ StdSet.count s.document_ids_ document_id = 0 :=
      fun h0 => (StdSet.count_zero_iff_not_mem _ _).1 h0 hid
    simp only [Bool.not_true, Bool.false_eq_true, if_false, bind, Except.bind, if_neg hcount,
      pure, Except.pure]
    rw [hat, matchDocument_plus_fold, List.nil_append, matchDocument_minus_unchanged]
    · have hfun : (fun word => (StdMap.find2 s.word_to_document_freqs_ word
          document_id).isSome) = fun word => s.containsWord document_id word := by
        funext word
        rw [containsWord_eq hinv]
      rw [hfun]
    · intro word hword
      rw [← containsWord_eq hinv]
      exact hminus word hword
  · intro word
    rw [List.mem_filter]

/-- C14 at the two-document example server, the query `cat fluffy -dog` and
document 1 (`white cat fluffy tail`). -/
theorem C14_witness :
    (Example.server ℚ).MatchDocument "cat fluffy -dog".toList 1 =
      .ok (["cat".toList, "fluffy".toList], DocumentStatus.ACTUAL) := by
  obtain ⟨document_data, hfind, hmatch, -⟩ :=
    C14_matchDocument_plus_words (Example.server ℚ) (Example.server_reachable ℚ)
      "cat fluffy -dog".toList
      { plus_words := ["cat".toList, "fluffy".toList], minus_words := ["dog".toList] } 1
      rfl (by decide) (by decide)
  have hstatus : (StdMap.find (Example.server ℚ).documents_ 1).map DocumentData.status =
      some DocumentStatus.ACTUAL := rfl
  rw [hfind, Option.map_some', Option.some.injEq] at hstatus
  rw [hmatch, hstatus]
  rfl

/-- C15 fails as stated: with an id that is not in the store, `MatchDocument`
throws `invalid_argument` on the empty query, on a query with the token
`--dog`, and on a query with a tab. -/
theorem C15_counterexample :
    (3 : Int) ∉ (Example.server ℚ).documentIds ∧
    (Example.server ℚ).MatchDocument [] 3 =
      .error (.invalid_argument "Query word is empty".toList) ∧
    (Example.server ℚ).MatchDocument "cat --dog".toList 3 =
      .error (.invalid_argument "Query word -dog is invalid".toList) ∧
    (Example.server ℚ).MatchDocument "cat\tdog".toList 3 =
      .error (.invalid_argument "Query is invalid".toList) :=
  ⟨by decide, rfl, rfl, rfl⟩

/-- C15, amended: on every server, for a query that `ParseQuery` accepts and
an id that is not in the id set, `MatchDocument` raises no exception and
returns an empty word list with the value-initialised status; for a query with
a malformed token it throws `invalid_argument` whatever the id, stored or not;
and every query is of one of the two kinds. -/
theorem C15_matchDocument_unknown_id (s : SearchServer α) (raw_query : Str)
    (document_id : Int) :
    (document_id ∉ s.documentIds → ∀ query, s.ParseQuery raw_query = .ok query →
      s.MatchDocument raw_query document_id = .ok ([], DocumentStatus.valueInitialized)) ∧
    ((∃ token ∈ SplitIntoWords raw_query, BadToken token) →
      ∃ what, s.MatchDocument raw_query document_id = .error (.invalid_argument what)) ∧
    ((∃ query, s.ParseQuery raw_query = .ok query) ∨
      ∃ token ∈ SplitIntoWords raw_query, BadToken token) := by
  refine ⟨?_, ?_, ?_⟩
  · intro hid query hq
    unfold MatchDocument
    rw [isValidWord_of_parseQuery_ok hq, hq]
    have hcount : StdSet.count s.document_ids_ document_id = 0 :=
      (StdSet.count_zero_iff_not_mem _ _).2 hid
    simp only [Bool.not_true, Bool.false_eq_true, if_false, bind, Except.bind, if_pos hcount,
      pure, Except.pure]
  · intro hbad
    obtain ⟨what, hw⟩ := (parseQuery_error_iff s raw_query).1.2 hbad
    unfold MatchDocument
    by_cases hv : IsValidWord raw_query = true
    · rw [hv, hw]
      exact ⟨what, rfl⟩
    · rw [Bool.not_eq_true] at hv
      rw [hv]
      exact ⟨_, rfl⟩
  · by_cases hbad : ∃ token ∈ SplitIntoWords raw_query, BadToken token
    · exact Or.inr hbad
    · exact Or.inl ((parseQuery_error_iff s raw_query).2.2 hbad)

/-- C15, amended, at the two-document example server: the query `cat -dog`
with the unknown id 3 returns the empty list, and the query `cat --dog`
throws with the stored id 1. -/
theorem C15_witness :
    (3 : Int) ∉ (Example.server ℚ).documentIds ∧
    (Example.server ℚ).MatchDocument "cat -dog".toList 3 =
      .ok ([], DocumentStatus.valueInitialized) ∧
    (1 : Int) ∈ (Example.server ℚ).documentIds ∧
    ∃ what, (Example.server ℚ).MatchDocument "cat --dog".toList 1 =
      .error (.invalid_argument what) :=
  ⟨by decide,
    (C15_matchDocument_unknown_id (Example.server ℚ) "cat -dog".toList 3).1 (by decide)
      { plus_words := ["cat".toList], minus_words := ["dog".toList] } rfl,
    by decide,
    (C15_matchDocument_unknown_id (Example.server ℚ) "cat --dog".toList 1).2.1
      ⟨"--dog".toList, by decide, by decide⟩⟩

end SearchServer

/-! ## RequestQueue -/

namespace RequestQueue

variable {α : Type} [LinearOrderedField α]

theorem drop_tail_eq {T : Type} (n : Nat) (l : List T) : l.tail.drop n = l.drop (n + 1) := by
  cases l <;> simp

/-- The eviction loop: with fuel for `cache - sec_in_day_` iterations or more
it pops that many entries from the front and stops with the loop condition
false. -/
theorem evict_eq (fuel : Nat) (rq : RequestQueue α)
    (h : (rq.cache - sec_in_day_).toNat ≤ fuel) :
    AddFindRequest.evict fuel rq =
      { requests_ := rq.requests_.drop (rq.cache - sec_in_day_).toNat,
        cache := rq.cache - ((rq.cache - sec_in_day_).toNat : Int) } := by
  induction fuel generalizing rq with
  | zero =>
    have h0 : (rq.cache - sec_in_day_).toNat = 0 := by omega
    unfold AddFindRequest.evict
    rw [h0]
    simp
  | succ fuel ih =>
    unfold AddFindRequest.evict
    by_cases hc : rq.cache > sec_in_day_
    · rw [if_pos hc, ih _ (by simp only; omega)]
      have hk : (rq.cache - sec_in_day_).toNat = (rq.cache - 1 - sec_in_day_).toNat + 1 := by
        omega
      simp only
      rw [hk, drop_tail_eq]
      congr 1
      push_cast
      omega
    · rw [if_neg hc]
      have h0 : (rq.cache - sec_in_day_).toNat = 0 := by omega
      rw [h0]
      simp

theorem evict_cache_le (rq : RequestQueue α) :
    (AddFindRequest.evict (rq.cache - sec_in_day_).toNat rq).cache ≤ sec_in_day_ := by
  rw [evict_eq _ _ (le_refl _)]
  simp only
  omega

end RequestQueue

namespace RequestQueue

variable {α : Type} [LinearOrderedField α]

/-- The entry that `AddFindRequest` pushes for a request without results. -/
theorem isSentinel_pushed (raw_query : Str) :
    QueryResult.isSentinel
      ({ results := [{ id := -1, relevance := -(11 / 10), rating := -1 }],
         query := raw_query } : QueryResult α) = true := by
  unfold QueryResult.isSentinel
  simp

theorem results_ne_nil_of_isSentinel {request : QueryResult α}
    (h : request.isSentinel = true) : request.results ≠ [] := by
  intro h0
  unfold QueryResult.isSentinel at h
  rw [h0] at h
  cases h

theorem isSentinel_eq_false {request : QueryResult α}
    (h : ∀ d ∈ request.results, d.id ≠ -1) : request.isSentinel = false := by
  unfold QueryResult.isSentinel
  split
  · rename_i first hres
    have := h first (by rw [hres]; exact List.mem_singleton_self _)
    simp [this]
  · rfl

/-- The test of `GetNoResultRequests` on an entry with a result is the
sentinel shape. -/
theorem getNoResultRequests_fold (requests : List (QueryResult α))
    (h : ∀ request ∈ requests, request.results ≠ []) (n : Int) :
    requests.foldlM (fun non_existant (request : QueryResult α) =>
      match request.results with
      | [] => (.error (.out_of_range "vector::at".toList) : Except Exception Int)
      | first :: _ =>
        if first.id = -1 ∧ first.rating = -1 ∧ request.results.length = 1 then
          .ok (non_existant + 1)
        else .ok non_existant) n =
      .ok (n + (requests.countP QueryResult.isSentinel : Nat)) := by
  induction requests generalizing n with
  | nil => simp [pure, Except.pure]
  | cons r t ih =>
    rw [List.foldlM_cons]
    have hr := h r (List.mem_cons_self _ _)
    have ht := fun request hm => h request (List.mem_cons_of_mem _ hm)
    cases hres : r.results with
    | nil => exact absurd hres hr
    | cons first rest =>
      simp only []
      by_cases hs : r.isSentinel = true
      · have hs2 := hs
        unfold QueryResult.isSentinel at hs2
        rw [hres] at hs2
        cases rest with
        | nil =>
          simp only [decide_eq_true_eq] at hs2
          rw [if_pos ⟨hs2.1, hs2.2, rfl⟩]
          refine (ih ht (n + 1)).trans ?_
          rw [List.countP_cons_of_pos _ _ hs]
          congr 1
          push_cast
          ring
        | cons x y => cases hs2
      · have hs2 := hs
        unfold QueryResult.isSentinel at hs2
        rw [hres] at hs2
        rw [if_neg]
        · refine (ih ht n).trans ?_
          rw [List.countP_cons_of_neg _ _ hs]
        · rintro ⟨h1, h2, h3⟩
          cases rest with
          | nil =>
            apply hs2
            simp [h1, h2]
          | cons x y =>
            simp at h3

theorem getNoResultRequests_eq (rq : RequestQueue α)
    (h : ∀ request ∈ rq.requests_, request.results ≠ []) :
    rq.GetNoResultRequests = .ok (rq.requests_.countP QueryResult.isSentinel : Nat) := by
  unfold GetNoResultRequests
  rw [getNoResultRequests_fold _ h 0, zero_add]

/-- `AddFindRequest` for a request without results. -/
theorem addFindRequest_empty (MAX : Nat) (ln : α → α) (server : SearchServer α)
    (rq : RequestQueue α) (raw_query : Str) (pred : DocumentPredicate)
    (h : server.FindTopDocuments MAX ln raw_query pred = .ok []) :
    AddFindRequest MAX ln server rq raw_query pred =
      (.ok [],
        { requests_ := (rq.requests_ ++
            [({ results := [{ id := -1, relevance := -(11 / 10), rating := -1 }],
                query := raw_query } : QueryResult α)]).drop (rq.cache + 1 - sec_in_day_).toNat,
          cache := rq.cache + 1 - ((rq.cache + 1 - sec_in_day_).toNat : Int) }) := by
  unfold AddFindRequest
  rw [h]
  simp only [List.length_nil, if_true]
  congr 1
  exact evict_eq _ _ (le_refl _)

/-- `AddFindRequest` for a request with results. -/
theorem addFindRequest_docs (MAX : Nat) (ln : α → α) (server : SearchServer α)
    (rq : RequestQueue α) (raw_query : Str) (pred : DocumentPredicate)
    (documents : List (Document α)) (hne : documents ≠ [])
    (h : server.FindTopDocuments MAX ln raw_query pred = .ok documents) :
    AddFindRequest MAX ln server rq raw_query pred =
      (.ok documents,
        { requests_ := ((documents.foldl (AddFindRequest.push raw_query)
            ({ results := [], query := [] }, rq.requests_)).2).drop
              (rq.cache + 1 - sec_in_day_).toNat,
          cache := rq.cache + 1 - ((rq.cache + 1 - sec_in_day_).toNat : Int) }) := by
  unfold AddFindRequest
  rw [h]
  have hl : ¬ documents.length = 0 := fun h0 => hne (List.length_eq_zero.1 h0)
  simp only [if_neg hl]
  congr 1
  exact evict_eq _ _ (le_refl _)

/-- The loop over the returned documents pushes one entry per document; none
of them has the sentinel shape when no document has the id -1. -/
theorem push_fold (raw_query : Str) (documents : List (Document α))
    (hid : ∀ d ∈ documents, d.id ≠ -1) (QR : QueryResult α)
    (hQR : ∀ d ∈ QR.results, d.id ≠ -1) (requests : List (QueryResult α))
    (hres : ∀ request ∈ requests, request.results ≠ []) :
    ((documents.foldl (AddFindRequest.push raw_query) (QR, requests)).2).length =
      requests.length + documents.length ∧
    ((documents.foldl (AddFindRequest.push raw_query) (QR, requests)).2).countP
      QueryResult.isSentinel = requests.countP QueryResult.isSentinel ∧
    ∀ request ∈ (documents.foldl (AddFindRequest.push raw_query) (QR, requests)).2,
      request.results ≠ [] := by
  induction documents generalizing QR requests with
  | nil => exact ⟨rfl, rfl, hres⟩
  | cons d t ih =>
    rw [List.foldl_cons]
    have hd := hid d (List.mem_cons_self _ _)
    have hnew : ∀ x ∈ QR.results ++ [d], x.id ≠ -1 := by
      intro x hx
      rcases List.mem_append.1 hx with hx | hx
      · exact hQR x hx
      · rw [List.mem_singleton] at hx
        rw [hx]
        exact hd
    obtain ⟨h1, h2, h3⟩ := ih (fun x hx => hid x (List.mem_cons_of_mem _ hx))
      { results := QR.results ++ [d], query := raw_query } hnew
      (requests ++ [{ results := QR.results ++ [d], query := raw_query }])
      (by
        intro request hr
        rcases List.mem_append.1 hr with hr | hr
        · exact hres request hr
        · rw [List.mem_singleton] at hr
          rw [hr]
          simp)
    have hp : AddFindRequest.push raw_query (QR, requests) d =
        ({ results := QR.results ++ [d], query := raw_query },
          requests ++ [{ results := QR.results ++ [d], query := raw_query }]) := rfl
    rw [hp]
    refine ⟨?_, ?_, h3⟩
    · rw [h1, List.length_append, List.length_cons, List.length_cons, List.length_nil]
      omega
    · rw [h2, List.countP_append, List.countP_cons_of_neg, List.countP_nil, Nat.add_zero]
      rw [Bool.not_eq_true]
      exact isSentinel_eq_false hnew

theorem run_nil (MAX : Nat) (ln : α → α) (rq : RequestQueue α) : run MAX ln rq [] = rq := rfl

theorem run_cons (MAX : Nat) (ln : α → α) (rq : RequestQueue α) (call : Call α)
    (calls : List (Call α)) :
    run MAX ln rq (call :: calls) =
      run MAX ln (AddFindRequest MAX ln call.server rq call.raw_query
        call.document_predicate).2 calls := rfl

/-- Requests without results, from a queue of `k` sentinel entries with
`cache = k ≤ sec_in_day_`: the queue holds `min (k + n) 1440` sentinels after
`n` of them. -/
theorem run_zero_results (MAX : Nat) (ln : α → α) (calls : List (Call α))
    (h : ∀ call ∈ calls,
      call.server.FindTopDocuments MAX ln call.raw_query call.document_predicate = .ok [])
    (rq : RequestQueue α) (k : Nat) (hk : k ≤ 1440) (hcache : rq.cache = k)
    (hlen : rq.requests_.length = k)
    (hall : ∀ request ∈ rq.requests_, request.isSentinel = true) :
    (run MAX ln rq calls).cache = min (k + calls.length) 1440 ∧
    (run MAX ln rq calls).requests_.length = min (k + calls.length) 1440 ∧
    ∀ request ∈ (run MAX ln rq calls).requests_, request.isSentinel = true := by
  induction calls generalizing rq k with
  | nil =>
    rw [run_nil, List.length_nil, Nat.add_zero, min_eq_left hk]
    exact ⟨hcache, hlen, hall⟩
  | cons call t ih =>
    rw [run_cons, addFindRequest_empty MAX ln _ rq _ _ (h call (List.mem_cons_self _ _))]
    simp only
    have hsec : (sec_in_day_ : Int) = 1440 := rfl
    have hmem : ∀ request ∈ (rq.requests_ ++
        [({ results := [{ id := -1, relevance := -(11 / 10), rating := -1 }],
            query := call.raw_query } : QueryResult α)]).drop
          (rq.cache + 1 - sec_in_day_).toNat, request.isSentinel = true := by
      intro request hr
      rcases List.mem_append.1 (List.mem_of_mem_drop hr) with hr | hr
      · exact hall request hr
      · rw [List.mem_singleton] at hr
        rw [hr]
        exact isSentinel_pushed _
    by_cases hlt : k < 1440
    · have hj : (rq.cache + 1 - sec_in_day_).toNat = 0 := by rw [hcache, hsec]; omega
      have := ih (fun c hc => h c (List.mem_cons_of_mem _ hc))
        { requests_ := (rq.requests_ ++
            [({ results := [{ id := -1, relevance := -(11 / 10), rating := -1 }],
                query := call.raw_query } : QueryResult α)]).drop
              (rq.cache + 1 - sec_in_day_).toNat,
          cache := rq.cache + 1 - ((rq.cache + 1 - sec_in_day_).toNat : Int) }
        (k + 1) (by omega)
        (by simp only; rw [hj, hcache]; push_cast; omega)
        (by simp only; rw [hj, List.drop_zero, List.length_append, hlen]; rfl)
        hmem
      rw [List.length_cons]
      have he : k + (t.length + 1) = k + 1 + t.length := by omega
      rw [he]
      exact this
    · have hk2 : k = 1440 := by omega
      have hj : (rq.cache + 1 - sec_in_day_).toNat = 1 := by rw [hcache, hsec]; omega
      have := ih (fun c hc => h c (List.mem_cons_of_mem _ hc))
        { requests_ := (rq.requests_ ++
            [({ results := [{ id := -1, relevance := -(11 / 10), rating := -1 }],
                query := call.raw_query } : QueryResult α)]).drop
              (rq.cache + 1 - sec_in_day_).toNat,
          cache := rq.cache + 1 - ((rq.cache + 1 - sec_in_day_).toNat : Int) }
        k hk
        (by simp only; rw [hj, hcache]; push_cast; omega)
        (by
          simp only
          rw [hj, List.length_drop, List.length_append, hlen, List.length_singleton]
          omega)
        hmem
      rw [List.length_cons]
      have he1 : min (k + (t.length + 1)) 1440 = 1440 := by omega
      have he2 : min (k + t.length) 1440 = 1440 := by omega
      rw [he1]
      rw [he2] at this
      exact this

/-- C19: for every `n`, after `n` calls of `AddFindRequest` on a fresh queue
that each return no documents, `GetNoResultRequests()` returns `min n 1440`,
the queue holding that many entries; after 1441 such calls it returns 1440. -/
theorem C19_zero_result_requests (MAX : Nat) (ln : α → α) (calls : List (Call α))
    (h : ∀ call ∈ calls,
      call.server.FindTopDocuments MAX ln call.raw_query call.document_predicate = .ok []) :
    (run MAX ln RequestQueue.new calls).GetNoResultRequests =
      .ok ((min calls.length 1440 : Nat) : Int) ∧
    (run MAX ln RequestQueue.new calls).requests_.length = min calls.length 1440 ∧
    (calls.length = 1441 →
      (run MAX ln RequestQueue.new calls).GetNoResultRequests = .ok 1440) := by
  obtain ⟨-, hlen, hall⟩ := run_zero_results MAX ln calls h RequestQueue.new 0 (by omega) rfl rfl
    (fun request hr => by cases hr)
  rw [Nat.zero_add] at hlen
  have hget : (run MAX ln RequestQueue.new calls).GetNoResultRequests =
      .ok ((min calls.length 1440 : Nat) : Int) := by
    rw [getNoResultRequests_eq _ (fun request hr => results_ne_nil_of_isSentinel (hall request hr)),
      List.countP_eq_length.2 hall, hlen]
  refine ⟨hget, hlen, fun h1441 => ?_⟩
  rw [hget, h1441]
  rfl

end RequestQueue

namespace RequestQueue

variable {α : Type} [LinearOrderedField α]

/-- C19 at the two-document example server and 1441 requests for `zzz`, a
word of no document. -/
theorem C19_witness :
    (∀ call ∈ List.replicate 1441 (Example.request ℝ "zzz".toList),
      call.server.FindTopDocuments 5 Real.log call.raw_query call.document_predicate =
        .ok []) ∧
    (run 5 Real.log RequestQueue.new
      (List.replicate 1441 (Example.request ℝ "zzz".toList))).GetNoResultRequests =
        .ok 1440 :=
  ⟨fun call hc => by rw [List.eq_of_mem_replicate hc]; rfl,
    (C19_zero_result_requests 5 Real.log
      (List.replicate 1441 (Example.request ℝ "zzz".toList))
      (fun call hc => by rw [List.eq_of_mem_replicate hc]; rfl)).2.2
      (List.length_replicate _ _)⟩

/-- Requests that return documents, while `cache` stays within
`sec_in_day_`: nothing is evicted, each request adds one to `cache` and one
entry per returned document to the queue, none of the sentinel shape. -/
theorem run_replicate_docs (MAX : Nat) (ln : α → α) (call : Call α)
    (documents : List (Document α)) (hne : documents ≠ [])
    (hft : call.server.FindTopDocuments MAX ln call.raw_query call.document_predicate =
      .ok documents)
    (hid : ∀ d ∈ documents, d.id ≠ -1) (n : Nat) (rq : RequestQueue α)
    (hc : rq.cache + n ≤ sec_in_day_)
    (hres : ∀ request ∈ rq.requests_, request.results ≠ []) :
    (run MAX ln rq (List.replicate n call)).requests_.length =
      rq.requests_.length + n * documents.length ∧
    (run MAX ln rq (List.replicate n call)).cache = rq.cache + n ∧
    (run MAX ln rq (List.replicate n call)).requests_.countP QueryResult.isSentinel =
      rq.requests_.countP QueryResult.isSentinel ∧
    ∀ request ∈ (run MAX ln rq (List.replicate n call)).requests_, request.results ≠ [] := by
  induction n generalizing rq with
  | zero =>
    rw [List.replicate_zero, run_nil]
    simp only [Nat.zero_mul, Nat.add_zero, Nat.cast_zero, add_zero, true_and]
    exact hres
  | succ n ih =>
    rw [List.replicate_succ, run_cons, addFindRequest_docs MAX ln _ rq _ _ documents hne hft]
    simp only
    have hj : (rq.cache + 1 - sec_in_day_).toNat = 0 := by
      push_cast at hc
      omega
    rw [hj]
    obtain ⟨h1, h2, h3⟩ := push_fold call.raw_query documents hid
      { results := [], query := [] } (fun d hd => by cases hd) rq.requests_ hres
    obtain ⟨i1, i2, i3, i4⟩ := ih
      { requests_ := ((documents.foldl (AddFindRequest.push call.raw_query)
          ({ results := [], query := [] }, rq.requests_)).2).drop 0,
        cache := rq.cache + 1 - ((0 : Nat) : Int) }
      (by simp only; push_cast at hc ⊢; omega)
      (by simp only [List.drop_zero]; exact h3)
    simp only [List.drop_zero] at i1 i2 i3 i4 ⊢
    refine ⟨?_, ?_, ?_, i4⟩
    · rw [i1, h1, Nat.succ_mul]
      omega
    · rw [i2]
      push_cast
      omega
    · rw [i3, h2]

end RequestQueue

namespace Example

/-- The request for `fluffy` at the example server returns both documents. -/
theorem request_fluffy :
    ∃ documents, (Example.request ℝ "fluffy".toList).server.FindTopDocuments 5 Real.log
        (Example.request ℝ "fluffy".toList).raw_query
        (Example.request ℝ "fluffy".toList).document_predicate = .ok documents ∧
      documents.length = 2 ∧ ∀ d ∈ documents, d.id ≠ -1 := by
  have hids : ((Example.server ℝ).FindAllDocuments Real.log
      { plus_words := ["fluffy".toList], minus_words := [] }
      (fun _ document_status _ => decide (document_status = DocumentStatus.ACTUAL))).toOption.map
        (List.map Document.id) = some [1, 2] := by decide
  cases hf : (Example.server ℝ).FindAllDocuments Real.log
      { plus_words := ["fluffy".toList], minus_words := [] }
      (fun _ document_status _ => decide (document_status = DocumentStatus.ACTUAL)) with
  | error e => rw [hf] at hids; cases hids
  | ok all =>
    rw [hf] at hids
    simp only [Except.toOption, Option.map_some', Option.some.injEq] at hids
    have hperm := std_sort_perm SearchServer.FindTopDocuments.comp all
    have hq : (Example.server ℝ).ParseQuery "fluffy".toList =
        .ok { plus_words := ["fluffy".toList], minus_words := [] } := rfl
    refine ⟨(std_sort SearchServer.FindTopDocuments.comp all).take 5,
      SearchServer.findTopDocuments_eq hq hf, ?_, ?_⟩
    · have hlen : all.length = 2 := by
        have := congrArg List.length hids
        simpa using this
      rw [List.length_take, hperm.length_eq, hlen]
      rfl
    · intro d hd
      have hmem : d ∈ all := hperm.subset (List.mem_of_mem_take hd)
      have hin : d.id ∈ all.map Document.id := List.mem_map_of_mem _ hmem
      rw [hids] at hin
      intro h1
      rw [h1] at hin
      revert hin
      decide

end Example

namespace RequestQueue

/-- C18 fails at the two-document example server, one request for `zzz`
(no result, one sentinel pushed) followed by 721 requests for `fluffy` (two
documents each, 1442 entries pushed): the queue then holds all 1443 entries,
not the most recent 1440, the sentinel is still in it and
`GetNoResultRequests()` returns 1, because `cache`, which the eviction loop
compares with `sec_in_day_`, has counted the 722 requests and not the
entries. -/
theorem C18_cache_counts_requests_not_entries :
    (run 5 Real.log RequestQueue.new
      (Example.request ℝ "zzz".toList ::
        List.replicate 721 (Example.request ℝ "fluffy".toList))).requests_.length = 1443 ∧
    (run 5 Real.log RequestQueue.new
      (Example.request ℝ "zzz".toList ::
        List.replicate 721 (Example.request ℝ "fluffy".toList))).cache = 722 ∧
    (run 5 Real.log RequestQueue.new
      (Example.request ℝ "zzz".toList ::
        List.replicate 721 (Example.request ℝ "fluffy".toList))).GetNoResultRequests =
      .ok 1 := by
  obtain ⟨documents, hft, hlen, hid⟩ := Example.request_fluffy
  have hne : documents ≠ [] := by
    intro h0
    rw [h0] at hlen
    cases hlen
  have hfirst : (AddFindRequest 5 Real.log (Example.request ℝ "zzz".toList).server
      RequestQueue.new (Example.request ℝ "zzz".toList).raw_query
      (Example.request ℝ "zzz".toList).document_predicate).2 =
      { requests_ := [{ results := [{ id := -1, relevance := -(11 / 10), rating := -1 }],
                        query := "zzz".toList }],
        cache := 1 } := by
    have hzzz : (Example.request ℝ "zzz".toList).server.FindTopDocuments 5 Real.log
        (Example.request ℝ "zzz".toList).raw_query
        (Example.request ℝ "zzz".toList).document_predicate = .ok [] := rfl
    rw [addFindRequest_empty 5 Real.log _ RequestQueue.new _ _ hzzz]
    rfl
  rw [run_cons, hfirst]
  obtain ⟨h1, h2, h3, h4⟩ := run_replicate_docs 5 Real.log
    (Example.request ℝ "fluffy".toList) documents hne hft hid 721
    { requests_ := [{ results := [{ id := -1, relevance := -(11 / 10), rating := -1 }],
                      query := "zzz".toList }],
      cache := 1 }
    (by decide)
    (by
      intro request hr
      rw [List.mem_singleton] at hr
      rw [hr]
      simp)
  refine ⟨?_, ?_, ?_⟩
  · rw [h1, hlen]
    rfl
  · rw [h2]
    rfl
  · rw [getNoResultRequests_eq _ h4, h3]
    have hs := @isSentinel_pushed ℝ _ "zzz".toList
    rw [List.countP_cons_of_pos _ _ hs]
    rfl

end RequestQueue

/-! ## The two postings maps -/

namespace SearchServer

variable {α : Type} [LinearOrderedField α]

/-- Visits at distinct positions: the entries at the visited positions have
lost the id, the others are as before. -/
theorem foldl_visit_getElem? (document_id : Int) (order : List Nat) (hnodup : order.Nodup)
    (m : StdMap Str (StdMap Int α)) (i : Nat) :
    (order.foldl (RemoveDocumentPolicy.visit document_id) m)[i]? =
      if i ∈ order then
        (m[i]?).map (fun to_erase => (to_erase.1, StdMap.erase document_id to_erase.2))
      else m[i]? := by
  induction order generalizing m with
  | nil => simp
  | cons a rest ih =>
    rw [List.nodup_cons] at hnodup
    rw [List.foldl_cons, ih hnodup.2]
    unfold RemoveDocumentPolicy.visit
    rw [List.getElem?_modify]
    by_cases hi : i ∈ rest
    · have hne : a ≠ i := fun h => hnodup.1 (h ▸ hi)
      rw [if_pos hi, if_pos (List.mem_cons_of_mem _ hi)]
      simp [hne]
    · rw [if_neg hi]
      by_cases hai : a = i
      · subst hai
        rw [if_pos (List.mem_cons_self _ _)]
        simp
      · have hni : i ∉ a :: rest := by
          intro h
          rcases List.mem_cons.1 h with h | h
          · exact hai h.symm
          · exact hi h
        rw [if_neg hni]
        simp [hai]

/-- A `for_each` that visits every entry once, in whatever order, does what
the loop of the sequential `RemoveDocument` does. -/
theorem foldl_visit_eq_map (document_id : Int) (order : List Nat)
    (m : StdMap Str (StdMap Int α)) (hperm : order.Perm (List.range m.length)) :
    order.foldl (RemoveDocumentPolicy.visit document_id) m =
      m.map (fun it => (it.1, StdMap.erase document_id it.2)) := by
  apply List.ext_getElem?
  intro i
  rw [foldl_visit_getElem? document_id order (hperm.nodup_iff.2 (List.nodup_range _)),
    List.getElem?_map]
  by_cases hi : i < m.length
  · rw [if_pos (hperm.mem_iff.2 (List.mem_range.2 hi))]
  · rw [if_neg (fun h => hi (List.mem_range.1 (hperm.mem_iff.1 h)))]
    rw [List.getElem?_eq_none (Nat.le_of_not_lt hi)]
    rfl

/-- The policy overload of `RemoveDocument` leaves the server that the
sequential one leaves. -/
theorem removeDocumentPolicy_eq (policy : ExecutionPolicy) (order : List Nat)
    (s : SearchServer α) (document_id : Int)
    (hperm : order.Perm (List.range s.word_to_document_freqs_.length)) :
    s.RemoveDocumentPolicy policy order document_id = s.RemoveDocument document_id := by
  unfold RemoveDocumentPolicy RemoveDocument
  split_ifs with h
  · rfl
  · cases policy with
    | seq =>
      simp only
      rw [foldl_visit_eq_map document_id _ _ (List.Perm.refl _)]
    | par =>
      simp only
      rw [foldl_visit_eq_map document_id _ _ hperm]

theorem ReachableWithPolicy.to_reachable {s : SearchServer α} (h : ReachableWithPolicy s) :
    Reachable s := by
  induction h with
  | new stop_words s h => exact Reachable.new stop_words s h
  | add s document_id document status ratings _ ih =>
    exact Reachable.add s document_id document status ratings ih
  | remove s document_id _ ih => exact Reachable.remove s document_id ih
  | removePolicy s policy order document_id hperm _ ih =>
    rw [removeDocumentPolicy_eq policy order s document_id hperm]
    exact Reachable.remove s document_id ih

end SearchServer

theorem StdMap.find2_eq_some_iff {K K₂ V : Type} [LinearOrder K] [LinearOrder K₂]
    {m : StdMap K (StdMap K₂ V)} (hm : StdMap.Ordered m)
    (hin : ∀ k inner, StdMap.find m k = some inner → StdMap.Ordered inner)
    (k₁ : K) (k₂ : K₂) (v : V) :
    StdMap.find2 m k₁ k₂ = some v ↔ ∃ inner, (k₁, inner) ∈ m ∧ (k₂, v) ∈ inner := by
  unfold StdMap.find2
  constructor
  · intro h
    cases hf : StdMap.find m k₁ with
    | none => rw [hf] at h; cases h
    | some inner =>
      rw [hf] at h
      exact ⟨inner, (StdMap.find_eq_some_iff hm _ _).1 hf,
        (StdMap.find_eq_some_iff (hin _ _ hf) _ _).1 h⟩
  · rintro ⟨inner, h1, h2⟩
    have hf := (StdMap.find_eq_some_iff hm _ _).2 h1
    rw [hf]
    exact (StdMap.find_eq_some_iff (hin _ _ hf) _ _).2 h2

namespace SearchServer

variable {α : Type} [LinearOrderedField α]

/-- C21: in every server reachable from a constructed one by calls of
`AddDocument`, `RemoveDocument` and `RemoveDocument(policy, ..)`, the two
postings maps mirror each other: the lookup of (word, document) in
`word_to_document_freqs_` and that of (document, word) in
`document_to_word_freqs_` give the same outcome, and a pair is stored with a
term frequency in one map if and only if it is stored with the same term
frequency in the other. -/
theorem C21_postings_mirror (s : SearchServer α) (hs : ReachableWithPolicy s) :
    (∀ word document_id,
      StdMap.find2 s.word_to_document_freqs_ word document_id =
        StdMap.find2 s.document_to_word_freqs_ document_id word) ∧
    (∀ word document_id term_freq,
      (∃ docs, (word, docs) ∈ s.word_to_document_freqs_ ∧ (document_id, term_freq) ∈ docs) ↔
      (∃ words, (document_id, words) ∈ s.document_to_word_freqs_ ∧
        (word, term_freq) ∈ words)) := by
  have hinv := hs.to_reachable.inv
  refine ⟨hinv.mirror, ?_⟩
  intro word document_id term_freq
  rw [← StdMap.find2_eq_some_iff hinv.w2d_ordered hinv.w2d_inner,
    ← StdMap.find2_eq_some_iff hinv.d2w_ordered hinv.d2w_inner, hinv.mirror]

/-- C21 at the two-document example server after `RemoveDocument(par, 1)` with
the five entries of `word_to_document_freqs_` visited in the order 4, 2, 0,
1, 3. -/
theorem C21_witness :
    ReachableWithPolicy
      ((Example.server ℚ).RemoveDocumentPolicy ExecutionPolicy.par [4, 2, 0, 1, 3] 1) ∧
    ∀ word document_id,
      StdMap.find2 ((Example.server ℚ).RemoveDocumentPolicy ExecutionPolicy.par
        [4, 2, 0, 1, 3] 1).word_to_document_freqs_ word document_id =
      StdMap.find2 ((Example.server ℚ).RemoveDocumentPolicy ExecutionPolicy.par
        [4, 2, 0, 1, 3] 1).document_to_word_freqs_ document_id word :=
  ⟨ReachableWithPolicy.removePolicy _ _ _ _ (by decide)
      (ReachableWithPolicy.add _ _ _ _ _
        (ReachableWithPolicy.add _ _ _ _ _ (ReachableWithPolicy.new [] _ rfl))),
    (C21_postings_mirror _
      (ReachableWithPolicy.removePolicy _ _ _ _ (by decide)
        (ReachableWithPolicy.add _ _ _ _ _
          (ReachableWithPolicy.add _ _ _ _ _ (ReachableWithPolicy.new [] _ rfl))))).1⟩

end SearchServer

/-! ## A failed AddDocument -/

namespace SearchServer

variable {α : Type} [LinearOrderedField α]

/-- C22: when `AddDocument` fails, the exception is `invalid_argument` and the
server is left as it was before the call: the documents, both postings maps,
the table of the stored words, the id set and the document count are
unchanged, as is the whole server. -/
theorem C22_failed_addDocument_changes_nothing (s : SearchServer α) (document_id : Int)
    (document : Str) (status : DocumentStatus) (ratings : List Int) (e : Exception)
    (h : (s.AddDocument document_id document status ratings).1 = .error e) :
    (∃ what, e = .invalid_argument what) ∧
    (s.AddDocument document_id document status ratings).2 = s ∧
    (s.AddDocument document_id document status ratings).2.documents_ = s.documents_ ∧
    (s.AddDocument document_id document status ratings).2.word_to_document_freqs_ =
      s.word_to_document_freqs_ ∧
    (s.AddDocument document_id document status ratings).2.document_to_word_freqs_ =
      s.document_to_word_freqs_ ∧
    (s.AddDocument document_id document status ratings).2.strings_and_view_ =
      s.strings_and_view_ ∧
    (s.AddDocument document_id document status ratings).2.document_ids_ = s.document_ids_ ∧
    (s.AddDocument document_id document status ratings).2.GetDocumentCount =
      s.GetDocumentCount := by
  rcases addDocument_eq s document_id document status ratings with ⟨-, ⟨what, h1⟩, h2⟩ | ⟨-, h2⟩
  · rw [h1] at h
    cases h
    rw [h2]
    exact ⟨⟨what, rfl⟩, rfl, rfl, rfl, rfl, rfl, rfl, rfl⟩
  · rw [h2] at h
    cases h

/-- C22 at the two-document example server: `AddDocument(1, "new\ttext", ..)`
fails for the id in use, `AddDocument(3, "new\ttext", ..)` for the tab, and
both leave the server as it was. -/
theorem C22_witness :
    ((Example.server ℚ).AddDocument 1 "new\ttext".toList DocumentStatus.ACTUAL [1]).1 =
      .error (.invalid_argument "Invalid document_id".toList) ∧
    ((Example.server ℚ).AddDocument 1 "new\ttext".toList DocumentStatus.ACTUAL [1]).2 =
      Example.server ℚ ∧
    ((Example.server ℚ).AddDocument 3 "new\ttext".toList DocumentStatus.ACTUAL [1]).1 =
      .error (.invalid_argument "Word new\ttext is invalid".toList) ∧
    ((Example.server ℚ).AddDocument 3 "new\ttext".toList DocumentStatus.ACTUAL [1]).2 =
      Example.server ℚ :=
  ⟨rfl,
    (C22_failed_addDocument_changes_nothing (Example.server ℚ) 1 "new\ttext".toList
      DocumentStatus.ACTUAL [1] _ rfl).2.1,
    rfl,
    (C22_failed_addDocument_changes_nothing (Example.server ℚ) 3 "new\ttext".toList
      DocumentStatus.ACTUAL [1] _ rfl).2.1⟩

end SearchServer

/-! ## The posting lists and the divisor of the inverse document frequency -/

namespace SearchServer

variable {α : Type} [LinearOrderedField α]

theorem ReachableByAdd.reachable_of_add {s : SearchServer α} (h : ReachableByAdd s) : Reachable s := by
  induction h with
  | new stop_words s h => exact Reachable.new stop_words s h
  | add s document_id document status ratings _ ih =>
    exact Reachable.add s document_id document status ratings ih

/-- One iteration of the loop of `AddDocument` keeps every posting list
non-empty. -/
theorem step_postings_ne_nil {s : SearchServer α} (h : InvCore s) (document_id : Int) (x : α)
    (word : Str)
    (hne : ∀ w docs, StdMap.find s.word_to_document_freqs_ w = some docs → docs ≠ []) :
    ∀ w docs,
      StdMap.find (AddDocument.step document_id x s word).word_to_document_freqs_ w =
        some docs → docs ≠ [] := by
  intro w docs hf
  rw [step_eq h] at hf
  simp only at hf
  rw [StdMap.find_access _ _ _ h.w2d_ordered] at hf
  by_cases hw : w = word
  · rw [if_pos hw, Option.some.injEq] at hf
    intro h0
    have hmem : document_id ∈ StdMap.keys docs := by
      rw [← hf]
      exact (StdMap.mem_keys_access _ _ _ _ _).2 (Or.inl rfl)
    rw [h0] at hmem
    cases hmem
  · rw [if_neg hw] at hf
    exact hne w docs hf

theorem foldl_step_postings_ne_nil {s : SearchServer α} (h : InvCore s) (document_id : Int)
    (x : α) (words : List Str)
    (hne : ∀ w docs, StdMap.find s.word_to_document_freqs_ w = some docs → docs ≠ []) :
    ∀ w docs,
      StdMap.find (words.foldl (AddDocument.step document_id x) s).word_to_document_freqs_ w =
        some docs → docs ≠ [] := by
  induction words generalizing s with
  | nil => exact hne
  | cons word rest ih =>
    rw [List.foldl_cons]
    exact ih (step_invCore h document_id x word)
      (step_postings_ne_nil h document_id x word hne)

/-- Without `RemoveDocument` no posting list is empty. -/
theorem ReachableByAdd.postings_ne_nil {s : SearchServer α} (h : ReachableByAdd s) :
    ∀ w docs, StdMap.find s.word_to_document_freqs_ w = some docs → docs ≠ [] := by
  induction h with
  | new stop_words s h =>
    intro w docs hf
    unfold SearchServer.new at h
    simp only at h
    split_ifs at h
    cases h
    simp [StdMap.find] at hf
  | add s document_id document status ratings hs ih =>
    rcases addDocument_eq s document_id document status ratings with ⟨-, -, h2⟩ | ⟨-, h2⟩
    · rw [h2]
      exact ih
    · rw [h2]
      exact foldl_step_postings_ne_nil hs.reachable_of_add.inv.toInvCore document_id _ _ ih

/-- C23 fails as stated: after `AddDocument(1, "cat", ACTUAL, {1})` and
`RemoveDocument(1)` the word `cat` is still a key of `word_to_document_freqs_`,
with an empty posting list, so that `FindAllDocuments`, whose guard
`count(word) == 0` does not hold, calls `ComputeWordInverseDocumentFreq` with
the divisor `word_to_document_freqs_.at(word).size() = 0`. -/
theorem C23_counterexample :
    Reachable (Example.removed ℚ) ∧
    StdMap.count (Example.removed ℚ).word_to_document_freqs_ "cat".toList ≠ 0 ∧
    StdMap.at_ (Example.removed ℚ).word_to_document_freqs_ "cat".toList = .ok [] ∧
    ¬ (∀ word docs, StdMap.find (Example.removed ℚ).word_to_document_freqs_ word = some docs →
      docs.length ≠ 0) := by
  refine ⟨Reachable.remove _ _ (Reachable.add _ _ _ _ _ (Example.empty_reachable ℚ)),
    by decide, rfl, ?_⟩
  intro h
  exact h "cat".toList [] rfl rfl

/-- C23, amended: in every reachable server, for every word that is a key of
`word_to_document_freqs_`, which are the words for which `FindAllDocuments`
calls `ComputeWordInverseDocumentFreq`, the divisor is the size of the posting
list found by `at(word)` and equals the number of stored documents that
contain the word; it is not zero when a stored document contains the word, and
it is not zero for any key in a server built without `RemoveDocument`. -/
theorem C23_divisor_is_document_frequency (s : SearchServer α) (hs : Reachable s)
    (word : Str) (hkey : StdMap.count s.word_to_document_freqs_ word ≠ 0) :
    ∃ docs, StdMap.at_ s.word_to_document_freqs_ word = .ok docs ∧
      docs.length = s.df word ∧
      ((∃ document_id ∈ s.documentIds, s.containsWord document_id word = true) →
        docs.length ≠ 0) ∧
      (ReachableByAdd s → docs.length ≠ 0) := by
  have hinv := hs.inv
  have hk : word ∈ StdMap.keys s.word_to_document_freqs_ := by
    rw [← count_pos_iff]
    omega
  obtain ⟨docs, hfind, hat⟩ := at_eq_ok hk
  have hlen : docs.length = s.df word := by
    have := postings_length_eq_df hinv word
    rw [hfind] at this
    exact this
  refine ⟨docs, hat, hlen, ?_, ?_⟩
  · rintro ⟨document_id, hid, hc⟩
    rw [hlen]
    unfold df
    intro h0
    have hmem : document_id ∈ s.documentIds.filter (fun d => s.containsWord d word) :=
      List.mem_filter.2 ⟨hid, hc⟩
    rw [List.length_eq_zero.1 h0] at hmem
    cases hmem
  · intro hadd h0
    exact hadd.postings_ne_nil word docs hfind (List.length_eq_zero.1 h0)

/-- C23, amended, at the two-document example server and the word `fluffy`,
which both documents contain. -/
theorem C23_witness :
    StdMap.count (Example.server ℚ).word_to_document_freqs_ "fluffy".toList ≠ 0 ∧
    ∃ docs, StdMap.at_ (Example.server ℚ).word_to_document_freqs_ "fluffy".toList = .ok docs ∧
      docs.length = (Example.server ℚ).df "fluffy".toList ∧
      ((∃ document_id ∈ (Example.server ℚ).documentIds,
          (Example.server ℚ).containsWord document_id "fluffy".toList = true) →
        docs.length ≠ 0) ∧
      (ReachableByAdd (Example.server ℚ) → docs.length ≠ 0) :=
  ⟨by decide,
    C23_divisor_is_document_frequency (Example.server ℚ) (Example.server_reachable ℚ)
      "fluffy".toList (by decide)⟩

end SearchServer

/-! ## The term frequencies in `double` -/

namespace Double

/-- The value of `dyadic significand exponent` is `significand * 2 ^ exponent`. -/
theorem toRat_dyadic (significand : Nat) (exponent : Int) (h : -1074 ≤ exponent) :
    (dyadic significand exponent).toRat = significand * 2 ^ exponent := by
  simp only [toRat, dyadic, pow2, Nat.one_shiftLeft]
  have h2 : ((exponent + 1074).toNat : Int) = exponent + 1074 := Int.toNat_of_nonneg (by omega)
  have h3 : (2 : ℚ) ^ (exponent + 1074).toNat = 2 ^ exponent * 2 ^ 1074 := by
    rw [← zpow_natCast (2 : ℚ) (exponent + 1074).toNat, h2,
      zpow_add₀ (by norm_num : (2 : ℚ) ≠ 0), zpow_ofNat]
  push_cast
  rw [h3, ← mul_assoc, mul_div_assoc, div_self (pow_ne_zero _ (by norm_num : (2 : ℚ) ≠ 0)),
    mul_one]

theorem pow2_pos (k : Nat) : 0 < pow2 k := by
  unfold pow2
  rw [Nat.one_shiftLeft]
  exact Nat.pow_pos (by decide)

/-- The result of `round` is the multiple of the quantum `2 ^ shift` nearest to
`numerator / denominator`: it differs from it by at most half a quantum. -/
theorem round_nearest (numerator : Int) (denominator : Nat) (hd : 0 < denominator) :
    2 * |(round numerator denominator).units * denominator - numerator| ≤
      denominator * pow2 (log2 (numerator.natAbs / denominator) + 1 - 53) := by
  unfold round
  simp only
  generalize log2 (numerator.natAbs / denominator) + 1 - 53 = shift
  have hP := pow2_pos shift
  generalize pow2 shift = P at hP ⊢
  have hQ : 0 < denominator * P := Nat.mul_pos hd hP
  have hdm := Nat.div_add_mod numerator.natAbs (denominator * P)
  have hr := Nat.mod_lt numerator.natAbs hQ
  generalize numerator.natAbs / (denominator * P) = q at hdm ⊢
  generalize numerator.natAbs % (denominator * P) = r at hdm hr ⊢
  have hN : numerator = Int.sign numerator * (numerator.natAbs : Int) :=
    (Int.sign_mul_natAbs numerator).symm
  have key : ∀ s : Nat, 2 * |(s : Int) * (denominator * P : Nat) - numerator.natAbs| ≤
      (denominator * P : Nat) →
      2 * |Int.sign numerator * ((s * P : Nat) : Int) * denominator - numerator| ≤
        denominator * P := by
    intro s hs
    have e : Int.sign numerator * ((s * P : Nat) : Int) * denominator - numerator =
        Int.sign numerator * ((s : Int) * (denominator * P : Nat) - numerator.natAbs) := by
      nth_rewrite 2 [hN]
      push_cast
      ring
    rw [e, abs_mul]
    have hsign : |Int.sign numerator| ≤ 1 := by
      rcases lt_trichotomy numerator 0 with h | h | h
      · rw [Int.sign_eq_neg_one_of_neg h]; decide
      · rw [h]; decide
      · rw [Int.sign_eq_one_of_pos h]; decide
    have hnn := abs_nonneg ((s : Int) * (denominator * P : Nat) - numerator.natAbs)
    have hsn := abs_nonneg (Int.sign numerator)
    push_cast at hs ⊢
    nlinarith
  apply key
  rw [← hdm]
  push_cast
  split_ifs with h1 h2 h3
  · have e : (q : Int) * (denominator * P) - (denominator * P * q + r) = -r := by ring
    rw [e, abs_neg, abs_of_nonneg (by positivity)]
    have : (2 * r : Int) < denominator * P := by exact_mod_cast h1
    linarith
  · have e : ((q : Int) + 1) * (denominator * P) - (denominator * P * q + r) =
        denominator * P - r := by ring
    have h2' : (denominator * P : Int) < 2 * r := by exact_mod_cast h2
    rw [e, abs_of_nonneg (by linarith)]
    linarith
  · have e : (q : Int) * (denominator * P) - (denominator * P * q + r) = -r := by ring
    rw [e, abs_neg, abs_of_nonneg (by positivity)]
    have : (2 * r : Int) ≤ denominator * P := by exact_mod_cast (Nat.le_of_not_lt h2)
    linarith
  · have e : ((q : Int) + 1) * (denominator * P) - (denominator * P * q + r) =
        denominator * P - r := by ring
    have h1' : (denominator * P : Int) ≤ 2 * r := by exact_mod_cast (Nat.le_of_not_lt h1)
    have hr' : (r : Int) < denominator * P := by exact_mod_cast hr
    rw [e, abs_of_nonneg (by linarith)]
    linarith

theorem pow2_mono {a b : Nat} (h : a ≤ b) : pow2 a ≤ pow2 b := by
  unfold pow2
  rw [Nat.one_shiftLeft, Nat.one_shiftLeft]
  exact Nat.pow_le_pow_right (by decide) h

/-- One step of the bisection in `log2`. -/
theorem log2_bisect (n k step big : Nat) (hbig : big = step + step) (h1 : pow2 k ≤ n)
    (h2 : n < pow2 (k + big)) :
    pow2 (if pow2 (k + step) ≤ n then k + step else k) ≤ n ∧
      n < pow2 ((if pow2 (k + step) ≤ n then k + step else k) + step) := by
  subst hbig
  split_ifs with h
  · exact ⟨h, by rw [Nat.add_assoc]; exact h2⟩
  · exact ⟨h1, Nat.lt_of_not_le h⟩

/-- The bisection finds the position of the leading bit. -/
theorem log2_spec (n : Nat) (h1 : 0 < n) (h2 : n < pow2 4096) :
    pow2 (log2 n) ≤ n ∧ n < pow2 (log2 n + 1) := by
  have a0 : pow2 0 ≤ n := h1
  have b0 : n < pow2 (0 + 4096) := h2
  obtain ⟨a1, b1⟩ := log2_bisect n _ 2048 4096 rfl a0 b0
  obtain ⟨a2, b2⟩ := log2_bisect n _ 1024 2048 rfl a1 b1
  obtain ⟨a3, b3⟩ := log2_bisect n _ 512 1024 rfl a2 b2
  obtain ⟨a4, b4⟩ := log2_bisect n _ 256 512 rfl a3 b3
  obtain ⟨a5, b5⟩ := log2_bisect n _ 128 256 rfl a4 b4
  obtain ⟨a6, b6⟩ := log2_bisect n _ 64 128 rfl a5 b5
  obtain ⟨a7, b7⟩ := log2_bisect n _ 32 64 rfl a6 b6
  obtain ⟨a8, b8⟩ := log2_bisect n _ 16 32 rfl a7 b7
  obtain ⟨a9, b9⟩ := log2_bisect n _ 8 16 rfl a8 b8
  obtain ⟨a10, b10⟩ := log2_bisect n _ 4 8 rfl a9 b9
  obtain ⟨a11, b11⟩ := log2_bisect n _ 2 4 rfl a10 b10
  obtain ⟨a12, b12⟩ := log2_bisect n _ 1 2 rfl a11 b11
  unfold log2
  simp only [List.foldl]
  exact ⟨a12, b12⟩

/-- The model on values that are known for binary64: `1.0`, `0.1`, `0.2`,
`1.0 / 3`, `0.6`, the sum of ten `0.1`, the conversion of `2 ^ 53 + 1` and of
`2 ^ 53 + 3` (ties go to the even significand), and halves of a unit. -/
theorem known_values :
    ofNat 1 = dyadic 1 0 ∧
    div (ofNat 1) (ofNat 10) = dyadic 3602879701896397 (-55) ∧
    div (ofNat 1) (ofNat 5) = dyadic 3602879701896397 (-54) ∧
    div (ofNat 1) (ofNat 3) = dyadic 6004799503160661 (-54) ∧
    div (ofNat 3) (ofNat 5) = dyadic 5404319552844595 (-53) ∧
    (List.replicate 10 (div (ofNat 1) (ofNat 10))).foldl add { units := 0 } =
      dyadic 9007199254740991 (-53) ∧
    ofNat 9007199254740993 = ofNat 9007199254740992 ∧
    ofNat 9007199254740995 = ofNat 9007199254740996 ∧
    round 1 2 = { units := 0 } ∧ round 3 2 = { units := 2 } ∧ round 5 2 = { units := 2 } ∧
    round (-5) 2 = { units := -2 } ∧ round 7 4 = { units := 2 } := by
  decide

end Double

namespace SearchServer

/-- C8 fails as stated on the program's `double` arithmetic.  On the server
without stop words, `AddDocument(1, "a a a b c", ACTUAL, {1})` stores for `a`,
3 of the 5 tokens, the rounded `0.2 + 0.2 + 0.2`, which is
`5404319552844596 / 2 ^ 53 = 0.6000000000000001`: it is not `3 / 5`, nor the
`double` quotient `3.0 / 5`.  `AddDocument(1, "a a a a a a a a a a", ..)`
stores for `a`, 10 of the 10 tokens, the rounded sum of ten `0.1`, which is
`9007199254740991 / 2 ^ 53 = 0.9999999999999999`, not `1`. -/
theorem C8_counterexample :
    SearchServer.new [] = .ok (Example.empty Double) ∧
    ((Example.empty Double).AddDocumentDouble 1 "a a a b c".toList DocumentStatus.ACTUAL
      [1]).1 = .ok () ∧
    ((Example.empty Double).nonStopWords "a a a b c".toList).count "a".toList = 3 ∧
    ((Example.empty Double).nonStopWords "a a a b c".toList).length = 5 ∧
    StdMap.find (((Example.empty Double).AddDocumentDouble 1 "a a a b c".toList
      DocumentStatus.ACTUAL [1]).2.GetWordFrequencies 1) "a".toList =
      some (Double.dyadic 5404319552844596 (-53)) ∧
    (Double.dyadic 5404319552844596 (-53)).toRat = 5404319552844596 / 2 ^ 53 ∧
    (Double.dyadic 5404319552844596 (-53)).toRat ≠ 3 / 5 ∧
    Double.dyadic 5404319552844596 (-53) ≠ Double.div (Double.ofNat 3) (Double.ofNat 5) ∧
    ((Example.empty Double).AddDocumentDouble 1 "a a a a a a a a a a".toList
      DocumentStatus.ACTUAL [1]).1 = .ok () ∧
    ((Example.empty Double).nonStopWords "a a a a a a a a a a".toList).count "a".toList = 10 ∧
    ((Example.empty Double).nonStopWords "a a a a a a a a a a".toList).length = 10 ∧
    StdMap.find (((Example.empty Double).AddDocumentDouble 1 "a a a a a a a a a a".toList
      DocumentStatus.ACTUAL [1]).2.GetWordFrequencies 1) "a".toList =
      some (Double.dyadic 9007199254740991 (-53)) ∧
    (Double.dyadic 9007199254740991 (-53)).toRat = 9007199254740991 / 2 ^ 53 ∧
    (Double.dyadic 9007199254740991 (-53)).toRat ≠ 1 := by
  refine ⟨rfl, rfl, by decide, by decide, by decide, ?_, ?_, by decide, rfl, by decide,
    by decide, by decide, ?_, ?_⟩
  · rw [Double.toRat_dyadic _ _ (by decide)]
    norm_num
  · rw [Double.toRat_dyadic _ _ (by decide)]
    norm_num
  · rw [Double.toRat_dyadic _ _ (by decide)]
    norm_num
  · rw [Double.toRat_dyadic _ _ (by decide)]
    norm_num

end SearchServer
